import Mathlib

/-!
# Verification of the Minecraft 1.12 → 1.20.4 command converter

Shallow embedding of the core of `command_converter.py`:

* the SNBT parser (`NBTParser.parse_snbt`) and serializer
  (`NBTSerializer.serialize_snbt`), modelled over `List Char` with Python
  floats modelled as exact decimal rationals `m / 10^e` (`PyFloat`);
* the target-selector rewriter (`ParameterConverters.convert_selector`),
  with Python exceptions modelled as `Except`;
* the NBT converter registry (`NBTConverterRegistry.convert`) with
  in-place mutation of the compound modelled by converters returning the
  state of the compound at the moment an exception is raised;
* the coordinate helper (`convert_coordinate`) and two command handlers
  (`_convert_summon`, `_convert_testfor`).

Strings are embedded as `List Char` (`Str`) so that splitting/scanning
behaviour can be reasoned about by list induction.  External collaborators
(the entity-rename lookup table, which is data loaded from CSV files, and a
few large `self.`-methods such as `_convert_item_dict_to_121_format`) are
taken as parameters of the embedded functions.
-/

namespace CmdConv

abbrev Str := List Char

/-- Python `str.strip()` whitespace class. -/
def pyWsChar (c : Char) : Bool :=
  c == ' ' || c == '\t' || c == '\n' || c == '\x0d' || c == '\x0b' || c == '\x0c'

/-- The three-character whitespace class `' \n\t'` used inside the SNBT
parser's scanning loops (`command_converter.py` lines 3204, 3237, 3253, 3266). -/
def ws3 (c : Char) : Bool := c == ' ' || c == '\n' || c == '\t'

/-- Drop matching characters from the end of a list. -/
def dropWhileEnd (p : Char → Bool) (s : Str) : Str :=
  (s.reverse.dropWhile p).reverse

/-- Python `str.strip()` (no argument). -/
def pyStrip (s : Str) : Str := dropWhileEnd pyWsChar (s.dropWhile pyWsChar)

/-- Python `str.rstrip(c)` for a single character `c`. -/
def pyRStripChar (c : Char) (s : Str) : Str := dropWhileEnd (· == c) s

/-- Python `str.lstrip(c)` for a single character `c`. -/
def pyLStripChar (c : Char) (s : Str) : Str := s.dropWhile (· == c)

/-- Python `s.split(c)` for a one-character separator: always returns at
least one (possibly empty) piece. -/
def splitOnChar (c : Char) : Str → List Str
  | [] => [[]]
  | x :: xs =>
    match splitOnChar c xs with
    | [] => [[]]
    | h :: t => if x = c then [] :: h :: t else (x :: h) :: t

/-- Python `s.split(c, 1)`: split at the first occurrence only.
Returns `none` when the separator does not occur. -/
def splitFirst (c : Char) : Str → Option (Str × Str)
  | [] => none
  | x :: xs =>
    if x = c then some ([], xs)
    else match splitFirst c xs with
      | none => none
      | some (a, b) => some (x :: a, b)

/-- Python `sub in s` substring containment. -/
def containsSub (pat : Str) : Str → Bool
  | [] => pat.isPrefixOf []
  | c :: rest => pat.isPrefixOf (c :: rest) || containsSub pat rest

/-- Python `str.lower()` restricted to ASCII (the converter only lowercases
ASCII selector values such as gamemode letters). -/
def asciiLower (c : Char) : Char :=
  if 'A' ≤ c && c ≤ 'Z' then Char.ofNat (c.toNat + 32) else c

def strLower (s : Str) : Str := s.map asciiLower

/-- Python `str.isdigit()` restricted to ASCII digits (Unicode digit
characters are not modelled; none occur in the claims). -/
def pyIsDigitStr (s : Str) : Bool := !s.isEmpty && s.all Char.isDigit

/-- Value of a string of ASCII digits read most-significant first,
i.e. Python `int` on a digit-only string. -/
def parseDigits (s : Str) : Nat := s.foldl (fun a c => a * 10 + (c.toNat - 48)) 0

/-- Python `int(s)`: optional surrounding whitespace, optional sign, digits.
(The rarely used underscore separators of Python 3.6+ are not modelled.)
Returns `none` where Python raises `ValueError`. -/
def pyIntOfString (s : Str) : Option Int :=
  let t := pyStrip s
  match t with
  | [] => none
  | c :: rest =>
    let pr : Bool × Str :=
      if c = '-' then (true, rest) else if c = '+' then (false, rest) else (false, t)
    if pr.2 ≠ [] ∧ pr.2.all Char.isDigit then
      some (if pr.1 then -(parseDigits pr.2 : Int) else (parseDigits pr.2 : Int))
    else none

/-- Decimal digits of a natural number, least-significant first; the fuel
argument (`n` itself suffices, since `n / 10 < n`) keeps recursion
structural. -/
def natDigitsGo : Nat → Nat → Str
  | _, 0 => []
  | 0, _ + 1 => []
  | f + 1, n + 1 => Char.ofNat (48 + ((n + 1) % 10)) :: natDigitsGo f ((n + 1) / 10)

/-- Python `str(n)` for a natural number. -/
def pyNatStr (n : Nat) : Str := if n = 0 then ['0'] else (natDigitsGo n n).reverse

/-- Python `str(n)` for an `int`. -/
def pyIntStr (n : Int) : Str :=
  if n < 0 then '-' :: pyNatStr n.natAbs else pyNatStr n.natAbs

/--
Python floats are modelled as exact decimal rationals `m / 10^e`.
This is an abstraction of IEEE-754 binary doubles: every float literal the
converter parses or prints denotes a decimal rational, `str(float)` in
Python 3 round-trips exactly, and all theorems below evaluate the model
only at values where the binary rounding is immaterial (documented at each
use site).
-/
structure PyFloat where
  m : Int
  e : Nat
deriving DecidableEq

/-- Canonicalise `m / 10^e` by stripping trailing zero decimals (the unique
representation standing in for the float's binary value). -/
def normGo : Int → Nat → PyFloat
  | m, 0 => ⟨m, 0⟩
  | m, e + 1 => if m % 10 = 0 then normGo (m / 10) e else ⟨m, e + 1⟩

def mkPyFloat (m : Int) (e : Nat) : PyFloat := normGo m e

/-- `a/10^ea < b/10^eb` by cross-multiplication.  The source compares
IEEE-754 doubles, which agrees with the exact decimal order only while
both operands are exactly representable (below `2^53` significance);
theorems comparing floats bound their inputs accordingly. -/
def pyFloatLt (a b : PyFloat) : Bool :=
  a.m * (10 : Int) ^ b.e < b.m * (10 : Int) ^ a.e

/-- `q + 0.5` (used by the selector's x/y/z block-centre adjustment). -/
def pyFloatAddHalf (q : PyFloat) : PyFloat :=
  match q.e with
  | 0 => mkPyFloat (q.m * 10 + 5) 1
  | e + 1 => mkPyFloat (q.m + 5 * (10 : Int) ^ e) (e + 1)

/-- Python `str(q)` for a float in the plain positional range: canonical
digits with at least one fractional digit.  (Python switches to scientific
notation below 1e-4 and at/above 1e16; theorems restrict to the positional
range so the model and Python agree.) -/
def pyFloatStr (q : PyFloat) : Str :=
  let qn := normGo q.m q.e
  let n := qn.m.natAbs
  let body :=
    if qn.e = 0 then pyNatStr n ++ ['.', '0']
    else
      let ds := pyNatStr n
      let pad := List.replicate (qn.e + 1 - ds.length) '0' ++ ds
      pad.take (pad.length - qn.e) ++ '.' :: pad.drop (pad.length - qn.e)
  if qn.m < 0 then '-' :: body else body

/-- Left-pad a digit string with zeros to a given width. -/
def padZeros (w : Nat) (s : Str) : Str := List.replicate (w - s.length) '0' ++ s

/-- Python `f"{q:.3f}"` on the decimal model: round half-to-even at three
decimals.  (Python rounds the underlying binary double; the two agree
except at decimal ties, and no theorem evaluates this at a tie.) -/
def format3f (q : PyFloat) : Str :=
  let a := q.m.natAbs
  let n : Nat :=
    if q.e ≤ 3 then a * 10 ^ (3 - q.e)
    else
      let d := 10 ^ (q.e - 3)
      let quot := a / d
      let r := a % d
      if 2 * r > d then quot + 1
      else if 2 * r < d then quot
      else if quot % 2 = 0 then quot else quot + 1
  let body := pyNatStr (n / 1000) ++ '.' :: padZeros 3 (pyNatStr (n % 1000))
  if q.m < 0 ∧ n ≠ 0 then '-' :: body else body

/-- Python `float(s)`: optional whitespace, sign, digits with at most one
decimal point (at least one digit), optional exponent.  (`inf`/`nan` not
modelled.)  Returns `none` where Python raises `ValueError`.  The result
is the exact decimal; Python rounds to the nearest double, so the model is
faithful only while the decimal is within `2^53` significance — theorems
using it bound their inputs accordingly. -/
def pyFloatOfString (s : Str) : Option PyFloat :=
  let t := pyStrip s
  let sgn : Bool × Str :=
    match t with
    | '-' :: r => (true, r)
    | '+' :: r => (false, r)
    | _ => (false, t)
  let intDs := sgn.2.takeWhile Char.isDigit
  let r1 := sgn.2.drop intDs.length
  let fr : Str × Str :=
    match r1 with
    | '.' :: r2 => (r2.takeWhile Char.isDigit, r2.drop (r2.takeWhile Char.isDigit).length)
    | _ => ([], r1)
  if intDs ++ fr.1 = [] then none
  else
    let expo : Option (Int × Str) :=
      match fr.2 with
      | 'e' :: r3 =>
        (match r3 with
         | '-' :: r4 =>
           if (r4.takeWhile Char.isDigit) ≠ [] then
             some (-(parseDigits (r4.takeWhile Char.isDigit) : Int),
                   r4.drop (r4.takeWhile Char.isDigit).length)
           else none
         | '+' :: r4 =>
           if (r4.takeWhile Char.isDigit) ≠ [] then
             some ((parseDigits (r4.takeWhile Char.isDigit) : Int),
                   r4.drop (r4.takeWhile Char.isDigit).length)
           else none
         | r4 =>
           if (r4.takeWhile Char.isDigit) ≠ [] then
             some ((parseDigits (r4.takeWhile Char.isDigit) : Int),
                   r4.drop (r4.takeWhile Char.isDigit).length)
           else none)
      | 'E' :: r3 =>
        (match r3 with
         | '-' :: r4 =>
           if (r4.takeWhile Char.isDigit) ≠ [] then
             some (-(parseDigits (r4.takeWhile Char.isDigit) : Int),
                   r4.drop (r4.takeWhile Char.isDigit).length)
           else none
         | '+' :: r4 =>
           if (r4.takeWhile Char.isDigit) ≠ [] then
             some ((parseDigits (r4.takeWhile Char.isDigit) : Int),
                   r4.drop (r4.takeWhile Char.isDigit).length)
           else none
         | r4 =>
           if (r4.takeWhile Char.isDigit) ≠ [] then
             some ((parseDigits (r4.takeWhile Char.isDigit) : Int),
                   r4.drop (r4.takeWhile Char.isDigit).length)
           else none)
      | r3 => some (0, r3)
    match expo with
    | none => none
    | some (k, rest) =>
      if rest ≠ [] then none
      else
        let m0 : Nat := parseDigits (intDs ++ fr.1)
        let e0 : Int := (fr.1.length : Int) - k
        let mag : PyFloat :=
          if 0 ≤ e0 then mkPyFloat (m0 : Int) e0.toNat
          else mkPyFloat ((m0 : Int) * (10 : Int) ^ (-e0).toNat) 0
        some (if sgn.1 then ⟨-mag.m, mag.e⟩ else mag)

/-!
## The data model

`NBTParser.parse_snbt` (`command_converter.py` 3171-3198) produces Python
dicts, lists, strings, ints, floats and booleans; `DataNode` is their tagged
union.  A compound is an insertion-ordered association list with unique keys
(Python `dict`).
-/

inductive NBT where
  | compound : List (Str × NBT) → NBT
  | list : List NBT → NBT
  | str : Str → NBT
  | int : Int → NBT
  | float : PyFloat → NBT
  | bool : Bool → NBT

mutual

def nbtDecEq : (a b : NBT) → Decidable (a = b)
  | .compound a, .compound b =>
    match kvsDecEq a b with
    | isTrue h => isTrue (by rw [h])
    | isFalse h => isFalse (by intro hh; cases hh; exact h rfl)
  | .list a, .list b =>
    match listDecEq a b with
    | isTrue h => isTrue (by rw [h])
    | isFalse h => isFalse (by intro hh; cases hh; exact h rfl)
  | .str a, .str b =>
    match decEq a b with
    | isTrue h => isTrue (by rw [h])
    | isFalse h => isFalse (by intro hh; cases hh; exact h rfl)
  | .int a, .int b =>
    match decEq a b with
    | isTrue h => isTrue (by rw [h])
    | isFalse h => isFalse (by intro hh; cases hh; exact h rfl)
  | .float a, .float b =>
    match decEq a b with
    | isTrue h => isTrue (by rw [h])
    | isFalse h => isFalse (by intro hh; cases hh; exact h rfl)
  | .bool a, .bool b =>
    match decEq a b with
    | isTrue h => isTrue (by rw [h])
    | isFalse h => isFalse (by intro hh; cases hh; exact h rfl)
  | .compound _, .list _ => isFalse nofun
  | .compound _, .str _ => isFalse nofun
  | .compound _, .int _ => isFalse nofun
  | .compound _, .float _ => isFalse nofun
  | .compound _, .bool _ => isFalse nofun
  | .list _, .compound _ => isFalse nofun
  | .list _, .str _ => isFalse nofun
  | .list _, .int _ => isFalse nofun
  | .list _, .float _ => isFalse nofun
  | .list _, .bool _ => isFalse nofun
  | .str _, .compound _ => isFalse nofun
  | .str _, .list _ => isFalse nofun
  | .str _, .int _ => isFalse nofun
  | .str _, .float _ => isFalse nofun
  | .str _, .bool _ => isFalse nofun
  | .int _, .compound _ => isFalse nofun
  | .int _, .list _ => isFalse nofun
  | .int _, .str _ => isFalse nofun
  | .int _, .float _ => isFalse nofun
  | .int _, .bool _ => isFalse nofun
  | .float _, .compound _ => isFalse nofun
  | .float _, .list _ => isFalse nofun
  | .float _, .str _ => isFalse nofun
  | .float _, .int _ => isFalse nofun
  | .float _, .bool _ => isFalse nofun
  | .bool _, .compound _ => isFalse nofun
  | .bool _, .list _ => isFalse nofun
  | .bool _, .str _ => isFalse nofun
  | .bool _, .int _ => isFalse nofun
  | .bool _, .float _ => isFalse nofun

def kvsDecEq : (a b : List (Str × NBT)) → Decidable (a = b)
  | [], [] => isTrue rfl
  | [], _ :: _ => isFalse nofun
  | _ :: _, [] => isFalse nofun
  | (k1, v1) :: t1, (k2, v2) :: t2 =>
    match decEq k1 k2, nbtDecEq v1 v2, kvsDecEq t1 t2 with
    | isTrue h1, isTrue h2, isTrue h3 => isTrue (by rw [h1, h2, h3])
    | isFalse h1, _, _ => isFalse (by intro hh; cases hh; exact h1 rfl)
    | _, isFalse h2, _ => isFalse (by intro hh; cases hh; exact h2 rfl)
    | _, _, isFalse h3 => isFalse (by intro hh; cases hh; exact h3 rfl)

def listDecEq : (a b : List NBT) → Decidable (a = b)
  | [], [] => isTrue rfl
  | [], _ :: _ => isFalse nofun
  | _ :: _, [] => isFalse nofun
  | v1 :: t1, v2 :: t2 =>
    match nbtDecEq v1 v2, listDecEq t1 t2 with
    | isTrue h1, isTrue h2 => isTrue (by rw [h1, h2])
    | isFalse h1, _ => isFalse (by intro hh; cases hh; exact h1 rfl)
    | _, isFalse h2 => isFalse (by intro hh; cases hh; exact h2 rfl)

end

instance : DecidableEq NBT := nbtDecEq

/-- Python `d[k] = v`: replace in place if the key exists, else append. -/
def insertKV (k : Str) (v : NBT) : List (Str × NBT) → List (Str × NBT)
  | [] => [(k, v)]
  | (k0, v0) :: t => if k0 = k then (k0, v) :: t else (k0, v0) :: insertKV k v t

/-- Python `k in d`. -/
def hasKeyKV (k : Str) (kvs : List (Str × NBT)) : Bool :=
  kvs.any (fun p => p.1 = k)

/-- Python `d.get(k)` / `d[k]`. -/
def lookupKV (k : Str) : List (Str × NBT) → Option NBT
  | [] => none
  | (k0, v0) :: t => if k0 = k then some v0 else lookupKV k t

/-- Python `del d[k]`. -/
def delKV (k : Str) : List (Str × NBT) → List (Str × NBT)
  | [] => []
  | (k0, v0) :: t => if k0 = k then t else (k0, v0) :: delKV k t

/-!
## The SNBT parser

Suffix-passing embedding of `NBTParser` (`command_converter.py` 3168-3433).
The Python code walks positions in a fixed string; here each function takes
the remaining suffix.  `_parse_array`'s one look-behind (`text[pos-1]`, used
to skip backslash-escaped quotes) is modelled by threading the previous
character.  The recursion is made total with a fuel argument; the fuel
needed is quadratic in the input length because `_parse_array` re-parses
each collected item from its start position (`_parse_value(text,
current_item_start)`, line 3309/3318).
-/

/-- Body of `NBTParser._parse_string` (lines 3348-3377); the opening quote
`qc` has already been consumed.  Returns (content, suffix after the closing
quote); an unclosed string consumes everything (line 3377). -/
def parseStringGo (qc : Char) : Str → Str × Str
  | [] => ([], [])
  | '\\' :: c :: rest =>
    if c = '\\' ∨ c = qc then
      let pr := parseStringGo qc rest
      (c :: pr.1, pr.2)
    else
      let pr := parseStringGo qc (c :: rest)
      ('\\' :: pr.1, pr.2)
  | c :: rest =>
    if c = qc then ([], rest)
    else
      let pr := parseStringGo qc rest
      (c :: pr.1, pr.2)

/-- Characters of an unquoted compound key (`_parse_key`, line 3340).
`Char.isAlphanum` is ASCII; Python's `str.isalnum` extends it to Unicode
letters, which no claim exercises. -/
def keyChar (c : Char) : Bool := c.isAlphanum || c == '_' || c == '.' || c == '-'

/-- `NBTParser._parse_key` (lines 3327-3346).  Mirrors the source's position
arithmetic: the result position ignores any whitespace stripped by `lstrip`
(its callers always pre-skip whitespace, so the discrepancy is latent). -/
def parseKey (s : Str) : Option Str × Str :=
  let t := s.dropWhile pyWsChar
  match t with
  | [] => (none, s)
  | c :: rest =>
    if c = '"' ∨ c = '\'' then
      let pr := parseStringGo c rest
      (some pr.1, s.drop (t.length - pr.2.length))
    else
      let ke := t.takeWhile keyChar
      if ke.length > 0 then (some ke, s.drop ke.length) else (none, s)

/-- Characters of an unquoted identifier value (`_parse_primitive`,
line 3427). -/
def identChar (c : Char) : Bool := c.isAlphanum || c == '_' || c == ':' || c == '.' || c == '-'

/-- The number scan of `_parse_primitive` (lines 3403-3413): consume digits
and at most one decimal point; any other character (including the one-letter
type suffixes `b`,`s`,`l`,`f`,`d`, which the loop breaks on without
consuming) ends the scan.  Returns (consumed, rest, saw-a-dot). -/
def numScan : Str → Bool → Str × Str × Bool
  | [], hd => ([], [], hd)
  | c :: rest, hd =>
    if c.isDigit then
      let pr := numScan rest hd
      (c :: pr.1, pr.2.1, pr.2.2)
    else if c = '.' ∧ ¬hd then
      let pr := numScan rest true
      (c :: pr.1, pr.2.1, pr.2.2)
    else ([], c :: rest, hd)

/-- Identifier fallback of `_parse_primitive` (lines 3425-3433): restarts
from the original position (so a consumed sign is re-read). -/
def identFallback (s : Str) : Option NBT × Str :=
  let id := s.takeWhile identChar
  if id ≠ [] then (some (NBT.str id), s.drop id.length) else (none, s)

/-- `NBTParser._parse_primitive` (lines 3379-3433).  Note two faithful
quirks: `true`/`false` match as bare prefixes, and a leading sign is
consumed but excluded from `num_str`, so `-5` parses as the integer `5`. -/
def parsePrimitiveGo (s : Str) : Option NBT × Str :=
  match s with
  | [] => (none, [])
  | _ =>
    if s.take 4 = ['t', 'r', 'u', 'e'] then (some (NBT.bool true), s.drop 4)
    else if s.take 5 = ['f', 'a', 'l', 's', 'e'] then (some (NBT.bool false), s.drop 5)
    else
      let afterSign :=
        match s with
        | c :: rest => if c = '+' ∨ c = '-' then rest else s
        | [] => s
      let pr := numScan afterSign false
      if pr.1 ≠ [] then
        if pr.2.2 then
          if pr.1.any Char.isDigit then
            let intDs := pr.1.takeWhile Char.isDigit
            let fracDs := pr.1.drop (intDs.length + 1)
            (some (NBT.float (mkPyFloat (parseDigits (intDs ++ fracDs) : Int) fracDs.length)),
             pr.2.1)
          else identFallback s
        else (some (NBT.int (parseDigits pr.1 : Int)), pr.2.1)
      else identFallback s

mutual

/-- `NBTParser._parse_value` (lines 3200-3227). -/
def parseValue : Nat → Str → Option NBT × Str
  | 0, s => (none, s)
  | fuel + 1, s =>
    let t := s.dropWhile ws3
    match t with
    | [] => (none, t)
    | c :: rest =>
      if c = '{' then
        let pr := parseCompoundBody fuel rest []
        (some (NBT.compound pr.1), pr.2)
      else if c = '[' then
        let pr := parseArrayBody fuel '[' false '"' 0 1 rest 0 [] rest
        (some (NBT.list pr.1), pr.2)
      else if c = '"' ∨ c = '\'' then
        let pr := parseStringGo c rest
        (some (NBT.str pr.1), pr.2)
      else parsePrimitiveGo t

/-- `NBTParser._parse_compound` (lines 3229-3269), after the opening brace.
On a failed key parse the loop breaks returning the current position; on a
failed value parse the position advances by one character (line 3263). -/
def parseCompoundBody : Nat → Str → List (Str × NBT) → List (Str × NBT) × Str
  | 0, s, acc => (acc, s)
  | fuel + 1, s, acc =>
    let s1 := s.dropWhile ws3
    match s1 with
    | [] => (acc, [])
    | c :: rest =>
      if c = '}' then (acc, rest)
      else
        match parseKey s1 with
        | (none, _) => (acc, s1)
        | (some k, s2) =>
          let s3 := s2.dropWhile (fun c2 => ws3 c2 || c2 == ':')
          let pr := parseValue fuel s3
          let s4 := match pr.1 with | some _ => pr.2 | none => s3.drop 1
          let acc2 := match pr.1 with | some v => insertKV k v acc | none => acc
          let s5 := s4.dropWhile (fun c2 => ws3 c2 || c2 == ',')
          parseCompoundBody fuel s5 acc2

/-- `NBTParser._parse_array` (lines 3271-3325), after the opening bracket:
a character scan tracking quote state and brace/bracket depth, collecting
items at top-level commas by re-parsing from each item's start.  `prev`
models `text[pos-1]`; `itemStart` is the suffix at `current_item_start` and
`n` the number of characters scanned since; depths are `Int` since the
source lets them go negative. -/
def parseArrayBody : Nat → Char → Bool → Char → Int → Int → Str → Nat → List NBT → Str →
    List NBT × Str
  | 0, _, _, _, _, _, _, _, acc, _ => (acc, [])
  | fuel + 1, prev, inQ, qc, braceD, bracketD, itemStart, n, acc, s =>
    match s with
    | [] => (acc, [])
    | c :: rest =>
      if (c = '"' ∨ c = '\'') ∧ prev ≠ '\\' then
        if ¬inQ then parseArrayBody fuel c true c braceD bracketD itemStart (n + 1) acc rest
        else if c = qc then
          parseArrayBody fuel c false qc braceD bracketD itemStart (n + 1) acc rest
        else parseArrayBody fuel c inQ qc braceD bracketD itemStart (n + 1) acc rest
      else if ¬inQ then
        if c = '{' then
          parseArrayBody fuel c inQ qc (braceD + 1) bracketD itemStart (n + 1) acc rest
        else if c = '}' then
          parseArrayBody fuel c inQ qc (braceD - 1) bracketD itemStart (n + 1) acc rest
        else if c = '[' then
          parseArrayBody fuel c inQ qc braceD (bracketD + 1) itemStart (n + 1) acc rest
        else if c = ']' then
          if bracketD - 1 = 0 then
            let acc2 :=
              if n > 0 ∧ pyStrip (itemStart.take n) ≠ [] then
                match (parseValue fuel itemStart).1 with
                | some v => acc ++ [v]
                | none => acc
              else acc
            (acc2, rest)
          else parseArrayBody fuel c inQ qc braceD (bracketD - 1) itemStart (n + 1) acc rest
        else if c = ',' ∧ braceD = 0 ∧ bracketD = 1 then
          let acc2 :=
            if n > 0 ∧ pyStrip (itemStart.take n) ≠ [] then
              match (parseValue fuel itemStart).1 with
              | some v => acc ++ [v]
              | none => acc
            else acc
          parseArrayBody fuel c inQ qc braceD bracketD rest 0 acc2 rest
        else parseArrayBody fuel c inQ qc braceD bracketD itemStart (n + 1) acc rest
      else parseArrayBody fuel c inQ qc braceD bracketD itemStart (n + 1) acc rest

end

/-- `NBTParser.parse_snbt` (lines 3171-3198) at an explicit fuel. -/
def parse_snbtFuel (fuel : Nat) (s : Str) : NBT :=
  let t := pyStrip s
  match t with
  | [] => NBT.compound []
  | c :: rest =>
    if c = '{' then NBT.compound (parseCompoundBody fuel rest []).1
    else if c = '[' then
      NBT.list (parseArrayBody fuel '[' false '"' 0 1 rest 0 [] rest).1
    else
      match (parseValue fuel t).1 with
      | some v => v
      | none => NBT.compound []

/-- Fuel sufficient for an input of length `x` (established by
`parse_snbtFuel_stable` below). -/
def fuelFor (x : Nat) : Nat := (x + 2) * (x + 2) + 2

/-- Inner fuel bound used by the stability proof: fuel sufficient for
`_parse_value` on a suffix of length `x`. -/
def fuelA (x : Nat) : Nat := (x + 1) * (x + 2)

/-- A separator-headed remainder: what follows a serialized value inside a
compound or array, or the end of input. -/
def sepHead : Str → Bool
  | [] => true
  | c :: _ => c = ',' || c = '\x7d' || c = ']'

/-- `NBTParser.parse_snbt`. -/
def parse_snbt (s : Str) : NBT := parse_snbtFuel (fuelFor (pyStrip s).length) s

/-!
## The SNBT serializer

`NBTSerializer` (`command_converter.py` 3436-3520), including its three
special branches: JSON re-serialisation of values under a `components` key
(line 3494-3497, via `json.dumps`), three-decimal formatting of floats
under `drop_chances` (line 3473), and the `b` suffix appended to 0/1
values of the nine boolean-flag field names (lines 3466-3471).
-/

/-- `_serialize_string`'s escaping (line 3519): backslashes then double
quotes, equivalently one pass per character. -/
def escapeChar (c : Char) : Str := if c = '\\' ∨ c = '"' then ['\\', c] else [c]

def escapeStr (s : Str) : Str := s.foldr (fun c r => escapeChar c ++ r) []

/-- `NBTSerializer._serialize_string` (lines 3516-3520). -/
def serializeString (s : Str) : Str := '"' :: escapeStr s ++ ['"']

def hexDigit (n : Nat) : Char :=
  if n < 10 then Char.ofNat (48 + n) else Char.ofNat (87 + n)

def hex4 (n : Nat) : Str :=
  [hexDigit (n / 4096 % 16), hexDigit (n / 256 % 16), hexDigit (n / 16 % 16), hexDigit (n % 16)]

/-- `json.dumps` string escaping with the default `ensure_ascii=True`. -/
def jsonEscapeChar (c : Char) : Str :=
  if c = '"' then ['\\', '"']
  else if c = '\\' then ['\\', '\\']
  else if c = '\n' then ['\\', 'n']
  else if c = '\t' then ['\\', 't']
  else if c = '\x0d' then ['\\', 'r']
  else if c = '\x08' then ['\\', 'b']
  else if c = '\x0c' then ['\\', 'f']
  else if c.toNat < 32 then '\\' :: 'u' :: hex4 c.toNat
  else if c.toNat < 128 then [c]
  else if c.toNat < 65536 then '\\' :: 'u' :: hex4 c.toNat
  else
    let v := c.toNat - 65536
    '\\' :: 'u' :: hex4 (55296 + v / 1024) ++ '\\' :: 'u' :: hex4 (56320 + v % 1024)

def jsonString (s : Str) : Str :=
  '"' :: s.foldr (fun c r => jsonEscapeChar c ++ r) [] ++ ['"']

/-- The nine field names treated as booleans by the serializer
(lines 3468-3469). -/
def booleanFields : List Str :=
  ["CustomNameVisible".toList, "NoAI".toList, "PersistenceRequired".toList,
   "CanPickUpLoot".toList, "Invulnerable".toList, "Silent".toList,
   "Glowing".toList, "OnGround".toList, "Invisible".toList]

/-- `key and any(key.startswith(field) for field in boolean_fields)`. -/
def keyBoolTrigger : Option Str → Bool
  | some k => !k.isEmpty && booleanFields.any (fun f => f.isPrefixOf k)
  | none => false

def pyStrIsAlnum (s : Str) : Bool := !s.isEmpty && s.all Char.isAlphanum

/-- The key-quoting test of `_serialize_compound` (line 3487). -/
def keyNeedsQuote (k : Str) : Bool :=
  k.contains ':' ||
    !(pyStrIsAlnum (k.filter (fun c => !(c == '_' || c == '-' || c == '.')))) ||
    (match k with | [] => false | c :: _ => c.isDigit)

/-- Python `key or parent_key` (line 3457): an empty-string key is falsy. -/
def orKey : Option Str → Option Str → Option Str
  | some k, pk => if k = [] then pk else some k
  | none, pk => pk

def dcKey : Str := "drop_chances".toList

/-- `parent_key == 'components' or (parent_key and 'components' in
parent_key)` (line 3494). -/
def componentsTrigger : Option Str → Bool
  | some pk => pk = "components".toList || (!pk.isEmpty && containsSub "components".toList pk)
  | none => false

/-- `q`'s value is 0 or 1 (Python `value in (0, 1)` for a float). -/
def pyFloatIsZeroOne (q : PyFloat) : Bool := q.m = 0 || q.m = (10 : Int) ^ q.e

mutual

/-- `NBTSerializer._serialize_value` (lines 3447-3477) with
`_serialize_compound` (3479-3506) and `_serialize_array` (3508-3514)
inlined into the corresponding match arms (the unused `indent` is
dropped). -/
def serializeValue : NBT → Option Str → Option Str → Str
  | .compound kvs, key?, parentKey? =>
    if kvs.isEmpty then ['{', '}']
    else '{' :: serializeKVs kvs (orKey key? parentKey?) ++ ['}']
  | .list xs, _, parentKey? =>
    if xs.isEmpty then ['[', ']']
    else '[' :: serializeItems xs parentKey? ++ [']']
  | .str s, _, _ => serializeString s
  | .bool b, _, _ => if b then "true".toList else "false".toList
  | .int n, key?, _ =>
    if keyBoolTrigger key? ∧ (n = 0 ∨ n = 1) then pyIntStr n ++ ['b']
    else pyIntStr n
  | .float q, key?, parentKey? =>
    if keyBoolTrigger key? ∧ pyFloatIsZeroOne q then
      (if q.m = 0 then ['0'] else ['1']) ++ ['b']
    else if key? = some dcKey ∨ parentKey? = some dcKey then format3f q
    else pyFloatStr q
termination_by structural v => v

/-- The comma-joined `key:value` parts of a compound (lines 3484-3504):
key quoting, JSON re-serialisation under a `components` parent, and
`drop_chances` context propagation. -/
def serializeKVs : List (Str × NBT) → Option Str → Str
  | [], _ => []
  | (k, v) :: rest, pk? =>
    let keyStr := if keyNeedsQuote k then serializeString k else k
    let valStr :=
      if componentsTrigger pk? then jsonDumps v
      else if pk? = some dcKey ∨ k = dcKey then serializeValue v (some k) (some dcKey)
      else serializeValue v (some k) pk?
    let part := keyStr ++ ':' :: valStr
    match rest with
    | [] => part
    | _ => part ++ ',' :: serializeKVs rest pk?
termination_by structural l => l

/-- The comma-joined items of an array (line 3513). -/
def serializeItems : List NBT → Option Str → Str
  | [], _ => []
  | x :: rest, pk? =>
    match rest with
    | [] => serializeValue x none pk?
    | _ => serializeValue x none pk? ++ ',' :: serializeItems rest pk?
termination_by structural l => l

/-- `json.dumps(value, separators=(',', ':'))` (line 3497). -/
def jsonDumps : NBT → Str
  | .compound kvs => '{' :: jsonKVs kvs ++ ['}']
  | .list xs => '[' :: jsonItems xs ++ [']']
  | .str s => jsonString s
  | .int n => pyIntStr n
  | .float q => pyFloatStr q
  | .bool b => if b then "true".toList else "false".toList
termination_by structural v => v

def jsonKVs : List (Str × NBT) → Str
  | [] => []
  | (k, v) :: rest =>
    let part := jsonString k ++ ':' :: jsonDumps v
    match rest with
    | [] => part
    | _ => part ++ ',' :: jsonKVs rest
termination_by structural l => l

def jsonItems : List NBT → Str
  | [] => []
  | x :: rest =>
    match rest with
    | [] => jsonDumps x
    | _ => jsonDumps x ++ ',' :: jsonItems rest
termination_by structural l => l

end

/-- `NBTSerializer.serialize_snbt` (lines 3439-3445). -/
def serialize_snbt (t : NBT) : Str := serializeValue t none none

/-!
## The plain-tree fragment

`plainV` carves out the fragment of trees on which parse∘serialize is the
identity (the amended C1): alphabetic-headed alphanumeric keys without
duplicates that trigger none of the serializer's special branches
(`components` JSON re-encoding, `drop_chances` three-decimal formatting,
boolean `b`-suffixing), strings not ending in a backslash (the array
scanner's one-character look-behind misreads the closing quote after a
serialized trailing backslash), non-negative integers (`_parse_primitive`
drops a consumed sign), and canonical non-negative floats inside
`floatPlain`'s positional window, where the decimal model and Python's
binary doubles agree (`str(float)` prints values below 1e-4 or at/above
1e16 in scientific notation, which the SNBT number scan cannot re-read).
-/

/-- The float `q = m / 10^e` lies where Python's `float`/`str` agree with
the exact decimal model, digit for digit: zero, or at least `1e-4` with at
most 15 significant digits (so the value is below `1e16` and below the
`2^53` rounding threshold, `float(s)` is exact, and `str` prints it
positionally, reproducing the decimal). -/
def floatPlain (q : PyFloat) : Bool :=
  q.m = 0 ||
    ((10 : Int) ^ q.e ≤ q.m * 10 ^ 4 && (pyNatStr q.m.natAbs).length ≤ 15)

/-- A compound key that round-trips: non-empty, alphanumeric, starting with
a non-digit (so `_serialize_compound` leaves it unquoted and `_parse_key`
reads it back), not prefixed by a boolean-suffix field name, and not
containing `components`. -/
def plainKey (k : Str) : Bool :=
  !k.isEmpty && k.all Char.isAlphanum &&
    (match k with | [] => false | c :: _ => !c.isDigit) &&
    !(booleanFields.any (fun f => f.isPrefixOf k)) &&
    !(containsSub "components".toList k)

/-- `none`, or a plain key (the parent-key contexts a plain tree creates). -/
def okOpt : Option Str → Bool
  | none => true
  | some k => plainKey k

mutual

def plainV : NBT → Bool
  | .compound kvs => plainKVs kvs
  | .list xs => plainItems xs
  | .str s => s.getLast? != some '\\'
  | .int n => decide (0 ≤ n)
  | .float q => decide (0 ≤ q.m) && decide (normGo q.m q.e = q) && floatPlain q
  | .bool _ => true
termination_by structural v => v

def plainKVs : List (Str × NBT) → Bool
  | [] => true
  | (k, v) :: rest => plainKey k && plainV v && !(hasKeyKV k rest) && plainKVs rest
termination_by structural l => l

def plainItems : List NBT → Bool
  | [] => true
  | v :: rest => plainV v && plainItems rest
termination_by structural l => l

end

mutual

/-- Size measure for strong induction over the nested `NBT` type. -/
def nbtSize : NBT → Nat
  | .compound kvs => kvsSize kvs + 1
  | .list xs => itemsSize xs + 1
  | .str _ => 1
  | .int _ => 1
  | .float _ => 1
  | .bool _ => 1
termination_by structural v => v

def kvsSize : List (Str × NBT) → Nat
  | [] => 1
  | (_, v) :: rest => nbtSize v + kvsSize rest + 1
termination_by structural l => l

def itemsSize : List NBT → Nat
  | [] => 1
  | v :: rest => nbtSize v + itemsSize rest + 1
termination_by structural l => l

end

/-!
## Coordinate and name helpers, and the selector rewriter

`ParameterConverters.convert_coordinate` (lines 368-378),
`convert_entity_name` (lines 380-390), `_convert_old_selector`
(lines 647-665) and `convert_selector` (lines 482-645).

The entity-rename lookup table (`self.lookups.entity_conversions`, data
loaded from a CSV file outside the engine) is a parameter `lk`;
`self.convert_entity_nbt`, reached only from the selector's `nbt=` branch,
is a parameter `cEN`.  Python exceptions escaping `convert_selector` (the
unguarded `int(value)` at line 550 and `float(value)` at line 523) are
modelled by `Except`, carrying the exception's name.
-/

/-- `ParameterConverters.convert_coordinate` (lines 368-378). -/
def convert_coordinate (coord : Str) : Str :=
  if ¬ (['~'].isPrefixOf coord) then coord
  else
    let num0 := coord.drop 1
    let num := if num0 = [] then ['0'] else num0
    if num.contains '.' then
      match pyFloatOfString num with
      | some q => '~' :: pyFloatStr q
      | none => coord
    else
      match pyIntOfString num with
      | some n => if num ≠ ['0'] then '~' :: pyIntStr n else ['~']
      | none => coord

/-- Python `s.replace(pat, rep)` (all occurrences, left to right); the
fuel argument (the string's length suffices) keeps recursion structural. -/
def replaceSubGo (pat rep : Str) : Nat → Str → Str
  | _, [] => []
  | 0, s => s
  | f + 1, c :: rest =>
    if pat ≠ [] ∧ pat.isPrefixOf (c :: rest) then
      rep ++ replaceSubGo pat rep f ((c :: rest).drop pat.length)
    else c :: replaceSubGo pat rep f rest

def replaceSub (pat rep s : Str) : Str := replaceSubGo pat rep s.length s

/-- `ParameterConverters.convert_entity_name` (lines 380-390); `lk` is the
`entity_conversions` lookup table. -/
def convert_entity_name (lk : Str → Option Str) (entity_name : Str) : Str :=
  let clean := replaceSub "minecraft:".toList [] entity_name
  let conv := (lk clean).getD entity_name
  if ¬ ("minecraft:".toList.isPrefixOf conv) ∧ ¬ conv.contains ':' then
    "minecraft:".toList ++ conv
  else conv

/-- First match of the regex `type=([^,\]]+)` (its capture group), as used
by `_convert_old_selector` (line 655). -/
def findTypeMatch : Str → Option Str
  | [] => none
  | c :: rest =>
    let cap := ((c :: rest).drop 5).takeWhile (fun ch => !(ch == ',' || ch == ']'))
    if "type=".toList.isPrefixOf (c :: rest) ∧ cap ≠ [] then some cap
    else findTypeMatch rest

/-- `re.sub(r'type=[^,\]]+', rep, s)`: replace every match (line 661);
fuel keeps recursion structural. -/
def subTypeAllGo (rep : Str) : Nat → Str → Str
  | _, [] => []
  | 0, s => s
  | f + 1, c :: rest =>
    let cap := ((c :: rest).drop 5).takeWhile (fun ch => !(ch == ',' || ch == ']'))
    if "type=".toList.isPrefixOf (c :: rest) ∧ cap ≠ [] then
      rep ++ subTypeAllGo rep f ((c :: rest).drop (5 + cap.length))
    else c :: subTypeAllGo rep f rest

def subTypeAll (rep s : Str) : Str := subTypeAllGo rep s.length s

/-- `ParameterConverters._convert_old_selector` (lines 647-665). -/
def convert_old_selector (lk : Str → Option Str) (selector : Str) : Str :=
  if ¬ ("@[".toList.isPrefixOf selector) then selector
  else
    let ps := (selector.drop 2).dropLast
    match findTypeMatch ps with
    | some cap =>
      let ct := convert_entity_name lk cap
      let ps2 := subTypeAll ("type=".toList ++ ct) ps
      '@' :: 'e' :: '[' :: ps2 ++ [']']
    | none => '@' :: 'e' :: '[' :: ps ++ [']']

/-- The buffered state of `convert_selector`'s parameter loop
(lines 502-509): emitted parameters, the `scores_dict`, and the six
distance/rotation bounds. -/
structure SelState where
  cp : List Str
  scores : List (Str × Str)
  dmin : Option Str
  dmax : Option Str
  rxmin : Option Str
  rxmax : Option Str
  rymin : Option Str
  rymax : Option Str
deriving DecidableEq

def initSelState : SelState := ⟨[], [], none, none, none, none, none, none⟩

/-- Python dict assignment for the string-valued `scores_dict`. -/
def insertSS (k v : Str) : List (Str × Str) → List (Str × Str)
  | [] => [(k, v)]
  | (k0, v0) :: t => if k0 = k then (k0, v) :: t else (k0, v0) :: insertSS k v t

/-- The gamemode table of the `m=` branch (lines 561-566). -/
def gamemodeMap : List (Str × Str) :=
  [("0".toList, "survival".toList), ("1".toList, "creative".toList),
   ("2".toList, "adventure".toList), ("3".toList, "spectator".toList),
   ("s".toList, "survival".toList), ("c".toList, "creative".toList),
   ("a".toList, "adventure".toList), ("sp".toList, "spectator".toList)]

def lookupSS (k : Str) : List (Str × Str) → Option Str
  | [] => none
  | (k0, v0) :: t => if k0 = k then some v0 else lookupSS k t

/-- One iteration of the parameter loop (lines 511-589).  `pfxC` is the
selector prefix (used by the `c=` branch to choose `sort=random`). -/
def procParam (lk : Str → Option Str) (cEN : Str → Str) (pfxC : Str)
    (st : SelState) (p : Str) : Except Str SelState :=
  let p1 := pyStrip p
  if ¬ p1.contains '=' then .ok st
  else
    match splitFirst '=' p1 with
    | none => .ok st
    | some (k0, v0) =>
      let key := pyStrip k0
      let v1 := pyStrip v0
      let v2res : Except Str Str :=
        if (key = ['x'] ∨ key = ['y'] ∨ key = ['z']) ∧ pyIsDigitStr (pyLStripChar '-' v1) then
          match pyFloatOfString v1 with
          | some q => .ok (pyFloatStr (pyFloatAddHalf q))
          | none => .error "ValueError".toList
        else .ok v1
      match v2res with
      | .error e => .error e
      | .ok value =>
        if key = "type".toList then
          .ok { st with cp := st.cp ++ [key ++ '=' :: convert_entity_name lk value] }
        else if key = ['r'] then .ok { st with dmax := some value }
        else if key = "rm".toList then .ok { st with dmin := some value }
        else if key = "distance".toList then
          if "..".toList.isPrefixOf value then .ok { st with dmax := some (value.drop 2) }
          else if "..".toList.isSuffixOf value then
            .ok { st with dmin := some value.dropLast.dropLast }
          else .ok { st with cp := st.cp ++ [key ++ '=' :: value] }
        else if key = ['c'] then
          match pyIntOfString value with
          | none => .error "ValueError".toList
          | some n =>
            let sort :=
              if pfxC = ['r'] then "random".toList
              else if ['-'].isPrefixOf value then "furthest".toList else "nearest".toList
            .ok { st with cp := st.cp ++
                    ["limit=".toList ++ pyNatStr n.natAbs, "sort=".toList ++ sort] }
        else if key = ['m'] then
          let mapped := (lookupSS (strLower value) gamemodeMap).getD value
          .ok { st with cp := st.cp ++ ["gamemode=".toList ++ mapped] }
        else if key = "nbt".toList then
          .ok { st with cp := st.cp ++ [key ++ '=' :: cEN value] }
        else if "score_".toList.isPrefixOf key then
          .ok { st with scores := insertSS (key.drop 6) value st.scores }
        else if key = "rx".toList then .ok { st with rxmax := some value }
        else if key = "rxm".toList then .ok { st with rxmin := some value }
        else if key = "ry".toList then .ok { st with rymax := some value }
        else if key = "rym".toList then .ok { st with rymin := some value }
        else .ok { st with cp := st.cp ++ [key ++ '=' :: value] }

def procParams (lk : Str → Option Str) (cEN : Str → Str) (pfxC : Str) :
    List Str → SelState → Except Str SelState
  | [], st => .ok st
  | p :: rest, st =>
    match procParam lk cEN pfxC st p with
    | .error e => .error e
    | .ok st2 => procParams lk cEN pfxC rest st2

def joinComma : List Str → Str
  | [] => []
  | [x] => x
  | x :: rest => x ++ ',' :: joinComma rest

/-- The distance-combining epilogue (lines 591-608), including the
min/max swap when both bounds parse as floats. -/
def combineDistance (st : SelState) : List Str :=
  match st.dmin, st.dmax with
  | some dmin, some dmax =>
    let pr :=
      match pyFloatOfString dmin, pyFloatOfString dmax with
      | some mn, some mx => if pyFloatLt mx mn then (dmax, dmin) else (dmin, dmax)
      | _, _ => (dmin, dmax)
    ["distance=".toList ++ pr.1 ++ '.' :: '.' :: pr.2]
  | some dmin, none => ["distance=".toList ++ dmin ++ ['.', '.']]
  | none, some dmax => ["distance=..".toList ++ dmax]
  | none, none => []

/-- The scores epilogue (lines 610-613). -/
def combineScores (st : SelState) : List Str :=
  if st.scores.isEmpty then []
  else
    ["scores=".toList ++ '{' ::
       joinComma (st.scores.map (fun pr => pr.1 ++ '=' :: pr.2)) ++ ['}']]

/-- The rotation epilogue (lines 615-630). -/
def combineRotation (nm : Str) (mn mx : Option Str) : List Str :=
  match mn, mx with
  | some a, some b => [nm ++ '=' :: a ++ '.' :: '.' :: b]
  | some a, none => [nm ++ '=' :: a ++ ['.', '.']]
  | none, some b => [nm ++ '=' :: '.' :: '.' :: b]
  | none, none => []

/-- `ParameterConverters.convert_selector` (lines 482-645). -/
def convert_selector (lk : Str → Option Str) (cEN : Str → Str) (selector : Str) :
    Except Str Str :=
  if ¬ (['@'].isPrefixOf selector) then .ok selector
  else if "@[".toList.isPrefixOf selector then .ok (convert_old_selector lk selector)
  else if selector = "@r".toList then .ok "@e[sort=random]".toList
  else if ¬ selector.contains '[' then .ok selector
  else
    match splitFirst '[' (selector.drop 1) with
    | none => .ok selector
    | some (pfxC, rest) =>
      let ps := pyRStripChar ']' rest
      match procParams lk cEN pfxC (splitOnChar ',' ps) initSelState with
      | .error e => .error e
      | .ok st =>
        let cp1 := st.cp ++ combineDistance st ++ combineScores st ++
          combineRotation "x_rotation".toList st.rxmin st.rxmax ++
          combineRotation "y_rotation".toList st.rymin st.rymax
        let pfx2 := if pfxC = ['r'] then ['e'] else pfxC
        let cp2 :=
          if pfxC = ['r'] ∧ ¬ cp1.contains "sort=random".toList then
            cp1 ++ ["sort=random".toList]
          else cp1
        if cp2 = [] then .ok ('@' :: pfx2)
        else .ok ('@' :: pfx2 ++ '[' :: joinComma cp2 ++ [']'])

/-!
## The NBT converter registry and its converters

`NBTConverterRegistry.convert` (`command_converter.py` 3538-3577) loops
over the registered converters, calling `CustomName`/`Inventory`/
`SelectedItem` always and the others only when their trigger key is
present; any exception is caught and logged (lines 3570-3575) and the loop
continues.  The converters mutate the compound **in place** and `result`
keeps referring to the mutated object, so a converter that raises midway
leaves its partial mutations behind.  A converter is therefore modelled as
a function returning `ConvResult.ok st` (normal return value) or
`ConvResult.raised st` (an exception escaped with the compound in state
`st`).

`_convert_item_dict_to_121_format` (line 814, a 340-line item translator)
and `_parse_color_codes_to_components` are `self.`-method collaborators
passed as parameters `ci` and `pccc`; both are presence-guarded in the
converters below and are never reached by the theorems' inputs.
-/

inductive ConvResult where
  | ok : List (Str × NBT) → ConvResult
  | raised : List (Str × NBT) → ConvResult
deriving DecidableEq

abbrev Converter := List (Str × NBT) → Str → ConvResult

abbrev ItemConv := List (Str × NBT) → Option (List (Str × NBT))

/-- Python truthiness of a parsed NBT value. -/
def nbtTruthy : NBT → Bool
  | .compound kvs => !kvs.isEmpty
  | .list xs => !xs.isEmpty
  | .str s => !s.isEmpty
  | .int n => n != 0
  | .float q => q.m != 0
  | .bool b => b

/-- Python `float(x)` on a parsed value: `none` models the `ValueError` /
`TypeError` raised for unparseable strings and containers. -/
def pyFloatOfValue : NBT → Option PyFloat
  | .int n => some (mkPyFloat n 0)
  | .float q => some q
  | .bool b => some (if b then ⟨1, 0⟩ else ⟨0, 0⟩)
  | .str s => pyFloatOfString s
  | _ => none

def slotArmor : Nat → Str
  | 0 => "feet".toList
  | 1 => "legs".toList
  | 2 => "chest".toList
  | _ => "head".toList

def slotHand : Nat → Str
  | 0 => "mainhand".toList
  | _ => "offhand".toList

def allSlots : List Str :=
  ["feet".toList, "legs".toList, "chest".toList, "head".toList,
   "mainhand".toList, "offhand".toList]

/-- `nbt_dict['drop_chances'][slot] = v`: `none` models the `TypeError`
raised when `drop_chances` holds a non-dict. -/
def setDC (slot : Str) (v : NBT) (st : List (Str × NBT)) : Option (List (Str × NBT)) :=
  match lookupKV dcKey st with
  | some (.compound dc) => some (insertKV dcKey (.compound (insertKV slot v dc)) st)
  | _ => none

/-- The per-slot assignment loop of the drop-chances converters
(lines 755-758 / 792-795): `float(chance)` first, then the subscript
assignment; either may raise, leaving the state as-is. -/
def dcAssignLoop (slotName : Nat → Str) (bound : Nat) :
    List NBT → Nat → List (Str × NBT) → ConvResult
  | [], _, st => .ok st
  | chance :: rest, i, st =>
    if i < bound then
      match pyFloatOfValue chance with
      | none => .raised st
      | some q =>
        match setDC (slotName i) (.float q) st with
        | some st2 => dcAssignLoop slotName bound rest (i + 1) st2
        | none => .raised st
    else dcAssignLoop slotName bound rest (i + 1) st

/-- The missing-slot fill loops (lines 760-771 / 797-808).  `slot not in
nbt_dict['drop_chances']` raises `TypeError` when `drop_chances` is a
number; on a string or list it is a membership test and only the
subsequent assignment raises. -/
def dcFill : List Str → List (Str × NBT) → ConvResult
  | [], st => .ok st
  | slot :: rest, st =>
    match lookupKV dcKey st with
    | some (.compound dc) =>
      if hasKeyKV slot dc then dcFill rest st
      else dcFill rest (insertKV dcKey (.compound (insertKV slot (.float ⟨0, 0⟩) dc)) st)
    | some (.str sv) => if containsSub slot sv then dcFill rest st else .raised st
    | some (.list xs) => if xs.contains (.str slot) then dcFill rest st else .raised st
    | some _ => .raised st
    | none => dcFill rest (insertKV dcKey (.compound [(slot, .float ⟨0, 0⟩)]) st)

/-- `ParameterConverters._convert_armor_drop_chances_component`
(lines 740-775). -/
def convArmorDropChances : Converter := fun nbt _ctx =>
  if ¬ hasKeyKV "ArmorDropChances".toList nbt then .ok nbt
  else
    match lookupKV "ArmorDropChances".toList nbt with
    | some (.list drops) =>
      let s1 := if hasKeyKV dcKey nbt then nbt else insertKV dcKey (.compound []) nbt
      match dcAssignLoop slotArmor 4 drops 0 s1 with
      | .raised st => .raised st
      | .ok s2 =>
        match dcFill ["feet".toList, "legs".toList, "chest".toList, "head".toList] s2 with
        | .raised st => .raised st
        | .ok s3 =>
          match dcFill allSlots s3 with
          | .raised st => .raised st
          | .ok s4 => .ok (delKV "ArmorDropChances".toList s4)
    | _ => .ok nbt

/-- `ParameterConverters._convert_hand_drop_chances_component`
(lines 777-812). -/
def convHandDropChances : Converter := fun nbt _ctx =>
  if ¬ hasKeyKV "HandDropChances".toList nbt then .ok nbt
  else
    match lookupKV "HandDropChances".toList nbt with
    | some (.list drops) =>
      let s1 := if hasKeyKV dcKey nbt then nbt else insertKV dcKey (.compound []) nbt
      match dcAssignLoop slotHand 2 drops 0 s1 with
      | .raised st => .raised st
      | .ok s2 =>
        match dcFill ["mainhand".toList, "offhand".toList] s2 with
        | .raised st => .raised st
        | .ok s3 =>
          match dcFill allSlots s3 with
          | .raised st => .raised st
          | .ok s4 => .ok (delKV "HandDropChances".toList s4)
    | _ => .ok nbt

/-- `nbt_dict['equipment'][slot] = item` (lines 688, 718, 726):
`none` models the `TypeError` when `equipment` holds a non-dict. -/
def setEquip (slot : Str) (item : NBT) (st : List (Str × NBT)) :
    Option (List (Str × NBT)) :=
  match lookupKV "equipment".toList st with
  | some (.compound eq) => some (insertKV "equipment".toList (.compound (insertKV slot item eq)) st)
  | _ => none

/-- The slot-mapping loop shared by the equipment converters
(lines 683-688 and 721-726): only non-empty dict items within the slot
range are converted and stored. -/
def equipLoop (ci : ItemConv) (slotName : Nat → Str) (bound : Nat) :
    List NBT → Nat → List (Str × NBT) → ConvResult
  | [], _, st => .ok st
  | item :: rest, i, st =>
    match item with
    | .compound kvs =>
      if i < bound ∧ kvs ≠ [] then
        match ci kvs with
        | some conv =>
          if conv ≠ [] then
            match setEquip (slotName i) (.compound conv) st with
            | some st2 => equipLoop ci slotName bound rest (i + 1) st2
            | none => .raised st
          else equipLoop ci slotName bound rest (i + 1) st
        | none => equipLoop ci slotName bound rest (i + 1) st
      else equipLoop ci slotName bound rest (i + 1) st
    | _ => equipLoop ci slotName bound rest (i + 1) st

/-- `ParameterConverters._convert_armor_items_component` (lines 667-692). -/
def convArmorItems (ci : ItemConv) : Converter := fun nbt _ctx =>
  if ¬ hasKeyKV "ArmorItems".toList nbt then .ok nbt
  else
    match lookupKV "ArmorItems".toList nbt with
    | some (.list items) =>
      let s1 := if hasKeyKV "equipment".toList nbt then nbt
                else insertKV "equipment".toList (.compound []) nbt
      match equipLoop ci slotArmor 4 items 0 s1 with
      | .raised st => .raised st
      | .ok s2 => .ok (delKV "ArmorItems".toList s2)
    | _ => .ok nbt

/-- `ParameterConverters._convert_hand_items_component` (lines 694-738),
including the promotion of an occupied second hand slot into the main hand
when the first is empty (lines 713-718). -/
def convHandItems (ci : ItemConv) : Converter := fun nbt _ctx =>
  if ¬ hasKeyKV "HandItems".toList nbt then .ok nbt
  else
    match lookupKV "HandItems".toList nbt with
    | some (.list items) =>
      let s1 := if hasKeyKV "equipment".toList nbt then nbt
                else insertKV "equipment".toList (.compound []) nbt
      let looped : ConvResult :=
        match items with
        | h0 :: h1 :: _ =>
          match h1 with
          | .compound kvs1 =>
            if ¬ nbtTruthy h0 ∧ kvs1 ≠ [] then
              match ci kvs1 with
              | some conv =>
                if conv ≠ [] then
                  match setEquip "mainhand".toList (.compound conv) s1 with
                  | some st2 => .ok st2
                  | none => .raised s1
                else .ok s1
              | none => .ok s1
            else equipLoop ci slotHand 2 items 0 s1
          | _ => equipLoop ci slotHand 2 items 0 s1
        | _ => equipLoop ci slotHand 2 items 0 s1
      match looped with
      | .raised st => .raised st
      | .ok s2 => .ok (delKV "HandItems".toList s2)
    | _ => .ok nbt

/-- Python `str.strip(c)` for one character: both ends. -/
def pyStripChar (c : Char) (s : Str) : Str :=
  dropWhileEnd (· == c) (s.dropWhile (· == c))

/-- `ParameterConverters._convert_custom_name_nbt` (lines 1157-1189);
`pccc` is the `_parse_color_codes_to_components` collaborator. -/
def convCustomName (pccc : Str → List NBT) : Converter := fun nbt _ctx =>
  if ¬ hasKeyKV "CustomName".toList nbt then .ok nbt
  else
    match lookupKV "CustomName".toList nbt with
    | some (.compound _) => .ok nbt
    | some (.str s) =>
      let nv := pyStripChar '\'' (pyStripChar '"' s)
      if nv.contains '§' then
        match pccc nv with
        | [c1] => .ok (insertKV "CustomName".toList c1 nbt)
        | comps => .ok (insertKV "CustomName".toList (.list comps) nbt)
      else .ok (insertKV "CustomName".toList (.compound [("text".toList, .str nv)]) nbt)
    | _ => .ok nbt

/-- Flatten one level of nested lore arrays (lines 276-284 / 329-336). -/
def flattenLore : List NBT → List NBT
  | [] => []
  | (.list ys) :: rest => ys ++ flattenLore rest
  | y :: rest => y :: flattenLore rest

/-- Preserve `id`/`count`/`Slot` from the original item (lines 294-296). -/
def preserveKeys (orig conv : List (Str × NBT)) : List (Str × NBT) :=
  ["id".toList, "count".toList, "Slot".toList].foldl
    (fun c k =>
      if hasKeyKV k orig ∧ ¬ hasKeyKV k c then
        match lookupKV k orig with
        | some v => insertKV k v c
        | none => c
      else c) conv

/-- The components-present branch for one Inventory item (lines 270-297):
lore flatten, `del tag`/`del display`, preserve keys.  A non-dict truthy
`components` value makes the `'minecraft:lore' in ...` test raise
(`TypeError` on numbers) or, on a string/list hit, the subsequent
subscripting raise; `none` signals the raise. -/
def invComponentsStep (orig conv : List (Str × NBT)) : Option (List (Str × NBT)) :=
  match lookupKV "components".toList conv with
  | some (.compound comps) =>
    let conv1 :=
      match lookupKV "minecraft:lore".toList comps with
      | some (.list lore) =>
        insertKV "components".toList
          (.compound (insertKV "minecraft:lore".toList (.list (flattenLore lore)) comps)) conv
      | some _ => conv
      | none => conv
    some (preserveKeys orig (delKV "display".toList (delKV "tag".toList conv1)))
  | some (.str sv) =>
    if containsSub "minecraft:lore".toList sv then none
    else some (preserveKeys orig (delKV "display".toList (delKV "tag".toList conv)))
  | some (.list xs) =>
    if xs.contains (.str "minecraft:lore".toList) then none
    else some (preserveKeys orig (delKV "display".toList (delKV "tag".toList conv)))
  | _ => none

/-- The item loop of `_convert_inventory_array` (lines 252-307); `none`
signals a raise, which leaves `nbt_dict` untouched since the converted
list is only assigned at the end (line 308). -/
def convInvLoop (ci : ItemConv) : List NBT → Option (List NBT)
  | [] => some []
  | item :: rest =>
    let step : Option NBT :=
      match item with
      | .compound kvs =>
        match ci kvs with
        | some conv =>
          if conv ≠ [] then
            match lookupKV "components".toList conv with
            | some cv =>
              if nbtTruthy cv then (invComponentsStep kvs conv).map .compound
              else some (.compound conv)
            | none => some (.compound conv)
          else some item
        | none => some item
      | _ => some item
    match step with
    | none => none
    | some x => (convInvLoop ci rest).map (x :: ·)

/-- `ParameterConverters._convert_inventory_array` (lines 244-310). -/
def convInventory (ci : ItemConv) : Converter := fun nbt _ctx =>
  if ¬ hasKeyKV "Inventory".toList nbt then .ok nbt
  else
    match lookupKV "Inventory".toList nbt with
    | some (.list inv) =>
      match convInvLoop ci inv with
      | none => .raised nbt
      | some items => .ok (insertKV "Inventory".toList (.list items) nbt)
    | _ => .ok nbt

/-- The lore-entry filter of `_convert_selected_item` (line 338): drop
dict entries whose `text` is the empty string and whose keys are only
`text`/`italic`. -/
def loreEntryKeep (entry : NBT) : Bool :=
  match entry with
  | .compound kvs =>
    !(lookupKV "text".toList kvs = some (.str []) ∧
      kvs.all (fun p => p.1 = "text".toList ∨ p.1 = "italic".toList))
  | _ => true

/-- `reorder_lore_keys` (lines 340-351): `color`, `italic`, `text` first,
then the remaining keys in their original order. -/
def reorderLore : NBT → NBT
  | .compound kvs =>
    let keyOrder := ["color".toList, "italic".toList, "text".toList]
    let first := keyOrder.foldl
      (fun acc k => match lookupKV k kvs with | some v => acc ++ [(k, v)] | none => acc) []
    .compound (first ++ kvs.filter (fun p => ¬ keyOrder.contains p.1))
  | e => e

/-- The components-present branch of `_convert_selected_item`
(lines 323-363): flatten, filter and reorder lore, `del tag`/`display`,
default `count` to 1. -/
def selComponentsStep (conv : List (Str × NBT)) : Option (List (Str × NBT)) :=
  let post : List (Str × NBT) → List (Str × NBT) := fun c =>
    let c2 := delKV "display".toList (delKV "tag".toList c)
    if hasKeyKV "count".toList c2 then c2 else insertKV "count".toList (.int 1) c2
  match lookupKV "components".toList conv with
  | some (.compound comps) =>
    let conv1 :=
      match lookupKV "minecraft:lore".toList comps with
      | some (.list lore) =>
        let fl := ((flattenLore lore).filter loreEntryKeep).map reorderLore
        insertKV "components".toList
          (.compound (insertKV "minecraft:lore".toList (.list fl) comps)) conv
      | some _ => conv
      | none => conv
    some (post conv1)
  | some (.str sv) => if containsSub "minecraft:lore".toList sv then none else some (post conv)
  | some (.list xs) =>
    if xs.contains (.str "minecraft:lore".toList) then none else some (post conv)
  | _ => none

/-- `ParameterConverters._convert_selected_item` (lines 312-366). -/
def convSelectedItem (ci : ItemConv) : Converter := fun nbt _ctx =>
  if ¬ hasKeyKV "SelectedItem".toList nbt then .ok nbt
  else
    match lookupKV "SelectedItem".toList nbt with
    | some (.compound item) =>
      match ci item with
      | some conv =>
        if conv ≠ [] then
          let step :=
            match lookupKV "components".toList conv with
            | some cv => if nbtTruthy cv then selComponentsStep conv else some conv
            | none => some conv
          match step with
          | none => .raised nbt
          | some conv2 => .ok (insertKV "SelectedItem".toList (.compound conv2) nbt)
        else .ok nbt
      | none => .ok nbt
    | _ => .ok nbt

/-- The three converter names the registry always invokes (line 3561). -/
def alwaysCalled : List Str :=
  ["CustomName".toList, "Inventory".toList, "SelectedItem".toList]

/-- One iteration of `NBTConverterRegistry.convert`'s loop
(lines 3557-3575): gate, call, and catch.  On a raise the mutated object
(the `raised` payload) remains the registry's `result`. -/
def registryStep (ctx : Str) (result : List (Str × NBT)) (entry : Str × Converter) :
    List (Str × NBT) :=
  if alwaysCalled.contains entry.1 ∨ hasKeyKV entry.1 result then
    match entry.2 result ctx with
    | .ok r => r
    | .raised st => st
  else result

/-- `NBTConverterRegistry.convert` (lines 3538-3577) over an explicit
converter list (the registry's insertion-ordered dict). -/
def registryConvert (convs : List (Str × Converter)) (nbt : List (Str × NBT)) (ctx : Str) :
    List (Str × NBT) :=
  convs.foldl (registryStep ctx) nbt

/-- The pipeline registered by
`ParameterConverters._register_nbt_converters` (lines 208-242), in
registration order. -/
def nbtPipeline (ci : ItemConv) (pccc : Str → List NBT) : List (Str × Converter) :=
  [("ArmorItems".toList, convArmorItems ci),
   ("HandItems".toList, convHandItems ci),
   ("ArmorDropChances".toList, convArmorDropChances),
   ("HandDropChances".toList, convHandDropChances),
   ("CustomName".toList, convCustomName pccc),
   ("Inventory".toList, convInventory ci),
   ("SelectedItem".toList, convSelectedItem ci)]

/-!
## Two command handlers

`CommandConverter._convert_summon` (lines 3717-3738) and
`_convert_testfor` (lines 4036-4067) with `_add_nbt_to_selector`
(lines 4023-4034).  `cEN` is the `convert_entity_nbt` collaborator;
`invFix` models the regex-based `Inventory→SelectedItem` rewrite of
lines 4053-4061 (its gate, line 4050, is embedded).
-/

/-- `CommandConverter._add_nbt_to_selector` (lines 4023-4034);
`rfind(']')` keeps everything before the last closing bracket. -/
def addNbtToSelector (selector nbt : Str) : Str :=
  if selector.contains '[' ∧ selector.contains ']' then
    ((selector.reverse.dropWhile (· ≠ ']')).drop 1).reverse ++
      ",nbt=".toList ++ nbt ++ [']']
  else selector ++ "[nbt=".toList ++ nbt ++ [']']

/-- `CommandConverter._convert_summon` (lines 3717-3738). -/
def convert_summon (lk : Str → Option Str) (cEN : Str → Str) (args : List Str) : Str :=
  if args.length < 1 then "summon".toList
  else
    let r1 := "summon ".toList ++ convert_entity_name lk (args.getD 0 [])
    let r2 :=
      if args.length ≥ 4 then
        r1 ++ ' ' :: convert_coordinate (args.getD 1 []) ++
          ' ' :: convert_coordinate (args.getD 2 []) ++
          ' ' :: convert_coordinate (args.getD 3 [])
      else r1
    if args.length ≥ 5 then r2 ++ ' ' :: cEN (args.getD 4 []) else r2

/-- `CommandConverter._convert_testfor` (lines 4036-4067). -/
def convert_testfor (lk : Str → Option Str) (cEN : Str → Str) (invFix : Str → Str)
    (args : List Str) : Except Str Str :=
  if args.length < 1 then .ok "execute if entity @s".toList
  else
    match convert_selector lk cEN (args.getD 0 []) with
    | .error e => .error e
    | .ok sel =>
      if args.length ≥ 2 then
        let nbt0 := args.getD 1 []
        let nbt1 :=
          if containsSub "Inventory:".toList nbt0 ∨ containsSub "inventory:".toList nbt0 then
            invFix nbt0
          else nbt0
        .ok ("execute if entity ".toList ++ addNbtToSelector sel (cEN nbt1))
      else .ok ("execute if entity ".toList ++ sel)

/-!
## Concrete collaborators for closed statements

The theorems below that evaluate the converters at concrete inputs
instantiate the collaborator parameters with the simplest total functions;
on every such input the collaborator is provably never invoked (its guard
branch is not reached), so the choice is immaterial.
-/

instance {e a : Type} [DecidableEq e] [DecidableEq a] : DecidableEq (Except e a) := fun x y =>
  match x, y with
  | .ok v, .ok w =>
    match decEq v w with
    | isTrue h => isTrue (by rw [h])
    | isFalse h => isFalse (by intro hh; cases hh; exact h rfl)
  | .error v, .error w =>
    match decEq v w with
    | isTrue h => isTrue (by rw [h])
    | isFalse h => isFalse (by intro hh; cases hh; exact h rfl)
  | .ok _, .error _ => isFalse nofun
  | .error _, .ok _ => isFalse nofun

def noLookup : Str → Option Str := fun _ => none

def idNbt : Str → Str := fun s => s

def idInvFix : Str → Str := fun s => s

def idItemConv : ItemConv := fun d => some d

def noColorComps : Str → List NBT := fun _ => []

/-!
## Claim C3
-/

/-- Claim C3 (code bug): `convert_coordinate` does not append `.0` to a
non-zero integer relative offset — `~1` is returned as `~1`, although the
claim and the function's own docstring (line 369, "~1 → ~1.0") require
`~1.0`; the `~`-alone and absolute-coordinate behaviours are as claimed. -/
theorem convert_coordinate_no_decimal_suffix :
    convert_coordinate "~1".toList = "~1".toList ∧
    convert_coordinate "~1".toList ≠ "~1.0".toList ∧
    convert_coordinate "~".toList = "~".toList ∧
    convert_coordinate "~0".toList = "~".toList ∧
    convert_coordinate "5".toList = "5".toList ∧
    convert_coordinate "12.5".toList = "12.5".toList := by decide

/-!
## Claim C5
-/

/-- Claim C5 counterexample: `convert_selector` maps `@r[c=3]` to
`@e[limit=3,sort=random]`, not to the claimed exact string
`@e[sort=random,limit=3]` — the `limit` parameter is emitted before the
forced `sort=random`. -/
theorem convert_selector_r_c3_order :
    convert_selector noLookup idNbt "@r[c=3]".toList =
      .ok "@e[limit=3,sort=random]".toList ∧
    ("@e[limit=3,sort=random]".toList : Str) ≠ "@e[sort=random,limit=3]".toList := by
  decide

/-- Claim C5 as amended: `@r` selectors are rewritten to prefix `e` with a
forced `sort=random`: bare `@r` returns exactly `@e[sort=random]`, and
`@r[c=3]` returns exactly `@e[limit=3,sort=random]` (the `c` parameter
expanding to `limit=|value|` with random sort, emitted before
`sort=random`), for any lookup table and nbt collaborator. -/
theorem convert_selector_r_rewrite (lk : Str → Option Str) (cEN : Str → Str) :
    convert_selector lk cEN "@r".toList = .ok "@e[sort=random]".toList ∧
    convert_selector lk cEN "@r[c=3]".toList = .ok "@e[limit=3,sort=random]".toList :=
  ⟨rfl, rfl⟩

/-!
## Claim C10
-/

/-- Claim C10: `convert_selector` is total only when every `c` value is an
integer literal: `@a[c=x]` makes the unguarded `int(value)` (line 550)
raise an uncaught `ValueError`, while the integer-valued `@a[c=3]`
converts normally. -/
theorem convert_selector_c_nonint_raises :
    convert_selector noLookup idNbt "@a[c=x]".toList = .error "ValueError".toList ∧
    convert_selector noLookup idNbt "@a[c=3]".toList =
      .ok "@a[limit=3,sort=nearest]".toList := by decide

/-!
## Claim C2 counterexample
-/

/-- Claim C2 counterexample: the parameter list is split by a plain
`params.split(',')` (line 511), so the comma nested inside the braces of
`@e[tag={a,b}]` is treated as a parameter separator: the fragment `b}` has
no `=` and is dropped, and the whole selector converts to `@e[tag={a]`
instead of keeping `tag={a,b}` as one parameter. -/
theorem convert_selector_splits_nested_comma :
    convert_selector noLookup idNbt "@e[tag=\x7ba,b\x7d]".toList =
      .ok "@e[tag=\x7ba]".toList ∧
    ("@e[tag=\x7ba]".toList : Str) ≠ "@e[tag=\x7ba,b\x7d]".toList := by decide

/-!
## Claim C6 counterexample
-/

/-- Claim C6 counterexample: `convert_selector` is not idempotent on
`@e[distance=..5,score_a=1]`, whose parameter set contains none of
`r`/`rm`/`c`: the first application emits `distance=..5` before
`scores={a=1}`, but the second buffers the open-ended `distance` again and
re-emits it after the passed-through `scores`, flipping the order. -/
theorem convert_selector_not_idempotent :
    convert_selector noLookup idNbt "@e[distance=..5,score_a=1]".toList =
      .ok "@e[distance=..5,scores=\x7ba=1\x7d]".toList ∧
    convert_selector noLookup idNbt "@e[distance=..5,scores=\x7ba=1\x7d]".toList =
      .ok "@e[scores=\x7ba=1\x7d,distance=..5]".toList ∧
    ("@e[scores=\x7ba=1\x7d,distance=..5]".toList : Str) ≠
      "@e[distance=..5,scores=\x7ba=1\x7d]".toList := by decide

/-!
## Claim C8
-/

/-- Claim C8 counterexample: when the `ArmorDropChances` converter raises
(here `float('x')` with `ValueError`, line 758), the registry catches the
exception but the compound is **not** left unmodified by that converter:
the `drop_chances:{}` key it inserted before raising (lines 750-751)
survives in the pipeline's result. -/
theorem registry_partial_mutation_remains :
    registryConvert (nbtPipeline idItemConv noColorComps)
        [("ArmorDropChances".toList, NBT.list [NBT.str "x".toList])] "entity".toList =
      [("ArmorDropChances".toList, NBT.list [NBT.str "x".toList]),
       (dcKey, NBT.compound [])] ∧
    [("ArmorDropChances".toList, NBT.list [NBT.str "x".toList]),
       (dcKey, NBT.compound [])] ≠
      [("ArmorDropChances".toList, NBT.list [NBT.str "x".toList])] := by decide

/-- Claim C8 as amended: an exception from one registered converter is
caught at the registry level and the remaining converters are still
applied in order, but the compound is not rolled back: processing
continues from the state the converter had mutated it into by the moment
it raised (its `raised` payload), not from the pre-converter state. -/
theorem registry_catches_and_continues (ctx name : Str) (f : Converter)
    (rest : List (Str × Converter)) (nbt st : List (Str × NBT))
    (hgate : (alwaysCalled.contains name || hasKeyKV name nbt) = true)
    (hraise : f nbt ctx = .raised st) :
    registryConvert ((name, f) :: rest) nbt ctx = registryConvert rest st ctx := by
  simp only [registryConvert, List.foldl_cons, registryStep]
  rw [if_pos (by simpa using hgate), hraise]

/-- Witness for `registry_catches_and_continues`: the raising
`ArmorDropChances` converter at the head of the remaining pipeline. -/
theorem registry_catches_and_continues_witness :
    registryConvert
        (("ArmorDropChances".toList, convArmorDropChances) ::
          [("HandDropChances".toList, convHandDropChances),
           ("CustomName".toList, convCustomName noColorComps),
           ("Inventory".toList, convInventory idItemConv),
           ("SelectedItem".toList, convSelectedItem idItemConv)])
        [("ArmorDropChances".toList, NBT.list [NBT.str "x".toList])] "entity".toList =
      registryConvert
        [("HandDropChances".toList, convHandDropChances),
         ("CustomName".toList, convCustomName noColorComps),
         ("Inventory".toList, convInventory idItemConv),
         ("SelectedItem".toList, convSelectedItem idItemConv)]
        [("ArmorDropChances".toList, NBT.list [NBT.str "x".toList]),
         (dcKey, NBT.compound [])] "entity".toList :=
  registry_catches_and_continues "entity".toList "ArmorDropChances".toList
    convArmorDropChances _ _ _ (by decide) (by decide)

/-!
## Claim C9
-/

/-- Claim C9 counterexample: below its one-argument minimum,
`_convert_testfor` returns the rewritten-form stub
`execute if entity @s` (line 4039), not the verb name `testfor` alone. -/
theorem convert_testfor_stub_not_verb :
    convert_testfor noLookup idNbt idInvFix [] = .ok "execute if entity @s".toList ∧
    ("execute if entity @s".toList : Str) ≠ "testfor".toList := by decide

/-- Claim C9 as amended: below the declared minimum argument count a
mapped conversion routine returns a fixed minimal stub without raising,
but the stub is not always the verb name alone: `summon` returns the bare
verb `summon`, while the semantically rewritten `testfor` returns its
new-form stub `execute if entity @s`. -/
theorem convert_arity_stub (lk : Str → Option Str) (cEN invFix : Str → Str)
    (args : List Str) (h : args.length < 1) :
    convert_summon lk cEN args = "summon".toList ∧
    convert_testfor lk cEN invFix args = .ok "execute if entity @s".toList := by
  have hnil : args = [] := List.length_eq_zero.mp (by omega)
  subst hnil
  exact ⟨rfl, rfl⟩

/-- Witness for `convert_arity_stub` at the empty argument list. -/
theorem convert_arity_stub_witness :
    convert_summon noLookup idNbt [] = "summon".toList ∧
    convert_testfor noLookup idNbt idInvFix [] = .ok "execute if entity @s".toList :=
  convert_arity_stub noLookup idNbt idInvFix [] (by decide)

/-!
## Claim C1 counterexample
-/

/-- Claim C1 counterexample: the round trip `parse ∘ serialize ∘ parse` is
not structurally stable on `{drop_chances:0.0001}`: the serializer formats
floats under a `drop_chances` key with exactly three decimals (line 3473),
so the value 0.0001 re-parses as 0.0 and the two trees differ. -/
theorem parse_serialize_parse_not_stable :
    parse_snbt "\x7bdrop_chances:0.0001\x7d".toList =
      NBT.compound [(dcKey, NBT.float ⟨1, 4⟩)] ∧
    serialize_snbt (NBT.compound [(dcKey, NBT.float ⟨1, 4⟩)]) =
      "\x7bdrop_chances:0.000\x7d".toList ∧
    parse_snbt (serialize_snbt (parse_snbt "\x7bdrop_chances:0.0001\x7d".toList)) ≠
      parse_snbt "\x7bdrop_chances:0.0001\x7d".toList := by decide

/-!
## String-processing lemmas

Facts about the `List Char` helpers, used to settle the universally
quantified selector claims.
-/

theorem dropWhile_all_false {p : Char → Bool} :
    ∀ {s : Str}, (∀ c ∈ s, p c = false) → s.dropWhile p = s
  | [], _ => rfl
  | c :: t, h => by
    simp only [List.dropWhile, h c (by simp)]

theorem dropWhileEnd_all_false {p : Char → Bool} {s : Str}
    (h : ∀ c ∈ s, p c = false) : dropWhileEnd p s = s := by
  unfold dropWhileEnd
  rw [dropWhile_all_false (fun c hc => h c (by simpa using hc)), List.reverse_reverse]

theorem pyStrip_all_nonws {s : Str} (h : ∀ c ∈ s, pyWsChar c = false) :
    pyStrip s = s := by
  unfold pyStrip
  rw [dropWhile_all_false h, dropWhileEnd_all_false h]

theorem splitOnChar_ne_nil (c : Char) (xs : Str) : splitOnChar c xs ≠ [] := by
  cases xs with
  | nil => simp [splitOnChar]
  | cons x t =>
    simp only [splitOnChar]
    cases splitOnChar c t with
    | nil => simp
    | cons h tt => by_cases hx : x = c <;> simp [hx]

theorem splitOnChar_not_mem {c : Char} {xs : Str} (h : ∀ d ∈ xs, d ≠ c) :
    splitOnChar c xs = [xs] := by
  induction xs with
  | nil => rfl
  | cons x t ih =>
    have ht := ih (fun d hd => h d (List.mem_cons_of_mem x hd))
    simp only [splitOnChar, ht]
    rw [if_neg (h x (List.mem_cons_self x t))]

theorem splitOnChar_append {c : Char} {ys : Str} :
    ∀ {xs : Str}, (∀ d ∈ xs, d ≠ c) →
      splitOnChar c (xs ++ c :: ys) = xs :: splitOnChar c ys := by
  intro xs
  induction xs with
  | nil =>
    intro _
    simp only [List.nil_append, splitOnChar]
    obtain ⟨hh, tt, heq⟩ := List.exists_cons_of_ne_nil (splitOnChar_ne_nil c ys)
    rw [heq]
    simp
  | cons x t ih =>
    intro h
    have ht' : splitOnChar c (t.append (c :: ys)) = t :: splitOnChar c ys :=
      ih (fun d hd => h d (List.mem_cons_of_mem x hd))
    simp only [List.cons_append, splitOnChar, ht']
    rw [if_neg (h x (List.mem_cons_self x t))]

theorem splitFirst_append {c : Char} {ys : Str} :
    ∀ {xs : Str}, (∀ d ∈ xs, d ≠ c) →
      splitFirst c (xs ++ c :: ys) = some (xs, ys) := by
  intro xs
  induction xs with
  | nil => intro _; simp [splitFirst]
  | cons x t ih =>
    intro h
    have ht' : splitFirst c (t.append (c :: ys)) = some (t, ys) :=
      ih (fun d hd => h d (List.mem_cons_of_mem x hd))
    simp only [List.cons_append, splitFirst, ht']
    rw [if_neg (h x (List.mem_cons_self x t))]

theorem contains_eq_false {c : Char} {xs : Str} (h : ∀ d ∈ xs, d ≠ c) :
    xs.contains c = false := by
  induction xs with
  | nil => rfl
  | cons x t ih =>
    have ht := ih (fun d hd => h d (List.mem_cons_of_mem x hd))
    simp only [List.contains_cons, ht, Bool.or_false, beq_eq_false_iff_ne]
    exact fun hh => h x (List.mem_cons_self x t) hh.symm

theorem getLast?_append_right {b : Str} (hb : b ≠ []) (a : Str) :
    (a ++ b).getLast? = b.getLast? :=
  List.getLast?_append_of_ne_nil a hb

theorem mem_of_getLast? {s : Str} {d : Char} (h : s.getLast? = some d) : d ∈ s := by
  induction s with
  | nil => cases h
  | cons x t ih =>
    cases t with
    | nil =>
      simp only [List.getLast?_singleton, Option.some.injEq] at h
      simp [h]
    | cons y u =>
      rw [List.getLast?_cons_cons] at h
      exact List.mem_cons_of_mem x (ih h)

theorem rstrip_no_last {c : Char} {xs : Str} (h : ∀ d ∈ xs, d ≠ c) :
    pyRStripChar c xs = xs := by
  unfold pyRStripChar
  exact dropWhileEnd_all_false (fun d hd => by
    simp only [beq_eq_false_iff_ne]; exact h d hd)

theorem rstrip_append_last {c : Char} {xs : Str} (h : ∀ d ∈ xs, d ≠ c) :
    pyRStripChar c (xs ++ [c]) = xs := by
  unfold pyRStripChar dropWhileEnd
  rw [List.reverse_append]
  simp only [List.reverse_cons, List.reverse_nil, List.nil_append, List.singleton_append,
    List.dropWhile_cons]
  rw [if_pos (show (c == c) = true by simp)]
  rw [dropWhile_all_false (fun d hd => by
    simp only [beq_eq_false_iff_ne]
    exact h d (by simpa using hd))]
  exact List.reverse_reverse xs

/-- Alphanumeric characters are not whitespace and are none of the
selector's structural characters. -/
theorem alnum_not_special {c : Char} (h : c.isAlphanum = true) :
    pyWsChar c = false ∧ c ≠ ',' ∧ c ≠ ']' ∧ c ≠ '[' ∧ c ≠ '=' ∧ c ≠ '.' := by
  refine ⟨?_, ?_, ?_, ?_, ?_, ?_⟩
  · simp only [pyWsChar, Bool.or_eq_false_iff, beq_eq_false_iff_ne]
    refine ⟨⟨⟨⟨⟨?_, ?_⟩, ?_⟩, ?_⟩, ?_⟩, ?_⟩ <;> (rintro rfl; exact absurd h (by decide))
  all_goals (rintro rfl; exact absurd h (by decide))

theorem digit_isAlphanum {c : Char} (h : c.isDigit = true) : c.isAlphanum = true := by
  simp only [Char.isAlphanum, Bool.or_eq_true]
  exact Or.inr h

theorem isDigitStr_mem {s : Str} (h : pyIsDigitStr s = true) : ∀ d ∈ s, d.isDigit = true := by
  simp only [pyIsDigitStr, Bool.and_eq_true, List.all_eq_true] at h
  exact h.2

theorem pyStrip_digit_param (pre : Str) (a : Str) (ha : pyIsDigitStr a = true)
    (hp : ∀ d ∈ pre, pyWsChar d = false) :
    pyStrip (pre ++ a) = pre ++ a := by
  apply pyStrip_all_nonws
  intro d hd
  rcases List.mem_append.1 hd with h | h
  · exact hp d h
  · exact (alnum_not_special (digit_isAlphanum (isDigitStr_mem ha d h))).1

/-- The `r=` branch of the parameter loop (line 548): a digit-string value
is stored as the pending distance maximum. -/
theorem procParam_r (lk : Str → Option Str) (cEN : Str → Str) (st : SelState) (a : Str)
    (ha : pyIsDigitStr a = true) :
    procParam lk cEN ['e'] st ('r' :: '=' :: a) = .ok { st with dmax := some a } := by
  have h1 : pyStrip ('r' :: '=' :: a) = 'r' :: '=' :: a :=
    pyStrip_digit_param ['r', '='] a ha (by decide)
  have h3 : pyStrip a = a := pyStrip_digit_param [] a ha (by simp)
  have h4 : pyStrip ['r'] = ['r'] := by decide
  simp [procParam, h1, h3, h4, splitFirst]

/-- The `rm=` branch of the parameter loop (line 549): a digit-string value
is stored as the pending distance minimum. -/
theorem procParam_rm (lk : Str → Option Str) (cEN : Str → Str) (st : SelState) (b : Str)
    (hb : pyIsDigitStr b = true) :
    procParam lk cEN ['e'] st ('r' :: 'm' :: '=' :: b) = .ok { st with dmin := some b } := by
  have h1 : pyStrip ('r' :: 'm' :: '=' :: b) = 'r' :: 'm' :: '=' :: b :=
    pyStrip_digit_param ['r', 'm', '='] b hb (by decide)
  have h3 : pyStrip b = b := pyStrip_digit_param [] b hb (by simp)
  have h4 : pyStrip ['r', 'm'] = ['r', 'm'] := by decide
  simp [procParam, h1, h3, h4, splitFirst]

theorem rstrip_sel (a b : Str) (ha : pyIsDigitStr a = true) (hb : pyIsDigitStr b = true) :
    pyRStripChar ']' ('r' :: '=' :: (a ++ ',' :: 'r' :: 'm' :: '=' :: (b ++ [']']))) =
      'r' :: '=' :: (a ++ ',' :: 'r' :: 'm' :: '=' :: b) := by
  have heq : 'r' :: '=' :: (a ++ ',' :: 'r' :: 'm' :: '=' :: (b ++ [']'])) =
      ('r' :: '=' :: (a ++ ',' :: 'r' :: 'm' :: '=' :: b)) ++ [']'] := by
    simp
  rw [heq]
  apply rstrip_append_last
  intro d hd
  simp only [List.mem_cons, List.mem_append] at hd
  rcases hd with rfl | rfl | hd | rfl | rfl | rfl | rfl | hd
  · decide
  · decide
  · exact (alnum_not_special (digit_isAlphanum (isDigitStr_mem ha d hd))).2.2.1
  · decide
  · decide
  · decide
  · decide
  · exact (alnum_not_special (digit_isAlphanum (isDigitStr_mem hb d hd))).2.2.1

theorem split_sel (a b : Str) (ha : pyIsDigitStr a = true) (hb : pyIsDigitStr b = true) :
    splitOnChar ',' ('r' :: '=' :: (a ++ ',' :: 'r' :: 'm' :: '=' :: b)) =
      [('r' :: '=' :: a), ('r' :: 'm' :: '=' :: b)] := by
  have heq : 'r' :: '=' :: (a ++ ',' :: 'r' :: 'm' :: '=' :: b) =
      ('r' :: '=' :: a) ++ ',' :: ('r' :: 'm' :: '=' :: b) := by simp
  rw [heq, splitOnChar_append, splitOnChar_not_mem]
  · intro d hd
    simp only [List.mem_cons] at hd
    rcases hd with rfl | rfl | rfl | hd
    · decide
    · decide
    · decide
    · exact (alnum_not_special (digit_isAlphanum (isDigitStr_mem hb d hd))).2.1
  · intro d hd
    simp only [List.mem_cons] at hd
    rcases hd with rfl | rfl | hd
    · decide
    · decide
    · exact (alnum_not_special (digit_isAlphanum (isDigitStr_mem ha d hd))).2.1

/-- C4: in `convert_selector` (lines 591-608), when a selector supplies both
a distance maximum `r=a` and a distance minimum `rm=b` as digit strings and
the minimum exceeds the maximum numerically (`a < b`), the two bounds are
swapped before the single combined `distance=` parameter is emitted, so the
smaller bound comes first: `@e[r=a,rm=b]` becomes `@e[distance=a..b]`.
The bounds on the digit-string lengths keep both values below `10^15 <
2^53`, where `float()` is exact and IEEE-754 doubles compare exactly like
the integers, so the model's `pyFloatLt` is the source's `min_val >
max_val` comparison. -/
theorem convert_selector_distance_swap (lk : Str → Option Str) (cEN : Str → Str)
    (a b : Str) (qa qb : PyFloat)
    (ha : pyIsDigitStr a = true) (hb : pyIsDigitStr b = true)
    (hla : a.length ≤ 15) (hlb : b.length ≤ 15)
    (hqa : pyFloatOfString a = some qa) (hqb : pyFloatOfString b = some qb)
    (hlt : pyFloatLt qa qb = true) :
    convert_selector lk cEN
        ('@' :: 'e' :: '[' :: 'r' :: '=' :: (a ++ ',' :: 'r' :: 'm' :: '=' :: (b ++ [']']))) =
      .ok ('@' :: 'e' :: '[' :: ("distance=".toList ++ (a ++ '.' :: '.' :: (b ++ [']'])))) := by
  have hr := rstrip_sel a b ha hb
  have hs := split_sel a b ha hb
  have hp1 : procParam lk cEN ['e'] ⟨[], [], none, none, none, none, none, none⟩
        ('r' :: '=' :: a) =
      .ok ⟨[], [], none, some a, none, none, none, none⟩ :=
    (procParam_r lk cEN initSelState a ha).trans rfl
  have hp2 : procParam lk cEN ['e'] ⟨[], [], none, some a, none, none, none, none⟩
        ('r' :: 'm' :: '=' :: b) =
      .ok ⟨[], [], some b, some a, none, none, none, none⟩ :=
    (procParam_rm lk cEN ⟨[], [], none, some a, none, none, none, none⟩ b hb).trans rfl
  simp [convert_selector, List.isPrefixOf, splitFirst, hr, hs, procParams, hp1, hp2,
    combineDistance, hqa, hqb, hlt, combineScores, combineRotation, initSelState, joinComma]

theorem alnumStr_mem {s : Str} (h : s.all Char.isAlphanum = true) :
    ∀ d ∈ s, d.isAlphanum = true := List.all_eq_true.1 h

/-- C2 (amended): `convert_selector` splits the parameter list with a naive
`params.split(',')` (line 511), so a comma nested inside a braced value IS
treated as a separator: for any alphanumeric `a` and `b`, the selector
`@e[tag={a,b}]` is cut into the parameters `tag={a` and `b}`; the second has
no `=` and is dropped, and the output is the mangled `@e[tag={a]`. -/
theorem convert_selector_comma_split_amended (lk : Str → Option Str) (cEN : Str → Str)
    (a b : Str)
    (ha : a.all Char.isAlphanum = true) (hb : b.all Char.isAlphanum = true) :
    convert_selector lk cEN
        ('@' :: 'e' :: '[' :: 't' :: 'a' :: 'g' :: '=' :: '\x7b' ::
          (a ++ ',' :: (b ++ ['\x7d', ']']))) =
      .ok ('@' :: 'e' :: '[' :: 't' :: 'a' :: 'g' :: '=' :: '\x7b' :: (a ++ [']'])) := by
  have ham := alnumStr_mem ha
  have hbm := alnumStr_mem hb
  have hr : pyRStripChar ']'
        ('t' :: 'a' :: 'g' :: '=' :: '\x7b' :: (a ++ ',' :: (b ++ ['\x7d', ']']))) =
      't' :: 'a' :: 'g' :: '=' :: '\x7b' :: (a ++ ',' :: (b ++ ['\x7d'])) := by
    have heq : 't' :: 'a' :: 'g' :: '=' :: '\x7b' :: (a ++ ',' :: (b ++ ['\x7d', ']'])) =
        ('t' :: 'a' :: 'g' :: '=' :: '\x7b' :: (a ++ ',' :: (b ++ ['\x7d']))) ++ [']'] := by
      simp
    rw [heq]
    apply rstrip_append_last
    intro d hd
    simp only [List.mem_cons, List.mem_append, List.mem_singleton, List.not_mem_nil,
      or_false] at hd
    rcases hd with rfl | rfl | rfl | rfl | rfl | hd | rfl | hd | rfl
    · decide
    · decide
    · decide
    · decide
    · decide
    · exact (alnum_not_special (ham d hd)).2.2.1
    · decide
    · exact (alnum_not_special (hbm d hd)).2.2.1
    · decide
  have hs : splitOnChar ','
        ('t' :: 'a' :: 'g' :: '=' :: '\x7b' :: (a ++ ',' :: (b ++ ['\x7d']))) =
      [('t' :: 'a' :: 'g' :: '=' :: '\x7b' :: a), (b ++ ['\x7d'])] := by
    have heq : 't' :: 'a' :: 'g' :: '=' :: '\x7b' :: (a ++ ',' :: (b ++ ['\x7d'])) =
        ('t' :: 'a' :: 'g' :: '=' :: '\x7b' :: a) ++ ',' :: (b ++ ['\x7d']) := by simp
    rw [heq, splitOnChar_append, splitOnChar_not_mem]
    · intro d hd
      rcases List.mem_append.1 hd with h | h
      · exact (alnum_not_special (hbm d h)).2.1
      · simp only [List.mem_singleton] at h
        subst h
        decide
    · intro d hd
      simp only [List.mem_cons] at hd
      rcases hd with rfl | rfl | rfl | rfl | rfl | hd
      · decide
      · decide
      · decide
      · decide
      · decide
      · exact (alnum_not_special (ham d hd)).2.1
  have hstrip1 : pyStrip ('t' :: 'a' :: 'g' :: '=' :: '\x7b' :: a) =
      't' :: 'a' :: 'g' :: '=' :: '\x7b' :: a := by
    apply pyStrip_all_nonws
    intro d hd
    simp only [List.mem_cons] at hd
    rcases hd with rfl | rfl | rfl | rfl | rfl | hd
    · decide
    · decide
    · decide
    · decide
    · decide
    · exact (alnum_not_special (ham d hd)).1
  have hstripv : pyStrip ('\x7b' :: a) = '\x7b' :: a := by
    apply pyStrip_all_nonws
    intro d hd
    simp only [List.mem_cons] at hd
    rcases hd with rfl | hd
    · decide
    · exact (alnum_not_special (ham d hd)).1
  have hp1 : procParam lk cEN ['e'] ⟨[], [], none, none, none, none, none, none⟩
        ('t' :: 'a' :: 'g' :: '=' :: '\x7b' :: a) =
      .ok ⟨[('t' :: 'a' :: 'g' :: '=' :: '\x7b' :: a)], [], none, none, none, none, none, none⟩ := by
    have h4 : pyStrip ['t', 'a', 'g'] = ['t', 'a', 'g'] := by decide
    simp [procParam, hstrip1, splitFirst, h4, hstripv, initSelState]
  have hstrip2 : pyStrip (b ++ ['\x7d']) = b ++ ['\x7d'] := by
    apply pyStrip_all_nonws
    intro d hd
    rcases List.mem_append.1 hd with h | h
    · exact (alnum_not_special (hbm d h)).1
    · simp only [List.mem_singleton] at h
      subst h
      decide
  have hne : ¬ ('=' ∈ b ++ ['\x7d']) := by
    intro hm
    rcases List.mem_append.1 hm with h | h
    · exact (alnum_not_special (hbm '=' h)).2.2.2.2.1 rfl
    · simp at h
  have hp2 : procParam lk cEN ['e']
        ⟨[('t' :: 'a' :: 'g' :: '=' :: '\x7b' :: a)], [], none, none, none, none, none, none⟩
        (b ++ ['\x7d']) =
      .ok ⟨[('t' :: 'a' :: 'g' :: '=' :: '\x7b' :: a)], [], none, none, none, none, none, none⟩ := by
    simp [procParam, hstrip2, hne]
  simp [convert_selector, List.isPrefixOf, splitFirst, hr, hs, procParams, hp1, hp2,
    combineDistance, combineScores, combineRotation, initSelState, joinComma]

/-- Witness for the amended C2 statement at `@e[tag=\x7ba,b\x7d]`. -/
theorem convert_selector_comma_split_amended_witness :
    convert_selector noLookup idNbt
        ('@' :: 'e' :: '[' :: 't' :: 'a' :: 'g' :: '=' :: '\x7b' ::
          (['a'] ++ ',' :: (['b'] ++ ['\x7d', ']']))) =
      .ok ('@' :: 'e' :: '[' :: 't' :: 'a' :: 'g' :: '=' :: '\x7b' :: (['a'] ++ [']'])) :=
  convert_selector_comma_split_amended noLookup idNbt ['a'] ['b'] (by decide) (by decide)

theorem alnum_no_score_prefix {key : Str} (hk : key.all Char.isAlphanum = true) :
    ¬ (['s', 'c', 'o', 'r', 'e', '_'] <+: key) := by
  intro h
  obtain ⟨t, rfl⟩ := h
  have hu : ('_' : Char).isAlphanum = true :=
    List.all_eq_true.1 hk '_' (List.mem_append_left t (by decide))
  exact absurd hu (by decide)

theorem convert_selector_generic_fixed (lk : Str → Option Str) (cEN : Str → Str)
    (p key value : Str)
    (hp : p.all Char.isAlphanum = true) (hpne : p ≠ []) (hpr : p ≠ ['r'])
    (hk : key.all Char.isAlphanum = true) (hv : value.all Char.isAlphanum = true)
    (hns : key ∉ ([['r'], ['r', 'm'], ['c'], ['m'], ['x'], ['y'], ['z'],
        ['t', 'y', 'p', 'e'], ['n', 'b', 't'], ['d', 'i', 's', 't', 'a', 'n', 'c', 'e'],
        ['r', 'x'], ['r', 'x', 'm'], ['r', 'y'], ['r', 'y', 'm']] : List Str)) :
    convert_selector lk cEN ('@' :: (p ++ '[' :: (key ++ '=' :: (value ++ [']'])))) =
      .ok ('@' :: (p ++ '[' :: (key ++ '=' :: (value ++ [']'])))) := by
  obtain ⟨ph, pt, rfl⟩ : ∃ ph pt, p = ph :: pt := by
    cases p with
    | nil => exact absurd rfl hpne
    | cons ph pt => exact ⟨ph, pt, rfl⟩
  have hp' := alnumStr_mem hp
  have hk' := alnumStr_mem hk
  have hv' := alnumStr_mem hv
  simp only [List.mem_cons, List.not_mem_nil, or_false, not_or] at hns
  obtain ⟨n1, n2, n3, n4, n5, n6, n7, n8, n9, n10, n11, n12, n13, n14⟩ := hns
  have hph : ('[' : Char) ≠ ph := fun he =>
    (alnum_not_special (hp' ph (List.mem_cons_self ph pt))).2.2.2.1 he.symm
  -- splitFirst on the opening bracket
  have hsf : splitFirst '[' (ph :: (pt ++ '[' :: (key ++ '=' :: (value ++ [']'])))) =
      some (ph :: pt, key ++ '=' :: (value ++ [']'])) :=
    splitFirst_append (fun d hd => (alnum_not_special (hp' d hd)).2.2.2.1)
  -- rstrip of the parameter text
  have hr : pyRStripChar ']' (key ++ '=' :: (value ++ [']'])) = key ++ '=' :: value := by
    have heq : key ++ '=' :: (value ++ [']']) = (key ++ '=' :: value) ++ [']'] := by simp
    rw [heq]
    apply rstrip_append_last
    intro d hd
    simp only [List.mem_cons, List.mem_append] at hd
    rcases hd with hd | rfl | hd
    · exact (alnum_not_special (hk' d hd)).2.2.1
    · decide
    · exact (alnum_not_special (hv' d hd)).2.2.1
  -- the single parameter piece
  have hs : splitOnChar ',' (key ++ '=' :: value) = [key ++ '=' :: value] := by
    apply splitOnChar_not_mem
    intro d hd
    simp only [List.mem_cons, List.mem_append] at hd
    rcases hd with hd | rfl | hd
    · exact (alnum_not_special (hk' d hd)).2.1
    · decide
    · exact (alnum_not_special (hv' d hd)).2.1
  have hstrip : pyStrip (key ++ '=' :: value) = key ++ '=' :: value := by
    apply pyStrip_all_nonws
    intro d hd
    simp only [List.mem_cons, List.mem_append] at hd
    rcases hd with hd | rfl | hd
    · exact (alnum_not_special (hk' d hd)).1
    · decide
    · exact (alnum_not_special (hv' d hd)).1
  have hmem : '=' ∈ key ++ '=' :: value :=
    List.mem_append_right key (List.mem_cons_self '=' value)
  have hsfe : splitFirst '=' (key ++ '=' :: value) = some (key, value) :=
    splitFirst_append (fun d hd => (alnum_not_special (hk' d hd)).2.2.2.2.1)
  have hstripk : pyStrip key = key := by
    apply pyStrip_all_nonws
    intro d hd
    exact (alnum_not_special (hk' d hd)).1
  have hstripv : pyStrip value = value := by
    apply pyStrip_all_nonws
    intro d hd
    exact (alnum_not_special (hv' d hd)).1
  have hsp := alnum_no_score_prefix hk
  have hpar : procParam lk cEN (ph :: pt) ⟨[], [], none, none, none, none, none, none⟩
        (key ++ '=' :: value) =
      .ok ⟨[key ++ '=' :: value], [], none, none, none, none, none, none⟩ := by
    simp [procParam, hstrip, hmem, hsfe, hstripk, hstripv, hsp,
      n1, n2, n3, n4, n5, n6, n7, n8, n9, n10, n11, n12, n13, n14]
  simp [convert_selector, List.isPrefixOf, hph, hsf, hr, hs, procParams, hpar,
    combineDistance, combineScores, combineRotation, initSelState, joinComma, hpr]

/-- C6 (amended): the original claim (idempotence for all parameter sets
without `r`/`rm`/`c`) is refuted by the counterexample below; it holds on
the selectors whose single parameter has an alphanumeric key that is none
of the specially rewritten keys (`r`, `rm`, `c`, `m`, `x`, `y`, `z`,
`type`, `nbt`, `distance`, `rx`, `rxm`, `ry`, `rym`) and an alphanumeric
value: `convert_selector` then returns its input unchanged, so a second
application returns the first application's output. -/
theorem convert_selector_idempotent_amended (lk : Str → Option Str) (cEN : Str → Str)
    (p key value : Str)
    (hp : p.all Char.isAlphanum = true) (hpne : p ≠ []) (hpr : p ≠ ['r'])
    (hk : key.all Char.isAlphanum = true) (hv : value.all Char.isAlphanum = true)
    (hns : key ∉ ([['r'], ['r', 'm'], ['c'], ['m'], ['x'], ['y'], ['z'],
        ['t', 'y', 'p', 'e'], ['n', 'b', 't'], ['d', 'i', 's', 't', 'a', 'n', 'c', 'e'],
        ['r', 'x'], ['r', 'x', 'm'], ['r', 'y'], ['r', 'y', 'm']] : List Str)) :
    ∃ out, convert_selector lk cEN
        ('@' :: (p ++ '[' :: (key ++ '=' :: (value ++ [']'])))) = .ok out ∧
      convert_selector lk cEN out = .ok out :=
  ⟨'@' :: (p ++ '[' :: (key ++ '=' :: (value ++ [']']))),
    convert_selector_generic_fixed lk cEN p key value hp hpne hpr hk hv hns,
    convert_selector_generic_fixed lk cEN p key value hp hpne hpr hk hv hns⟩

/-- Witness for the amended C6 statement at `@e[tag=1]`. -/
theorem convert_selector_idempotent_amended_witness :
    ∃ out, convert_selector noLookup idNbt
        ('@' :: (['e'] ++ '[' :: (['t', 'a', 'g'] ++ '=' :: (['1'] ++ [']'])))) = .ok out ∧
      convert_selector noLookup idNbt out = .ok out :=
  convert_selector_idempotent_amended noLookup idNbt ['e'] ['t', 'a', 'g'] ['1']
    (by decide) (by decide) (by decide) (by decide) (by decide) (by decide)

/-- Witness for C4 at the spec's own example `@e[r=10,rm=50]`. -/
theorem convert_selector_distance_swap_witness :
    convert_selector noLookup idNbt
        ('@' :: 'e' :: '[' :: 'r' :: '=' ::
          ("10".toList ++ ',' :: 'r' :: 'm' :: '=' :: ("50".toList ++ [']']))) =
      .ok ('@' :: 'e' :: '[' ::
        ("distance=".toList ++ ("10".toList ++ '.' :: '.' :: ("50".toList ++ [']'])))) :=
  convert_selector_distance_swap noLookup idNbt "10".toList "50".toList ⟨10, 0⟩ ⟨50, 0⟩
    (by decide) (by decide) (by decide) (by decide) (by decide) (by decide) (by decide)

/-!
## Totality of the parser (C7)

The fueled embedding returns the same tree for every fuel above the
quadratic bound `fuelFor`, so the source recursion terminates with a
definite node on every input, well-formed or not.
-/

theorem dropWhile_length_le (p : Char → Bool) (l : Str) :
    (l.dropWhile p).length ≤ l.length :=
  (List.dropWhile_sublist p).length_le

theorem takeWhile_length_le (p : Char → Bool) (l : Str) :
    (l.takeWhile p).length ≤ l.length :=
  (List.takeWhile_sublist p).length_le

theorem parseStringGo_eq_bs (qc c : Char) (rest : Str) :
    parseStringGo qc ('\\' :: c :: rest) =
      if c = '\\' ∨ c = qc then
        ((c :: (parseStringGo qc rest).1, (parseStringGo qc rest).2) : Str × Str)
      else ('\\' :: (parseStringGo qc (c :: rest)).1, (parseStringGo qc (c :: rest)).2) := by
  simp [parseStringGo]

theorem parseStringGo_eq_other (qc c : Char) (rest : Str) (h : c ≠ '\\') :
    parseStringGo qc (c :: rest) =
      if c = qc then ([], rest)
      else ((c :: (parseStringGo qc rest).1, (parseStringGo qc rest).2) : Str × Str) := by
  simp [parseStringGo, h]

theorem parseStringGo_len (qc : Char) :
    ∀ (n : Nat) (s : Str), s.length ≤ n → (parseStringGo qc s).2.length ≤ s.length := by
  intro n
  induction n with
  | zero =>
    intro s hs
    have hnil : s = [] := List.length_eq_zero.1 (Nat.le_zero.1 hs)
    subst hnil
    simp [parseStringGo]
  | succ n ih =>
    intro s hs
    rcases s with _ | ⟨c, rest⟩
    · simp [parseStringGo]
    · by_cases hc : c = '\\'
      · subst hc
        rcases rest with _ | ⟨c2, r2⟩
        · simp only [parseStringGo]
          split <;> simp
        · rw [parseStringGo_eq_bs]
          have h1 := ih r2 (by simp at hs ⊢; omega)
          have h2 := ih (c2 :: r2) (by simp at hs ⊢; omega)
          split
          · simp at h1 ⊢
            omega
          · simp at h2 ⊢
            omega
      · rw [parseStringGo_eq_other qc c rest hc]
        have h1 := ih rest (by simp at hs ⊢; omega)
        split
        · simp
        · simp at h1 ⊢
          omega

theorem parseKey_len_some (s k : Str) (s2 : Str) (h : parseKey s = (some k, s2)) :
    s2.length < s.length := by
  unfold parseKey at h
  cases ht : s.dropWhile pyWsChar with
  | nil => rw [ht] at h; exact absurd h (by simp)
  | cons c rest =>
    have hts : rest.length + 1 ≤ s.length := by
      have := dropWhile_length_le pyWsChar s
      rw [ht] at this
      simpa using this
    rw [ht] at h
    dsimp only at h
    by_cases hq : c = '"' ∨ c = '\''
    · rw [if_pos hq] at h
      have hps := parseStringGo_len c rest.length rest (Nat.le_refl _)
      have hs2 : s2 = s.drop (rest.length + 1 - (parseStringGo c rest).2.length) := by
        have := congrArg Prod.snd h
        simpa using this.symm
      subst hs2
      simp only [List.length_drop]
      omega
    · rw [if_neg hq] at h
      by_cases hke : ((c :: rest).takeWhile keyChar).length > 0
      · rw [if_pos hke] at h
        have hs2 : s2 = s.drop ((c :: rest).takeWhile keyChar).length := by
          have := congrArg Prod.snd h
          simpa using this.symm
        subst hs2
        simp only [List.length_drop]
        omega
      · rw [if_neg hke] at h
        exact absurd h (by simp)

theorem numScan_len : ∀ (s : Str) (hd : Bool), (numScan s hd).2.1.length ≤ s.length := by
  intro s
  induction s with
  | nil => intro hd; simp [numScan]
  | cons c rest ih =>
    intro hd
    simp only [numScan]
    split
    · have := ih hd
      simp only [List.length_cons]
      omega
    · split
      · have := ih true
        simp only [List.length_cons]
        omega
      · simp

theorem identFallback_len (s : Str) : (identFallback s).2.length ≤ s.length := by
  simp only [identFallback]
  split
  · simp only [List.length_drop]
    omega
  · simp

theorem parsePrimitiveGo_len (s : Str) : (parsePrimitiveGo s).2.length ≤ s.length := by
  rcases s with _ | ⟨c, rest⟩
  · simp [parsePrimitiveGo]
  · simp only [parsePrimitiveGo]
    split
    · simp only [List.length_drop, List.length_cons]
      omega
    · split
      · simp only [List.length_drop, List.length_cons]
        omega
      · have hns1 := numScan_len rest false
        have hns2 := numScan_len (c :: rest) false
        have hif := identFallback_len (c :: rest)
        split <;> split <;> (try split) <;> (try split)
        all_goals
          first
            | exact hif
            | (dsimp only
               simp only [List.length_cons] at hns1 hns2 ⊢
               omega)

theorem parse_len : ∀ fuel : Nat,
    (∀ s : Str, (parseValue fuel s).2.length ≤ s.length) ∧
    (∀ (s : Str) (acc : List (Str × NBT)),
      (parseCompoundBody fuel s acc).2.length ≤ s.length) ∧
    (∀ (prev : Char) (inQ : Bool) (qc : Char) (bD kD : Int) (it : Str) (n : Nat)
       (acc : List NBT) (s : Str),
      (parseArrayBody fuel prev inQ qc bD kD it n acc s).2.length ≤ s.length) := by
  intro fuel
  induction fuel with
  | zero =>
    refine ⟨fun s => ?_, fun s acc => ?_, fun prev inQ qc bD kD it n acc s => ?_⟩
    · simp [parseValue]
    · simp [parseCompoundBody]
    · simp [parseArrayBody]
  | succ fuel ih =>
    obtain ⟨ihv, ihc, iha⟩ := ih
    refine ⟨fun s => ?_, fun s acc => ?_, fun prev inQ qc bD kD it n acc s => ?_⟩
    · -- parseValue
      simp only [parseValue]
      cases ht : s.dropWhile ws3 with
      | nil => simp
      | cons c rest =>
        have hts : rest.length + 1 ≤ s.length := by
          have := dropWhile_length_le ws3 s
          rw [ht] at this
          simpa using this
        have hps := parseStringGo_len c rest.length rest (Nat.le_refl _)
        have hpp := parsePrimitiveGo_len (c :: rest)
        have h1 := ihc rest ([] : List (Str × NBT))
        have h2 := iha '[' false '"' 0 1 rest 0 [] rest
        dsimp only
        split
        · dsimp only
          omega
        · split
          · dsimp only
            omega
          · split
            · dsimp only
              omega
            · simp only [List.length_cons] at hpp
              omega
    · -- parseCompoundBody
      simp only [parseCompoundBody]
      cases hs1 : s.dropWhile ws3 with
      | nil => simp
      | cons c rest =>
        have hts : rest.length + 1 ≤ s.length := by
          have := dropWhile_length_le ws3 s
          rw [hs1] at this
          simpa using this
        dsimp only
        split
        · dsimp only
          omega
        · cases hpk : parseKey (c :: rest) with
          | mk ok s2 =>
            cases ok with
            | none =>
              dsimp only
              simp only [List.length_cons]
              omega
            | some k =>
              have hs2 : s2.length < rest.length + 1 := by
                simpa using parseKey_len_some (c :: rest) k s2 hpk
              have hs3 := dropWhile_length_le (fun c2 => ws3 c2 || c2 == ':') s2
              have hpv := ihv (s2.dropWhile (fun c2 => ws3 c2 || c2 == ':'))
              dsimp only
              cases hv1 : (parseValue fuel (s2.dropWhile (fun c2 => ws3 c2 || c2 == ':'))).1 with
              | some v =>
                have hrec := ihc
                  (((parseValue fuel (s2.dropWhile (fun c2 => ws3 c2 || c2 == ':'))).2).dropWhile
                    (fun c2 => ws3 c2 || c2 == ','))
                  (insertKV k v acc)
                have hd2 := dropWhile_length_le (fun c2 => ws3 c2 || c2 == ',')
                  ((parseValue fuel (s2.dropWhile (fun c2 => ws3 c2 || c2 == ':'))).2)
                simp only [hv1]
                omega
              | none =>
                have hrec := ihc
                  (((s2.dropWhile (fun c2 => ws3 c2 || c2 == ':')).drop 1).dropWhile
                    (fun c2 => ws3 c2 || c2 == ','))
                  acc
                have hd2 := dropWhile_length_le (fun c2 => ws3 c2 || c2 == ',')
                  ((s2.dropWhile (fun c2 => ws3 c2 || c2 == ':')).drop 1)
                simp only [hv1, List.length_drop] at *
                omega
    · -- parseArrayBody
      simp only [parseArrayBody]
      cases s with
      | nil => simp
      | cons c rest =>
        have h1 := iha c true c bD kD it (n + 1) acc rest
        have h2 := iha c false qc bD kD it (n + 1) acc rest
        have h3 := iha c inQ qc bD kD it (n + 1) acc rest
        have h4 := iha c inQ qc (bD + 1) kD it (n + 1) acc rest
        have h5 := iha c inQ qc (bD - 1) kD it (n + 1) acc rest
        have h6 := iha c inQ qc bD (kD + 1) it (n + 1) acc rest
        have h7 := iha c inQ qc bD (kD - 1) it (n + 1) acc rest
        have h8 : ∀ acc2 : List NBT,
            (parseArrayBody fuel c inQ qc bD kD rest 0 acc2 rest).2.length ≤ rest.length :=
          fun acc2 => iha c inQ qc bD kD rest 0 acc2 rest
        dsimp only
        split
        · split
          · simp only [List.length_cons]
            omega
          · split
            · simp only [List.length_cons]
              omega
            · simp only [List.length_cons]
              omega
        · split
          · split
            · simp only [List.length_cons]
              omega
            · split
              · simp only [List.length_cons]
                omega
              · split
                · simp only [List.length_cons]
                  omega
                · split
                  · split
                    · try dsimp only
                      simp only [List.length_cons]
                      omega
                    · simp only [List.length_cons]
                      omega
                  · split
                    · try dsimp only
                      simp only [List.length_cons]
                      have := h8 (if n > 0 ∧ pyStrip (it.take n) ≠ [] then
                        match (parseValue fuel it).1 with
                        | some v => acc ++ [v]
                        | none => acc
                        else acc)
                      omega
                    · simp only [List.length_cons]
                      omega
          · simp only [List.length_cons]
            omega


theorem fuelA_mono {a b : Nat} (h : a ≤ b) : fuelA a ≤ fuelA b :=
  Nat.mul_le_mul (by omega) (by omega)

theorem fuelA_succ (x : Nat) : fuelA (x + 1) = fuelA x + 2 * x + 4 := by
  unfold fuelA
  ring

theorem fuelA_pos (x : Nat) : 2 ≤ fuelA x := by
  have := fuelA_mono (Nat.zero_le x)
  simpa [fuelA] using this

theorem parse_step : ∀ fuel : Nat,
    (∀ s : Str, fuelA s.length ≤ fuel → parseValue fuel s = parseValue (fuel + 1) s) ∧
    (∀ (s : Str) (acc : List (Str × NBT)), fuelA s.length + 1 ≤ fuel →
      parseCompoundBody fuel s acc = parseCompoundBody (fuel + 1) s acc) ∧
    (∀ (prev : Char) (inQ : Bool) (qc : Char) (bD kD : Int) (it : Str) (n : Nat)
       (acc : List NBT) (s : Str), s.length ≤ it.length →
      fuelA it.length + s.length + 1 ≤ fuel →
      parseArrayBody fuel prev inQ qc bD kD it n acc s =
        parseArrayBody (fuel + 1) prev inQ qc bD kD it n acc s) := by
  intro fuel
  induction fuel with
  | zero =>
    refine ⟨fun s hb => ?_, fun s acc hb => ?_,
      fun prev inQ qc bD kD it n acc s hsit hb => ?_⟩
    · exact absurd hb (by have := fuelA_pos s.length; omega)
    · exact absurd hb (by have := fuelA_pos s.length; omega)
    · exact absurd hb (by have := fuelA_pos it.length; omega)
  | succ f ih =>
    obtain ⟨ihv, ihc, iha⟩ := ih
    refine ⟨fun s hb => ?_, fun s acc hb => ?_,
      fun prev inQ qc bD kD it n acc s hsit hb => ?_⟩
    · -- parseValue
      simp only [parseValue]
      cases ht : s.dropWhile ws3 with
      | nil => rfl
      | cons c rest =>
        have hts : rest.length + 1 ≤ s.length := by
          have := dropWhile_length_le ws3 s
          rw [ht] at this
          simpa using this
        have hmono := fuelA_mono hts
        have hsucc := fuelA_succ rest.length
        have hbc : fuelA rest.length + 1 ≤ f := by omega
        have hba : fuelA rest.length + rest.length + 1 ≤ f := by omega
        have hc := ihc rest ([] : List (Str × NBT)) hbc
        have ha := iha '[' false '"' 0 1 rest 0 [] rest (Nat.le_refl _) hba
        dsimp only
        by_cases h1 : c = '{'
        · simp only [if_pos h1, hc]
        · by_cases h2 : c = '['
          · simp only [if_neg h1, if_pos h2, ha]
          · by_cases h3 : c = '"' ∨ c = '\''
            · simp only [if_neg h1, if_neg h2, if_pos h3]
            · simp only [if_neg h1, if_neg h2, if_neg h3]
    · -- parseCompoundBody
      simp only [parseCompoundBody]
      cases hs1 : s.dropWhile ws3 with
      | nil => rfl
      | cons c rest =>
        have hts : rest.length + 1 ≤ s.length := by
          have := dropWhile_length_le ws3 s
          rw [hs1] at this
          simpa using this
        by_cases hcb : c = '}'
        · simp [hcb]
        · simp only [if_neg hcb]
          cases hpk : parseKey (c :: rest) with
          | mk ok s2 =>
            cases ok with
            | none => rfl
            | some k =>
              have hs2 : s2.length < rest.length + 1 := by
                simpa using parseKey_len_some (c :: rest) k s2 hpk
              have hs3le := dropWhile_length_le (fun c2 => ws3 c2 || c2 == ':') s2
              have hsm1 : s.length - 1 + 1 = s.length := by omega
              have hsucc := fuelA_succ (s.length - 1)
              rw [hsm1] at hsucc
              have hm3 : fuelA (s2.dropWhile fun c2 => ws3 c2 || c2 == ':').length ≤
                  fuelA (s.length - 1) :=
                fuelA_mono (by omega)
              have hbv : fuelA (s2.dropWhile fun c2 => ws3 c2 || c2 == ':').length ≤ f := by
                omega
              have hv := ihv (s2.dropWhile fun c2 => ws3 c2 || c2 == ':') hbv
              dsimp only
              rw [← hv]
              have hpvlen := (parse_len f).1 (s2.dropWhile fun c2 => ws3 c2 || c2 == ':')
              cases hv1 : (parseValue f (s2.dropWhile fun c2 => ws3 c2 || c2 == ':')).1 with
              | some v =>
                simp only [hv1]
                have hd2 := dropWhile_length_le (fun c2 => ws3 c2 || c2 == ',')
                  (parseValue f (s2.dropWhile fun c2 => ws3 c2 || c2 == ':')).2
                have hm5 : fuelA ((parseValue f
                      (s2.dropWhile fun c2 => ws3 c2 || c2 == ':')).2.dropWhile
                        fun c2 => ws3 c2 || c2 == ',').length ≤ fuelA (s.length - 1) :=
                  fuelA_mono (by omega)
                exact ihc _ (insertKV k v acc) (by omega)
              | none =>
                simp only [hv1]
                have hd2 := dropWhile_length_le (fun c2 => ws3 c2 || c2 == ',')
                  ((s2.dropWhile fun c2 => ws3 c2 || c2 == ':').drop 1)
                have hdrop1 : ((s2.dropWhile fun c2 => ws3 c2 || c2 == ':').drop 1).length ≤
                    s.length - 1 := by
                  simp only [List.length_drop]
                  omega
                have hm5 : fuelA (((s2.dropWhile fun c2 => ws3 c2 || c2 == ':').drop
                      1).dropWhile fun c2 => ws3 c2 || c2 == ',').length ≤
                    fuelA (s.length - 1) :=
                  fuelA_mono (by omega)
                exact ihc _ acc (by omega)
    · -- parseArrayBody
      simp only [parseArrayBody]
      cases s with
      | nil => rfl
      | cons c rest =>
        simp only [List.length_cons] at hb hsit
        have hrit : rest.length ≤ it.length := by omega
        have hb' : fuelA it.length + rest.length + 1 ≤ f := by omega
        have hbv : fuelA it.length ≤ f := by omega
        have hsuccr : fuelA rest.length ≤ fuelA it.length := fuelA_mono hrit
        have hv := ihv it hbv
        by_cases h1 : (c = '"' ∨ c = '\'') ∧ prev ≠ '\\'
        · simp only [if_pos h1]
          by_cases h2 : inQ = true
          · subst h2
            simp only [if_neg (show ¬¬(true = true) by decide)]
            by_cases h3 : c = qc
            · simp only [if_pos h3]
              exact iha c false qc bD kD it (n + 1) acc rest hrit (by omega)
            · simp only [if_neg h3]
              exact iha c true qc bD kD it (n + 1) acc rest hrit (by omega)
          · have h2f : inQ = false := by
              cases inQ
              · rfl
              · exact absurd rfl h2
            subst h2f
            simp only [if_pos (show ¬(false = true) by decide)]
            exact iha c true c bD kD it (n + 1) acc rest hrit (by omega)
        · simp only [if_neg h1]
          by_cases h2 : inQ = true
          · subst h2
            simp only [if_neg (show ¬¬(true = true) by decide)]
            exact iha c true qc bD kD it (n + 1) acc rest hrit (by omega)
          · have h2f : inQ = false := by
              cases inQ
              · rfl
              · exact absurd rfl h2
            subst h2f
            simp only [if_pos (show ¬(false = true) by decide)]
            by_cases h3 : c = '\x7b'
            · simp only [if_pos h3]
              exact iha c false qc (bD + 1) kD it (n + 1) acc rest hrit (by omega)
            · simp only [if_neg h3]
              by_cases h4 : c = '\x7d'
              · simp only [if_pos h4]
                exact iha c false qc (bD - 1) kD it (n + 1) acc rest hrit (by omega)
              · simp only [if_neg h4]
                by_cases h5 : c = '['
                · simp only [if_pos h5]
                  exact iha c false qc bD (kD + 1) it (n + 1) acc rest hrit (by omega)
                · simp only [if_neg h5]
                  by_cases h6 : c = ']'
                  · simp only [if_pos h6]
                    by_cases h7 : kD - 1 = 0
                    · simp only [if_pos h7]
                      rw [hv]
                    · simp only [if_neg h7]
                      exact iha c false qc bD (kD - 1) it (n + 1) acc rest hrit (by omega)
                  · simp only [if_neg h6]
                    by_cases h8 : c = ',' ∧ bD = 0 ∧ kD = 1
                    · simp only [if_pos h8]
                      rw [hv]
                      have hb2 : fuelA rest.length + rest.length + 1 ≤ f := by omega
                      exact iha c false qc bD kD rest 0 _ rest (Nat.le_refl _) hb2
                    · simp only [if_neg h8]
                      exact iha c false qc bD kD it (n + 1) acc rest hrit (by omega)

theorem stable_chain {α : Type} (g : Nat → α) (bound : Nat)
    (hstep : ∀ f, bound ≤ f → g f = g (f + 1)) :
    ∀ f, bound ≤ f → g f = g bound := by
  intro f
  induction f with
  | zero =>
    intro hf
    have h0 : bound = 0 := Nat.le_zero.1 hf
    rw [h0]
  | succ n ih =>
    intro hf
    rcases Nat.lt_or_ge n bound with h | h
    · have hbn : bound = n + 1 := by omega
      rw [hbn]
    · rw [← hstep n h]
      exact ih h

theorem parseValue_stable (s : Str) (f : Nat) (h : fuelA s.length ≤ f) :
    parseValue f s = parseValue (fuelA s.length) s :=
  stable_chain (fun f2 => parseValue f2 s) (fuelA s.length)
    (fun f2 hf2 => (parse_step f2).1 s hf2) f h

theorem parseCompoundBody_stable (s : Str) (acc : List (Str × NBT)) (f : Nat)
    (h : fuelA s.length + 1 ≤ f) :
    parseCompoundBody f s acc = parseCompoundBody (fuelA s.length + 1) s acc :=
  stable_chain (fun f2 => parseCompoundBody f2 s acc) (fuelA s.length + 1)
    (fun f2 hf2 => (parse_step f2).2.1 s acc hf2) f h

theorem parseArrayBody_stable (rest : Str) (f : Nat)
    (h : fuelA rest.length + rest.length + 1 ≤ f) :
    parseArrayBody f '[' false '"' 0 1 rest 0 [] rest =
      parseArrayBody (fuelA rest.length + rest.length + 1) '[' false '"' 0 1 rest 0 [] rest :=
  stable_chain (fun f2 => parseArrayBody f2 '[' false '"' 0 1 rest 0 [] rest)
    (fuelA rest.length + rest.length + 1)
    (fun f2 hf2 => (parse_step f2).2.2 '[' false '"' 0 1 rest 0 [] rest (Nat.le_refl _) hf2)
    f h

theorem parse_snbtFuel_stable (s : Str) (fuel : Nat)
    (h : fuelFor (pyStrip s).length ≤ fuel) :
    parse_snbtFuel fuel s = parse_snbt s := by
  unfold parse_snbt parse_snbtFuel
  rcases ht : pyStrip s with _ | ⟨c, rest⟩
  · rfl
  · rw [ht] at h
    have hmul : (rest.length + 1) * (rest.length + 2) ≤
        (rest.length + 3) * (rest.length + 3) :=
      Nat.mul_le_mul (by omega) (by omega)
    have hmul2 : (rest.length + 2) * (rest.length + 3) ≤
        (rest.length + 3) * (rest.length + 3) :=
      Nat.mul_le_mul (by omega) (by omega)
    have hff : fuelFor (rest.length + 1) = (rest.length + 3) * (rest.length + 3) + 2 := by
      simp only [fuelFor]
    have hexp : (rest.length + 2) * (rest.length + 3) =
        (rest.length + 1) * (rest.length + 2) + 2 * rest.length + 4 := by
      ring
    have hcb : fuelA rest.length + 1 ≤ fuelFor (c :: rest).length := by
      simp only [List.length_cons, hff, fuelA]
      omega
    have harr : fuelA rest.length + rest.length + 1 ≤ fuelFor (c :: rest).length := by
      simp only [List.length_cons, hff, fuelA]
      omega
    have hval : fuelA (c :: rest).length ≤ fuelFor (c :: rest).length := by
      simp only [List.length_cons, hff, fuelA]
      have : (rest.length + 1 + 1) * (rest.length + 1 + 2) =
          (rest.length + 2) * (rest.length + 3) := by ring
      omega
    simp only [List.length_cons] at h hcb harr hval ⊢
    by_cases h1 : c = '\x7b'
    · simp only [if_pos h1]
      rw [parseCompoundBody_stable rest [] fuel (by omega),
        parseCompoundBody_stable rest [] (fuelFor (rest.length + 1)) (by omega)]
    · by_cases h2 : c = '['
      · simp only [if_neg h1, if_pos h2]
        rw [parseArrayBody_stable rest fuel (by omega),
          parseArrayBody_stable rest (fuelFor (rest.length + 1)) (by omega)]
      · simp only [if_neg h1, if_neg h2]
        rw [parseValue_stable (c :: rest) fuel (by simp only [List.length_cons]; omega),
          parseValue_stable (c :: rest) (fuelFor (rest.length + 1))
            (by simp only [List.length_cons]; omega)]

/-- C7: `NBTParser.parse_snbt` is total.  The fueled embedding of the
parser's mutual recursion (re-parsing array items from their start
positions) yields the same `DataNode` for every fuel at or above the
quadratic bound `fuelFor`, for every input string including structurally
malformed ones: the source recursion always terminates with a definite
best-effort node and never raises. -/
theorem parse_snbt_total_fuel_independent (s : Str) (fuel : Nat)
    (h : fuelFor (pyStrip s).length ≤ fuel) :
    parse_snbtFuel fuel s = parse_snbt s :=
  parse_snbtFuel_stable s fuel h

/-- Witness for C7 at the malformed input `\x7ba:[1,` (unbalanced brace and
bracket, trailing comma). -/
theorem parse_snbt_total_fuel_independent_witness :
    parse_snbtFuel 100 "\x7ba:[1,".toList = parse_snbt "\x7ba:[1,".toList :=
  parse_snbt_total_fuel_independent "\x7ba:[1,".toList 100 (by decide)


/-!
## Round-trip support: decimal digits
-/

theorem parseDigits_cons (c : Char) (t : Str) :
    parseDigits (c :: t) = List.foldl (fun a d => a * 10 + (d.toNat - 48)) (c.toNat - 48) t := by
  simp [parseDigits]

theorem parseDigits_shift (t : Str) : ∀ a : Nat,
    List.foldl (fun a d => a * 10 + (d.toNat - 48)) a t =
      a * 10 ^ t.length + parseDigits t := by
  induction t with
  | nil => intro a; simp [parseDigits]
  | cons c r ih =>
    intro a
    rw [List.foldl_cons, ih, parseDigits_cons, ih (c.toNat - 48)]
    simp [pow_succ]
    ring

theorem parseDigits_append (a b : Str) :
    parseDigits (a ++ b) = parseDigits a * 10 ^ b.length + parseDigits b := by
  unfold parseDigits
  rw [List.foldl_append]
  exact parseDigits_shift b _

theorem parseDigits_zeros (j : Nat) (b : Str) :
    parseDigits (List.replicate j '0' ++ b) = parseDigits b := by
  induction j with
  | zero => simp
  | succ n ih =>
    rw [List.replicate_succ, List.cons_append]
    show parseDigits ('0' :: (List.replicate n '0' ++ b)) = parseDigits b
    rw [parseDigits_cons]
    have : ('0' : Char).toNat - 48 = 0 := by decide
    rw [this]
    have h2 := parseDigits_shift (List.replicate n '0' ++ b) 0
    rw [h2]
    simpa using ih

theorem natDigitsGo_spec : ∀ (f n : Nat), 1 ≤ n → n ≤ f →
    natDigitsGo f n ≠ [] ∧ (natDigitsGo f n).all Char.isDigit = true ∧
      parseDigits (natDigitsGo f n).reverse = n := by
  intro f
  induction f with
  | zero => intro n h1 h2; omega
  | succ f ih =>
    intro n h1 h2
    obtain ⟨m, rfl⟩ : ∃ m, n = m + 1 := ⟨n - 1, by omega⟩
    have hmod : (m + 1) % 10 < 10 := Nat.mod_lt _ (by omega)
    have hdig : (Char.ofNat (48 + (m + 1) % 10)).isDigit = true ∧
        (Char.ofNat (48 + (m + 1) % 10)).toNat - 48 = (m + 1) % 10 := by
      have h10 : (m + 1) % 10 < 10 := hmod
      interval_cases h : (m + 1) % 10 <;> exact ⟨by decide, by decide⟩
    have hunf : natDigitsGo (f + 1) (m + 1) =
        Char.ofNat (48 + (m + 1) % 10) :: natDigitsGo f ((m + 1) / 10) := rfl
    rw [hunf]
    by_cases hq : (m + 1) / 10 = 0
    · have hng : natDigitsGo f ((m + 1) / 10) = [] := by
        rw [hq]
        cases f <;> rfl
      refine ⟨by simp, ?_, ?_⟩
      · rw [hng]
        simp [hdig.1]
      · rw [hng]
        simp only [List.reverse_cons, List.reverse_nil, List.nil_append]
        rw [parseDigits_cons]
        simp [parseDigits, hdig.2]
        omega
    · have hle : (m + 1) / 10 ≤ f := by
        have := Nat.div_lt_self (show 0 < m + 1 by omega) (show 1 < 10 by omega)
        omega
      obtain ⟨hne, hall, hval⟩ := ih ((m + 1) / 10) (by omega) hle
      refine ⟨by simp, ?_, ?_⟩
      · simp only [List.all_cons, Bool.and_eq_true, hdig.1, true_and]
        exact hall
      · simp only [List.reverse_cons]
        rw [parseDigits_append, hval]
        simp only [List.length_singleton, pow_one, parseDigits_cons]
        simp [parseDigits, hdig.2]
        omega

theorem pyNatStr_spec (n : Nat) :
    pyNatStr n ≠ [] ∧ (pyNatStr n).all Char.isDigit = true ∧
      parseDigits (pyNatStr n) = n := by
  unfold pyNatStr
  by_cases h : n = 0
  · subst h
    refine ⟨by simp, by decide, by decide⟩
  · simp only [if_neg h]
    obtain ⟨hne, hall, hval⟩ := natDigitsGo_spec n n (by omega) (Nat.le_refl _)
    refine ⟨by simpa using hne, by simpa using hall, hval⟩


/-!
## Round-trip support: the number scan and primitive parsing
-/

theorem numScan_digits (ds : Str) (hds : ds.all Char.isDigit = true) :
    ∀ (tail : Str) (hd : Bool),
      numScan (ds ++ tail) hd =
        (ds ++ (numScan tail hd).1, (numScan tail hd).2.1, (numScan tail hd).2.2) := by
  induction ds with
  | nil => intro tail hd; simp
  | cons c r ih =>
    intro tail hd
    simp only [List.all_cons, Bool.and_eq_true] at hds
    simp only [List.cons_append, numScan, if_pos hds.1]
    have hr : numScan (r.append tail) hd =
        (r ++ (numScan tail hd).1, (numScan tail hd).2.1, (numScan tail hd).2.2) :=
      ih hds.2 tail hd
    rw [hr]

theorem numScan_stop (c : Char) (t : Str) (hd : Bool)
    (hnd : c.isDigit = false) (hdot : c ≠ '.' ∨ hd = true) :
    numScan (c :: t) hd = ([], c :: t, hd) := by
  simp only [numScan, hnd, Bool.false_eq_true, if_false]
  rcases hdot with h | h
  · have hcond : ¬(c = '.' ∧ ¬hd = true) := fun hh => h hh.1
    rw [if_neg hcond]
  · subst h
    have hcond : ¬(c = '.' ∧ ¬(true = true)) := fun hh => hh.2 rfl
    rw [if_neg hcond]

theorem numScan_dot (t : Str) :
    numScan ('.' :: t) false =
      ('.' :: (numScan t true).1, (numScan t true).2.1, (numScan t true).2.2) := by
  simp only [numScan]
  rw [if_neg (by decide), if_pos (by decide)]

theorem sepHead_not_digit {tail : Str} (h : sepHead tail = true) :
    ∀ c r, tail = c :: r → c.isDigit = false ∧ c ≠ '.' ∧ c.isAlphanum = false ∧
      c ≠ '\x7b' ∧ c ≠ '"' ∧ c ≠ '\'' ∧ c ≠ '[' := by
  intro c r he
  subst he
  simp only [sepHead, Bool.or_eq_true, decide_eq_true_eq] at h
  rcases h with (h | h) | h <;> subst h <;> exact ⟨by decide, by decide, by decide,
    by decide, by decide, by decide, by decide⟩

theorem numScan_sep (tail : Str) (hd : Bool) (hsep : sepHead tail = true) :
    numScan tail hd = ([], tail, hd) := by
  cases tail with
  | nil => rfl
  | cons c r =>
    obtain ⟨h1, h2, _⟩ := sepHead_not_digit hsep c r rfl
    exact numScan_stop c r hd h1 (Or.inl h2)

theorem take4_true_head {s : Str} (h : s.take 4 = ['t', 'r', 'u', 'e']) :
    ∃ r, s = 't' :: r := by
  cases s with
  | nil => simp at h
  | cons c r =>
    refine ⟨r, ?_⟩
    simp only [List.take_succ_cons, List.cons.injEq] at h
    rw [h.1]

theorem take5_false_head {s : Str} (h : s.take 5 = ['f', 'a', 'l', 's', 'e']) :
    ∃ r, s = 'f' :: r := by
  cases s with
  | nil => simp at h
  | cons c r =>
    refine ⟨r, ?_⟩
    simp only [List.take_succ_cons, List.cons.injEq] at h
    rw [h.1]

/-- Parsing back a serialized non-negative integer. -/
theorem parsePrimitive_int (n : Nat) (tail : Str) (hsep : sepHead tail = true) :
    parsePrimitiveGo (pyNatStr n ++ tail) = (some (NBT.int (n : Int)), tail) := by
  obtain ⟨hne, hall, hval⟩ := pyNatStr_spec n
  obtain ⟨d, ds, hds⟩ : ∃ d ds, pyNatStr n = d :: ds := by
    cases hpn : pyNatStr n with
    | nil => exact absurd hpn hne
    | cons d ds => exact ⟨d, ds, rfl⟩
  have hddig : d.isDigit = true := by
    rw [hds] at hall
    simp only [List.all_cons, Bool.and_eq_true] at hall
    exact hall.1
  rw [hds]
  simp only [List.cons_append, parsePrimitiveGo]
  rw [if_neg ?hnt, if_neg ?hnf]
  case hnt =>
    intro hh
    obtain ⟨r, hr⟩ := take4_true_head hh
    simp only [List.cons.injEq] at hr
    rw [hr.1] at hddig
    exact absurd hddig (by decide)
  case hnf =>
    intro hh
    obtain ⟨r, hr⟩ := take5_false_head hh
    simp only [List.cons.injEq] at hr
    rw [hr.1] at hddig
    exact absurd hddig (by decide)
  have hsgn : ¬(d = '+' ∨ d = '-') := by
    intro hh
    rcases hh with hh | hh <;> (rw [hh] at hddig; exact absurd hddig (by decide))
  simp only [if_neg hsgn]
  have hns : numScan (d :: (ds ++ tail)) false = (d :: ds, tail, false) := by
    have h1 := numScan_digits (d :: ds) (by rw [hds] at hall; exact hall) tail false
    rw [numScan_sep tail false hsep] at h1
    simpa [List.cons_append] using h1
  rw [hns]
  dsimp only
  rw [if_pos ?_, if_neg (by simp)]
  · rw [← hds, hval]
  · rw [← hds]
    simp only [ne_eq]
    exact hne


theorem takeWhile_append_stop (p : Char → Bool) (a : Str) (ha : a.all p = true)
    (c : Char) (hc : p c = false) (b : Str) :
    (a ++ c :: b).takeWhile p = a := by
  induction a with
  | nil => simp [List.takeWhile_cons, hc]
  | cons x r ih =>
    simp only [List.all_cons, Bool.and_eq_true] at ha
    simp only [List.cons_append, List.takeWhile_cons, ha.1, ih ha.2, if_true]

theorem drop_append_cons (a : Str) (c : Char) (b : Str) :
    (a ++ c :: b).drop (a.length + 1) = b := by
  induction a with
  | nil => simp
  | cons x r ih => simpa using ih

theorem all_take (p : Char → Bool) (l : Str) (h : l.all p = true) (k : Nat) :
    (l.take k).all p = true := by
  rw [List.all_eq_true] at h ⊢
  exact fun x hx => h x (List.take_subset k l hx)

theorem all_drop (p : Char → Bool) (l : Str) (h : l.all p = true) (k : Nat) :
    (l.drop k).all p = true := by
  rw [List.all_eq_true] at h ⊢
  exact fun x hx => h x (List.drop_subset k l hx)

theorem parsePrimitive_floatBody (ds1 ds2 : Str)
    (h1 : ds1.all Char.isDigit = true) (h1n : ds1 ≠ [])
    (h2 : ds2.all Char.isDigit = true) (tail : Str) (hsep : sepHead tail = true) :
    parsePrimitiveGo (ds1 ++ '.' :: (ds2 ++ tail)) =
      (some (NBT.float (mkPyFloat (parseDigits (ds1 ++ ds2) : Int) ds2.length)), tail) := by
  obtain ⟨d, ds, hds⟩ : ∃ d ds, ds1 = d :: ds := by
    cases h : ds1 with
    | nil => exact absurd h h1n
    | cons d ds => exact ⟨d, ds, rfl⟩
  subst hds
  have hddig : d.isDigit = true := by
    simp only [List.all_cons, Bool.and_eq_true] at h1
    exact h1.1
  simp only [List.cons_append, parsePrimitiveGo]
  rw [if_neg ?hnt, if_neg ?hnf]
  case hnt =>
    intro hh
    obtain ⟨r, hr⟩ := take4_true_head hh
    simp only [List.cons.injEq] at hr
    rw [hr.1] at hddig
    exact absurd hddig (by decide)
  case hnf =>
    intro hh
    obtain ⟨r, hr⟩ := take5_false_head hh
    simp only [List.cons.injEq] at hr
    rw [hr.1] at hddig
    exact absurd hddig (by decide)
  have hsgn : ¬(d = '+' ∨ d = '-') := by
    intro hh
    rcases hh with hh | hh <;> (rw [hh] at hddig; exact absurd hddig (by decide))
  simp only [if_neg hsgn]
  have hns : numScan (d :: (ds ++ '.' :: (ds2 ++ tail))) false =
      ((d :: ds) ++ '.' :: ds2, tail, true) := by
    have ha := numScan_digits (d :: ds) h1 ('.' :: (ds2 ++ tail)) false
    rw [numScan_dot] at ha
    have hb := numScan_digits ds2 h2 tail true
    rw [numScan_sep tail true hsep] at hb
    rw [hb] at ha
    simpa [List.cons_append] using ha
  rw [hns]
  dsimp only
  rw [if_pos (by simp), if_pos rfl, if_pos ?hany]
  case hany => simp [hddig]
  have htw : List.takeWhile Char.isDigit ((d :: ds) ++ '.' :: ds2) = d :: ds :=
    takeWhile_append_stop Char.isDigit (d :: ds) h1 '.' (by decide) ds2
  rw [htw]
  have hdr : List.drop ((d :: ds).length + 1) ((d :: ds) ++ '.' :: ds2) = ds2 :=
    drop_append_cons (d :: ds) '.' ds2
  rw [hdr]
  simp only [List.cons_append]

theorem normGo_e_le : ∀ (e : Nat) (m : Int), (normGo m e).e ≤ e := by
  intro e
  induction e with
  | zero => intro m; simp [normGo]
  | succ n ih =>
    intro m
    simp only [normGo]
    split
    · exact Nat.le_succ_of_le (ih (m / 10))
    · exact Nat.le_refl _

theorem parsePrimitive_float (q : PyFloat) (hm : 0 ≤ q.m) (hcan : normGo q.m q.e = q)
    (tail : Str) (hsep : sepHead tail = true) :
    parsePrimitiveGo (pyFloatStr q ++ tail) = (some (NBT.float q), tail) := by
  obtain ⟨m, e⟩ := q
  simp only at hm hcan
  have hnat : ∃ nn : Nat, m = (nn : Int) := ⟨m.toNat, (Int.toNat_of_nonneg hm).symm⟩
  obtain ⟨nn, rfl⟩ := hnat
  have hstr : pyFloatStr ⟨(nn : Int), e⟩ =
      (if e = 0 then pyNatStr nn ++ ['.', '0']
       else
        let ds := pyNatStr nn
        let pad := List.replicate (e + 1 - ds.length) '0' ++ ds
        pad.take (pad.length - e) ++ '.' :: pad.drop (pad.length - e)) := by
    unfold pyFloatStr
    rw [hcan]
    dsimp only
    rw [if_neg (by omega), Int.natAbs_ofNat]
  obtain ⟨hpne, hpall, hpval⟩ := pyNatStr_spec nn
  by_cases he : e = 0
  · subst he
    rw [hstr]
    rw [if_pos rfl]
    have hshape : (pyNatStr nn ++ ['.', '0']) ++ tail = pyNatStr nn ++ '.' :: (['0'] ++ tail) := by
      simp
    rw [hshape, parsePrimitive_floatBody (pyNatStr nn) ['0'] hpall hpne (by decide) tail hsep]
    have hval10 : parseDigits (pyNatStr nn ++ ['0']) = nn * 10 := by
      rw [parseDigits_append, hpval]
      simp [parseDigits]
    rw [hval10]
    have hmk : mkPyFloat ((nn * 10 : Nat) : Int) 1 = normGo (nn : Int) 0 := by
      unfold mkPyFloat
      show normGo ((nn * 10 : Nat) : Int) 1 = normGo (nn : Int) 0
      have hcast : ((nn * 10 : Nat) : Int) = (nn : Int) * 10 := by push_cast; ring
      rw [hcast]
      simp only [normGo, Int.mul_emod_left, if_true]
      rw [Int.mul_ediv_cancel _ (by omega)]
    simp only [List.length_singleton]
    rw [hmk, hcan]
  · rw [hstr]
    simp only [if_neg he]
    have hpadall : (List.replicate (e + 1 - (pyNatStr nn).length) '0' ++
        pyNatStr nn).all Char.isDigit = true := by
      rw [List.all_append]
      simp only [Bool.and_eq_true]
      refine ⟨?_, hpall⟩
      rw [List.all_eq_true]
      intro x hx
      rw [List.eq_of_mem_replicate hx]
      decide
    have hLlen : (List.replicate (e + 1 - (pyNatStr nn).length) '0' ++
        pyNatStr nn).length = (e + 1 - (pyNatStr nn).length) + (pyNatStr nn).length := by
      simp
    have hLge : e + 1 ≤ (List.replicate (e + 1 - (pyNatStr nn).length) '0' ++
        pyNatStr nn).length := by
      rw [hLlen]
      have : 1 ≤ (pyNatStr nn).length := by
        cases hq : pyNatStr nn with
        | nil => exact absurd hq hpne
        | cons a b => simp
      omega
    have htk1 : 1 ≤ (List.replicate (e + 1 - (pyNatStr nn).length) '0' ++
        pyNatStr nn).length - e := by omega
    have hds1ne : (List.replicate (e + 1 - (pyNatStr nn).length) '0' ++
        pyNatStr nn).take ((List.replicate (e + 1 - (pyNatStr nn).length) '0' ++
          pyNatStr nn).length - e) ≠ [] := by
      intro hnil
      have := congrArg List.length hnil
      rw [List.length_take] at this
      simp only [List.length_nil] at this
      omega
    have hshape2 : (List.take ((List.replicate (e + 1 - (pyNatStr nn).length) '0' ++
          pyNatStr nn).length - e) (List.replicate (e + 1 - (pyNatStr nn).length) '0' ++
          pyNatStr nn) ++ '.' :: List.drop ((List.replicate (e + 1 -
          (pyNatStr nn).length) '0' ++ pyNatStr nn).length - e)
          (List.replicate (e + 1 - (pyNatStr nn).length) '0' ++ pyNatStr nn)) ++ tail =
        List.take ((List.replicate (e + 1 - (pyNatStr nn).length) '0' ++
          pyNatStr nn).length - e) (List.replicate (e + 1 - (pyNatStr nn).length) '0' ++
          pyNatStr nn) ++ '.' :: (List.drop ((List.replicate (e + 1 -
          (pyNatStr nn).length) '0' ++ pyNatStr nn).length - e)
          (List.replicate (e + 1 - (pyNatStr nn).length) '0' ++ pyNatStr nn) ++ tail) := by
      simp
    rw [hshape2, parsePrimitive_floatBody _ _
      (all_take Char.isDigit _ hpadall _) hds1ne (all_drop Char.isDigit _ hpadall _) tail hsep]
    rw [List.take_append_drop]
    have hpd : parseDigits (List.replicate (e + 1 - (pyNatStr nn).length) '0' ++
        pyNatStr nn) = nn := by
      rw [parseDigits_zeros, hpval]
    rw [hpd]
    have hdl : (List.drop ((List.replicate (e + 1 - (pyNatStr nn).length) '0' ++
        pyNatStr nn).length - e) (List.replicate (e + 1 - (pyNatStr nn).length) '0' ++
        pyNatStr nn)).length = e := by
      rw [List.length_drop]
      omega
    rw [hdl]
    show (some (NBT.float (mkPyFloat (nn : Int) e)), tail) = (some (NBT.float ⟨(nn : Int), e⟩), tail)
    rw [show mkPyFloat (nn : Int) e = normGo (nn : Int) e from rfl, hcan]


theorem ws3_false_of_pyWs {c : Char} (h : pyWsChar c = false) : ws3 c = false := by
  simp only [pyWsChar, Bool.or_eq_false_iff] at h
  simp only [ws3, Bool.or_eq_false_iff]
  exact ⟨⟨h.1.1.1.1.1, h.1.1.1.2⟩, h.1.1.1.1.2⟩

theorem parsePrimitive_true (tail : Str) :
    parsePrimitiveGo ('t' :: 'r' :: 'u' :: 'e' :: tail) = (some (NBT.bool true), tail) := by
  simp [parsePrimitiveGo]

theorem parsePrimitive_false (tail : Str) :
    parsePrimitiveGo ('f' :: 'a' :: 'l' :: 's' :: 'e' :: tail) =
      (some (NBT.bool false), tail) := by
  simp [parsePrimitiveGo]

theorem escapeStr_cons (c : Char) (r : Str) :
    escapeStr (c :: r) = escapeChar c ++ escapeStr r := rfl

theorem parseStringGo_escape (s : Str) (tail : Str) :
    parseStringGo '"' (escapeStr s ++ '"' :: tail) = (s, tail) := by
  induction s with
  | nil =>
    show parseStringGo '"' ('"' :: tail) = ([], tail)
    rw [parseStringGo_eq_other '"' '"' tail (by decide), if_pos rfl]
  | cons c r ih =>
    rw [escapeStr_cons]
    unfold escapeChar
    by_cases hc : c = '\\' ∨ c = '"'
    · rw [if_pos hc]
      have hsh : (['\\', c] ++ escapeStr r) ++ '"' :: tail =
          '\\' :: c :: (escapeStr r ++ '"' :: tail) := by simp
      rw [hsh, parseStringGo_eq_bs, if_pos hc, ih]
    · rw [if_neg hc]
      push_neg at hc
      have hsh : ([c] ++ escapeStr r) ++ '"' :: tail =
          c :: (escapeStr r ++ '"' :: tail) := by simp
      rw [hsh, parseStringGo_eq_other '"' c _ hc.1, if_neg hc.2, ih]

theorem parseKey_alnum (k : Str) (hk : k.all Char.isAlphanum = true) (hne : k ≠ [])
    (c2 : Char) (hc2 : keyChar c2 = false) (r : Str) :
    parseKey (k ++ c2 :: r) = (some k, c2 :: r) := by
  obtain ⟨d, ds, rfl⟩ : ∃ d ds, k = d :: ds := by
    cases h : k with
    | nil => exact absurd h hne
    | cons d ds => exact ⟨d, ds, rfl⟩
  simp only [List.all_cons, Bool.and_eq_true] at hk
  have hdws : pyWsChar d = false := (alnum_not_special hk.1).1
  simp only [List.cons_append]
  unfold parseKey
  have hdw : List.dropWhile pyWsChar (d :: (ds ++ c2 :: r)) = d :: (ds ++ c2 :: r) := by
    rw [List.dropWhile_cons, if_neg (by simp [hdws])]
  rw [hdw]
  dsimp only
  rw [if_neg ?hq]
  case hq =>
    intro hh
    rcases hh with hh | hh <;>
      (rw [hh] at hk; exact absurd hk.1 (by decide))
  have htk : List.takeWhile keyChar (d :: (ds ++ c2 :: r)) = d :: ds := by
    have hall : (d :: ds).all keyChar = true := by
      simp only [List.all_cons, Bool.and_eq_true]
      constructor
      · simp [keyChar, hk.1]
      · rw [List.all_eq_true]
        intro x hx
        have := List.all_eq_true.1 hk.2 x hx
        simp [keyChar, this]
    have h2 := takeWhile_append_stop keyChar (d :: ds) hall c2 hc2 r
    simpa [List.cons_append] using h2
  rw [htk]
  rw [if_pos (by simp)]
  have hdrop : List.drop (d :: ds).length (d :: (ds ++ c2 :: r)) = c2 :: r := by
    have h3 := List.drop_left (d :: ds) (c2 :: r)
    simpa [List.cons_append] using h3
  simp only [List.length_cons] at hdrop ⊢
  rw [hdrop]


/-!
## Round-trip support: plainness consequences and serialized shapes
-/

theorem digits_head {T : Str} (hall : T.all Char.isDigit = true) (hne : T ≠ []) :
    ∃ c r, T = c :: r ∧ c.isDigit = true := by
  cases T with
  | nil => exact absurd rfl hne
  | cons c r =>
    simp only [List.all_cons, Bool.and_eq_true] at hall
    exact ⟨c, r, rfl, hall.1⟩

theorem keyBoolTrigger_ok {key? : Option Str} (h : okOpt key? = true) :
    keyBoolTrigger key? = false := by
  cases key? with
  | none => rfl
  | some k =>
    simp only [okOpt, plainKey, Bool.and_eq_true] at h
    simp only [keyBoolTrigger, Bool.and_eq_false_iff]
    right
    simpa using h.1.2

theorem plainKey_ne_dc {k : Str} (h : plainKey k = true) : k ≠ dcKey := by
  intro he
  rw [he] at h
  exact absurd h (by decide)

theorem okOpt_ne_dc {key? : Option Str} (h : okOpt key? = true) : key? ≠ some dcKey := by
  cases key? with
  | none => simp
  | some k =>
    simp only [okOpt] at h
    simpa using plainKey_ne_dc h

theorem componentsTrigger_ok {pk : Option Str} (h : okOpt pk = true) :
    componentsTrigger pk = false := by
  cases pk with
  | none => rfl
  | some k =>
    simp only [okOpt, plainKey, Bool.and_eq_true] at h
    have hcs : containsSub "components".toList k = false := by
      have := h.2
      simpa using this
    simp only [componentsTrigger, Bool.or_eq_false_iff]
    constructor
    · simp only [decide_eq_false_iff_not]
      intro he
      rw [he] at hcs
      exact absurd hcs (by decide)
    · rw [hcs]
      simp

theorem orKey_ok {key? pk : Option Str} (hk : okOpt key? = true) (hp : okOpt pk = true) :
    okOpt (orKey key? pk) = true := by
  cases key? with
  | none => simpa [orKey] using hp
  | some k =>
    simp only [okOpt] at hk
    have hne : k ≠ [] := by
      simp only [plainKey, Bool.and_eq_true] at hk
      simpa using hk.1.1.1.1
    simp only [orKey, if_neg hne]
    simpa [okOpt] using hk

theorem insertKV_fresh (k : Str) (v : NBT) (acc : List (Str × NBT)) :
    hasKeyKV k acc = false → insertKV k v acc = acc ++ [(k, v)] := by
  induction acc with
  | nil => intro _; rfl
  | cons p rest ih =>
    intro h
    cases p with
    | mk k0 v0 =>
      have hc : (decide (k0 = k) || hasKeyKV k rest) = false := h
      obtain ⟨h1, h2⟩ := Bool.or_eq_false_iff.mp hc
      simp only [insertKV]
      rw [if_neg (of_decide_eq_false h1)]
      rw [ih h2]
      simp

theorem normGo_m_nonneg : ∀ (m : Int) (e : Nat), 0 ≤ m → 0 ≤ (normGo m e).m := by
  intro m e
  induction e generalizing m with
  | zero => intro h; simpa [normGo] using h
  | succ n ih =>
    intro h
    simp only [normGo]
    split
    · exact ih (m / 10) (Int.ediv_nonneg h (by omega))
    · simpa using h

theorem pyFloatStr_shape (q : PyFloat) (hm : 0 ≤ q.m) :
    ∃ c r, pyFloatStr q = c :: r ∧ c.isDigit = true := by
  obtain ⟨m, e⟩ := q
  simp only at hm
  obtain ⟨nn, rfl⟩ : ∃ nn : Nat, m = (nn : Int) := ⟨m.toNat, (Int.toNat_of_nonneg hm).symm⟩
  obtain ⟨hpne, hpall, _⟩ := pyNatStr_spec nn
  unfold pyFloatStr
  dsimp only
  rw [if_neg (by
    have := normGo_m_nonneg (nn : Int) e (by omega)
    omega)]
  by_cases he : (normGo (↑nn) e).e = 0
  · rw [if_pos he]
    obtain ⟨c, r, heq, hc⟩ := digits_head (pyNatStr_spec (normGo (↑nn) e).m.natAbs).2.1
      (pyNatStr_spec (normGo (↑nn) e).m.natAbs).1
    exact ⟨c, r ++ ['.', '0'], by rw [heq]; simp only [List.cons_append], hc⟩
  · rw [if_neg he]
    have hpall2 := (pyNatStr_spec (normGo (↑nn) e).m.natAbs).2.1
    have hpne2 := (pyNatStr_spec (normGo (↑nn) e).m.natAbs).1
    have hplen : 1 ≤ (pyNatStr (normGo (↑nn) e).m.natAbs).length := by
      cases hq : pyNatStr (normGo (↑nn) e).m.natAbs with
      | nil => exact absurd hq hpne2
      | cons a b => simp
    have hpadall : (List.replicate ((normGo (↑nn) e).e + 1 -
        (pyNatStr (normGo (↑nn) e).m.natAbs).length) '0' ++
        pyNatStr (normGo (↑nn) e).m.natAbs).all Char.isDigit = true := by
      rw [List.all_append]
      simp only [Bool.and_eq_true]
      refine ⟨?_, hpall2⟩
      rw [List.all_eq_true]
      intro x hx
      rw [List.eq_of_mem_replicate hx]
      decide
    have hL : (normGo (↑nn) e).e + 1 ≤ (List.replicate ((normGo (↑nn) e).e + 1 -
        (pyNatStr (normGo (↑nn) e).m.natAbs).length) '0' ++
        pyNatStr (normGo (↑nn) e).m.natAbs).length := by
      simp only [List.length_append, List.length_replicate]
      omega
    have htne : (List.replicate ((normGo (↑nn) e).e + 1 -
        (pyNatStr (normGo (↑nn) e).m.natAbs).length) '0' ++
        pyNatStr (normGo (↑nn) e).m.natAbs).take
          ((List.replicate ((normGo (↑nn) e).e + 1 -
            (pyNatStr (normGo (↑nn) e).m.natAbs).length) '0' ++
            pyNatStr (normGo (↑nn) e).m.natAbs).length - (normGo (↑nn) e).e) ≠ [] := by
      intro hnil
      have hlen := congrArg List.length hnil
      rw [List.length_take] at hlen
      simp only [List.length_nil] at hlen
      omega
    obtain ⟨c, r, heq, hc⟩ := digits_head (all_take Char.isDigit _ hpadall _) htne
    refine ⟨c, r ++ '.' :: List.drop ((List.replicate ((normGo (↑nn) e).e + 1 -
        (pyNatStr (normGo (↑nn) e).m.natAbs).length) '0' ++
        pyNatStr (normGo (↑nn) e).m.natAbs).length - (normGo (↑nn) e).e)
        (List.replicate ((normGo (↑nn) e).e + 1 -
        (pyNatStr (normGo (↑nn) e).m.natAbs).length) '0' ++
        pyNatStr (normGo (↑nn) e).m.natAbs), ?_, hc⟩
    rw [heq]
    simp only [List.cons_append]

/-- The first character of a serialized plain value: non-whitespace and not
a structural `:`/`,`/`\x7d`. -/
theorem serHead (v : NBT) (key? pk : Option Str) (hv : plainV v = true)
    (hk : okOpt key? = true) (hp : okOpt pk = true) :
    ∃ c r, serializeValue v key? pk = c :: r ∧ pyWsChar c = false ∧ ws3 c = false ∧
      c ≠ ':' ∧ c ≠ ',' ∧ c ≠ '\x7d' := by
  cases v with
  | compound kvs =>
    simp only [serializeValue]
    split
    · exact ⟨'\x7b', ['\x7d'], rfl, by decide, by decide, by decide, by decide, by decide⟩
    · exact ⟨'\x7b', _, rfl, by decide, by decide, by decide, by decide, by decide⟩
  | list xs =>
    simp only [serializeValue]
    split
    · exact ⟨'[', [']'], rfl, by decide, by decide, by decide, by decide, by decide⟩
    · exact ⟨'[', _, rfl, by decide, by decide, by decide, by decide, by decide⟩
  | str s =>
    exact ⟨'"', _, rfl, by decide, by decide, by decide, by decide, by decide⟩
  | bool b =>
    cases b
    · exact ⟨'f', _, rfl, by decide, by decide, by decide, by decide, by decide⟩
    · exact ⟨'t', _, rfl, by decide, by decide, by decide, by decide, by decide⟩
  | int n =>
    have hn : 0 ≤ n := by simpa [plainV] using hv
    have hb := keyBoolTrigger_ok hk
    have hcond : ¬(keyBoolTrigger key? = true ∧ (n = 0 ∨ n = 1)) := fun hh => by
      rw [hb] at hh
      exact absurd hh.1 (by decide)
    simp only [serializeValue]
    rw [if_neg hcond]
    unfold pyIntStr
    rw [if_neg (by omega)]
    obtain ⟨hne, hall, _⟩ := pyNatStr_spec n.natAbs
    obtain ⟨c, r, heq, hc⟩ := digits_head hall hne
    refine ⟨c, r, heq, (alnum_not_special (digit_isAlphanum hc)).1,
      ws3_false_of_pyWs (alnum_not_special (digit_isAlphanum hc)).1, ?_, ?_, ?_⟩ <;>
      (intro he; rw [he] at hc; exact absurd hc (by decide))
  | float q =>
    have hq : 0 ≤ q.m ∧ normGo q.m q.e = q := by
      have h0 := hv
      simp only [plainV, Bool.and_eq_true, decide_eq_true_eq] at h0
      exact ⟨h0.1.1, h0.1.2⟩
    have hb := keyBoolTrigger_ok hk
    have hcond1 : ¬(keyBoolTrigger key? = true ∧ pyFloatIsZeroOne q = true) := fun hh => by
      rw [hb] at hh
      exact absurd hh.1 (by decide)
    have hcond2 : ¬(key? = some dcKey ∨ pk = some dcKey) := by
      intro hh
      rcases hh with hh | hh
      · exact okOpt_ne_dc hk hh
      · exact okOpt_ne_dc hp hh
    simp only [serializeValue]
    rw [if_neg hcond1, if_neg hcond2]
    obtain ⟨c, r, heq, hc⟩ := pyFloatStr_shape q hq.1
    refine ⟨c, r, heq, (alnum_not_special (digit_isAlphanum hc)).1,
      ws3_false_of_pyWs (alnum_not_special (digit_isAlphanum hc)).1, ?_, ?_, ?_⟩ <;>
      (intro he; rw [he] at hc; exact absurd hc (by decide))


/-!
## Round-trip support: the array scanner
-/

theorem getLastD_cons (c : Char) (t : Str) (p : Char) :
    ((c :: t).getLast?).getD p = (t.getLast?).getD c := by
  cases t with
  | nil => rfl
  | cons a b =>
    rw [List.getLast?_cons_cons]
    cases hx : (a :: b).getLast? with
    | none => simp at hx
    | some x => rfl

theorem stepSkip (fuel : Nat) (prev : Char) (inQ : Bool) (qc c : Char) (bD kD : Int)
    (it : Str) (n : Nat) (acc : List NBT) (r : Str)
    (hnq : c ≠ '"' ∧ c ≠ '\'' ∧ c ≠ '\x7b' ∧ c ≠ '\x7d' ∧ c ≠ '[' ∧ c ≠ ']' ∧ c ≠ ',') :
    parseArrayBody (fuel + 1) prev inQ qc bD kD it n acc (c :: r) =
      parseArrayBody fuel c inQ qc bD kD it (n + 1) acc r := by
  obtain ⟨h1, h2, h3, h4, h5, h6, h7⟩ := hnq
  simp only [parseArrayBody]
  rw [if_neg (by intro hh; rcases hh.1 with hh1 | hh1; exacts [h1 hh1, h2 hh1])]
  by_cases hq : inQ = true
  · subst hq
    rw [if_neg (by decide)]
  · have hf : inQ = false := by
      cases inQ
      · rfl
      · exact absurd rfl hq
    subst hf
    rw [if_pos (by decide), if_neg h3, if_neg h4, if_neg h5, if_neg h6,
      if_neg (by intro hh; exact h7 hh.1)]

theorem stepComma (fuel : Nat) (prev : Char) (qc : Char) (bD kD : Int)
    (it : Str) (n : Nat) (acc : List NBT) (r : Str)
    (hnt : ¬(bD = 0 ∧ kD = 1)) :
    parseArrayBody (fuel + 1) prev false qc bD kD it n acc (',' :: r) =
      parseArrayBody fuel ',' false qc bD kD it (n + 1) acc r := by
  simp only [parseArrayBody]
  rw [if_neg (by intro hh; rcases hh.1 with hh1 | hh1 <;> simp at hh1)]
  rw [if_pos (by decide), if_neg (by decide), if_neg (by decide), if_neg (by decide),
    if_neg (by decide), if_neg (by intro hh; exact hnt ⟨hh.2.1, hh.2.2⟩)]

theorem stepOpenBrace (fuel : Nat) (prev : Char) (qc : Char) (bD kD : Int)
    (it : Str) (n : Nat) (acc : List NBT) (r : Str) :
    parseArrayBody (fuel + 1) prev false qc bD kD it n acc ('\x7b' :: r) =
      parseArrayBody fuel '\x7b' false qc (bD + 1) kD it (n + 1) acc r := by
  simp only [parseArrayBody]
  rw [if_neg (by intro hh; rcases hh.1 with hh1 | hh1 <;> simp at hh1)]
  rw [if_pos (by decide), if_pos (by trivial)]

theorem stepCloseBrace (fuel : Nat) (prev : Char) (qc : Char) (bD kD : Int)
    (it : Str) (n : Nat) (acc : List NBT) (r : Str) :
    parseArrayBody (fuel + 1) prev false qc bD kD it n acc ('\x7d' :: r) =
      parseArrayBody fuel '\x7d' false qc (bD - 1) kD it (n + 1) acc r := by
  simp only [parseArrayBody]
  rw [if_neg (by intro hh; rcases hh.1 with hh1 | hh1 <;> simp at hh1)]
  rw [if_pos (by decide), if_neg (by decide), if_pos (by trivial)]

theorem stepOpenBracket (fuel : Nat) (prev : Char) (qc : Char) (bD kD : Int)
    (it : Str) (n : Nat) (acc : List NBT) (r : Str) :
    parseArrayBody (fuel + 1) prev false qc bD kD it n acc ('[' :: r) =
      parseArrayBody fuel '[' false qc bD (kD + 1) it (n + 1) acc r := by
  simp only [parseArrayBody]
  rw [if_neg (by intro hh; rcases hh.1 with hh1 | hh1 <;> simp at hh1)]
  rw [if_pos (by decide), if_neg (by decide), if_neg (by decide), if_pos (by trivial)]

theorem stepCloseBracket (fuel : Nat) (prev : Char) (qc : Char) (bD kD : Int)
    (it : Str) (n : Nat) (acc : List NBT) (r : Str) (hkd : ¬(kD - 1 = 0)) :
    parseArrayBody (fuel + 1) prev false qc bD kD it n acc (']' :: r) =
      parseArrayBody fuel ']' false qc bD (kD - 1) it (n + 1) acc r := by
  simp only [parseArrayBody]
  rw [if_neg (by intro hh; rcases hh.1 with hh1 | hh1 <;> simp at hh1)]
  rw [if_pos (by decide), if_neg (by decide), if_neg (by decide), if_neg (by decide),
    if_pos (by trivial), if_neg hkd]

theorem stepQuoteOpen (fuel : Nat) (prev : Char) (qc : Char) (bD kD : Int)
    (it : Str) (n : Nat) (acc : List NBT) (r : Str) (hprev : prev ≠ '\\') :
    parseArrayBody (fuel + 1) prev false qc bD kD it n acc ('"' :: r) =
      parseArrayBody fuel '"' true '"' bD kD it (n + 1) acc r := by
  simp only [parseArrayBody]
  rw [if_pos (show _ ∧ _ from ⟨Or.inl (by trivial), hprev⟩), if_pos (by decide)]

theorem stepQuoteClose (fuel : Nat) (prev : Char) (bD kD : Int)
    (it : Str) (n : Nat) (acc : List NBT) (r : Str) (hprev : prev ≠ '\\') :
    parseArrayBody (fuel + 1) prev true '"' bD kD it n acc ('"' :: r) =
      parseArrayBody fuel '"' false '"' bD kD it (n + 1) acc r := by
  simp only [parseArrayBody]
  rw [if_pos (show _ ∧ _ from ⟨Or.inl (by trivial), hprev⟩), if_neg (by decide), if_pos (by trivial)]

theorem scanInQ : ∀ (s : Str) (p : Char) (fuel : Nat) (bD kD : Int)
    (it : Str) (n : Nat) (acc : List NBT) (r : Str),
    parseArrayBody (fuel + (escapeStr s).length) p true '"' bD kD it n acc
        (escapeStr s ++ r) =
      parseArrayBody fuel ((s.getLast?).getD p) true '"' bD kD it
        (n + (escapeStr s).length) acc r := by
  intro s
  induction s with
  | nil => intro p fuel bD kD it n acc r; rfl
  | cons c t ih =>
    intro p fuel bD kD it n acc r
    rw [escapeStr_cons]
    unfold escapeChar
    rw [getLastD_cons]
    by_cases hc : c = '\\' ∨ c = '"'
    · rw [if_pos hc]
      have hlen : (['\\', c] ++ escapeStr t).length = (escapeStr t).length + 2 := by
        simp
      rw [hlen]
      have hsh : (['\\', c] ++ escapeStr t) ++ r = '\\' :: c :: (escapeStr t ++ r) := by
        simp
      rw [hsh]
      have he1 : fuel + ((escapeStr t).length + 2) =
          (fuel + (escapeStr t).length + 1) + 1 := by omega
      rw [he1]
      -- first char: backslash, skipped inside a quote
      rw [show parseArrayBody (fuel + (escapeStr t).length + 1 + 1) p true '"' bD kD it n acc
            ('\\' :: c :: (escapeStr t ++ r)) =
          parseArrayBody (fuel + (escapeStr t).length + 1) '\\' true '"' bD kD it (n + 1) acc
            (c :: (escapeStr t ++ r)) from by
        simp only [parseArrayBody]
        rw [if_neg (by intro hh; rcases hh.1 with hh1 | hh1 <;> simp at hh1),
          if_neg (by decide)]]
      -- second char: the escaped character, previous char is a backslash
      rw [show parseArrayBody (fuel + (escapeStr t).length + 1) '\\' true '"' bD kD it
            (n + 1) acc (c :: (escapeStr t ++ r)) =
          parseArrayBody (fuel + (escapeStr t).length) c true '"' bD kD it (n + 2) acc
            (escapeStr t ++ r) from by
        simp only [parseArrayBody]
        rw [if_neg (by intro hh; exact hh.2 rfl)]
        rw [if_neg (by decide)]]
      rw [ih c (fuel) bD kD it (n + 2) acc r]
      have : n + 2 + (escapeStr t).length = n + ((escapeStr t).length + 2) := by omega
      rw [this]
    · rw [if_neg hc]
      push_neg at hc
      have hlen : ([c] ++ escapeStr t).length = (escapeStr t).length + 1 := by simp
      rw [hlen]
      have hsh : ([c] ++ escapeStr t) ++ r = c :: (escapeStr t ++ r) := by simp
      rw [hsh]
      have he1 : fuel + ((escapeStr t).length + 1) = (fuel + (escapeStr t).length) + 1 := by
        omega
      rw [he1]
      rw [show parseArrayBody (fuel + (escapeStr t).length + 1) p true '"' bD kD it n acc
            (c :: (escapeStr t ++ r)) =
          parseArrayBody (fuel + (escapeStr t).length) c true '"' bD kD it (n + 1) acc
            (escapeStr t ++ r) from by
        simp only [parseArrayBody]
        by_cases hqp : (c = '"' ∨ c = '\'') ∧ p ≠ '\\'
        · rw [if_pos hqp, if_neg (by decide), if_neg (by
            rcases hqp.1 with hh | hh
            · exact absurd hh hc.2
            · rw [hh]; decide)]
        · rw [if_neg hqp, if_neg (by decide)]]
      rw [ih c fuel bD kD it (n + 1) acc r]
      have : n + 1 + (escapeStr t).length = n + ((escapeStr t).length + 1) := by omega
      rw [this]

theorem scanStr (s : Str) (hs : s.getLast? ≠ some '\\') (fuel : Nat) (prev : Char)
    (hprev : prev ≠ '\\') (qc : Char) (bD kD : Int) (it : Str) (n : Nat)
    (acc : List NBT) (r : Str) :
    parseArrayBody (fuel + (serializeString s).length) prev false qc bD kD it n acc
        (serializeString s ++ r) =
      parseArrayBody fuel '"' false '"' bD kD it (n + (serializeString s).length) acc r := by
  have hlen : (serializeString s).length = (escapeStr s).length + 2 := by
    simp [serializeString]
  rw [hlen]
  have hsh : serializeString s ++ r = '"' :: (escapeStr s ++ '"' :: r) := by
    simp [serializeString]
  rw [hsh]
  have he1 : fuel + ((escapeStr s).length + 2) =
      ((fuel + 1) + (escapeStr s).length) + 1 := by omega
  rw [he1]
  rw [stepQuoteOpen ((fuel + 1) + (escapeStr s).length) prev qc bD kD it n acc _ hprev]
  rw [scanInQ s '"' (fuel + 1) bD kD it (n + 1) acc ('"' :: r)]
  have hlast : (s.getLast?).getD '"' ≠ '\\' := by
    cases hx : s.getLast? with
    | none => simp
    | some x =>
      simp only [Option.getD_some]
      intro he
      rw [he] at hx
      exact hs hx
  rw [stepQuoteClose (fuel) _ bD kD it _ acc r hlast]
  have : n + 1 + (escapeStr s).length + 1 = n + ((escapeStr s).length + 2) := by omega
  rw [this]

theorem scanNeutral : ∀ (T : Str),
    (∀ c ∈ T, c ≠ '"' ∧ c ≠ '\'' ∧ c ≠ '\x7b' ∧ c ≠ '\x7d' ∧ c ≠ '[' ∧ c ≠ ']' ∧
      c ≠ ',') →
    ∀ (fuel : Nat) (prev : Char) (inQ : Bool) (qc : Char) (bD kD : Int) (it : Str)
      (n : Nat) (acc : List NBT) (r : Str),
    parseArrayBody (fuel + T.length) prev inQ qc bD kD it n acc (T ++ r) =
      parseArrayBody fuel ((T.getLast?).getD prev) inQ qc bD kD it (n + T.length) acc r := by
  intro T
  induction T with
  | nil => intro _ fuel prev inQ qc bD kD it n acc r; rfl
  | cons c t ih =>
    intro h fuel prev inQ qc bD kD it n acc r
    rw [getLastD_cons]
    have he1 : fuel + (c :: t).length = (fuel + t.length) + 1 := by simp; omega
    rw [he1, List.cons_append]
    rw [stepSkip (fuel + t.length) prev inQ qc c bD kD it n acc (t ++ r)
      (h c (List.mem_cons_self c t))]
    rw [ih (fun d hd => h d (List.mem_cons_of_mem c hd)) fuel c inQ qc bD kD it (n + 1) acc r]
    have : n + 1 + t.length = n + (c :: t).length := by simp; omega
    rw [this]


/-!
## Round-trip support: auxiliary character classes
-/

theorem alnum_neutral {c : Char} (h : c.isAlphanum = true) :
    c ≠ '"' ∧ c ≠ '\'' ∧ c ≠ '\x7b' ∧ c ≠ '\x7d' ∧ c ≠ '[' ∧ c ≠ ']' ∧ c ≠ ',' := by
  refine ⟨?_, ?_, ?_, ?_, ?_, ?_, ?_⟩ <;>
    (intro he; rw [he] at h; exact absurd h (by decide))

theorem dotOrDigit_neutral {c : Char} (h : c.isDigit = true ∨ c = '.') :
    c ≠ '"' ∧ c ≠ '\'' ∧ c ≠ '\x7b' ∧ c ≠ '\x7d' ∧ c ≠ '[' ∧ c ≠ ']' ∧ c ≠ ',' := by
  rcases h with h | h
  · exact alnum_neutral (digit_isAlphanum h)
  · subst h
    exact ⟨by decide, by decide, by decide, by decide, by decide, by decide, by decide⟩

theorem dotOrDigit_not_bs {c : Char} (h : c.isDigit = true ∨ c = '.') : c ≠ '\\' := by
  rcases h with h | h
  · intro he; rw [he] at h; exact absurd h (by decide)
  · subst h; decide

theorem pyStrip_cons_ne_nil {c : Char} (hc : pyWsChar c = false) (r : Str) :
    pyStrip (c :: r) ≠ [] := by
  unfold pyStrip
  rw [List.dropWhile_cons, if_neg (by simp [hc])]
  unfold dropWhileEnd
  intro hnil
  have h2 : List.dropWhile pyWsChar (c :: r).reverse = [] := by
    have := congrArg List.reverse hnil
    simpa using this
  rw [List.dropWhile_eq_nil_iff] at h2
  have hc2 := h2 c (by simp)
  rw [hc] at hc2
  exact absurd hc2 (by decide)

theorem float_chars (q : PyFloat) (hm : 0 ≤ q.m) :
    ∀ c ∈ pyFloatStr q, c.isDigit = true ∨ c = '.' := by
  obtain ⟨m, e⟩ := q
  simp only at hm
  obtain ⟨nn, rfl⟩ : ∃ nn : Nat, m = (nn : Int) := ⟨m.toNat, (Int.toNat_of_nonneg hm).symm⟩
  intro c hc
  unfold pyFloatStr at hc
  dsimp only at hc
  rw [if_neg (by
    have := normGo_m_nonneg (nn : Int) e (by omega)
    omega)] at hc
  have hpall := (pyNatStr_spec (normGo (↑nn) e).m.natAbs).2.1
  by_cases he : (normGo (↑nn) e).e = 0
  · rw [if_pos he] at hc
    simp only [List.mem_append, List.mem_cons, List.not_mem_nil, or_false] at hc
    rcases hc with h | h | h
    · exact Or.inl (List.all_eq_true.1 hpall c h)
    · exact Or.inr h
    · subst h
      exact Or.inl (by decide)
  · rw [if_neg he] at hc
    have hpadall : (List.replicate ((normGo (↑nn) e).e + 1 -
        (pyNatStr (normGo (↑nn) e).m.natAbs).length) '0' ++
        pyNatStr (normGo (↑nn) e).m.natAbs).all Char.isDigit = true := by
      rw [List.all_append]
      simp only [Bool.and_eq_true]
      refine ⟨?_, hpall⟩
      rw [List.all_eq_true]
      intro x hx
      rw [List.eq_of_mem_replicate hx]
      decide
    simp only [List.mem_append, List.mem_cons] at hc
    rcases hc with h | h | h
    · exact Or.inl (List.all_eq_true.1 (all_take Char.isDigit _ hpadall _) c h)
    · exact Or.inr h
    · exact Or.inl (List.all_eq_true.1 (all_drop Char.isDigit _ hpadall _) c h)

theorem plainKey_parts {k : Str} (h : plainKey k = true) :
    k ≠ [] ∧ (∀ c ∈ k, c.isAlphanum = true) ∧
      ∀ c t, k = c :: t → c.isDigit = false := by
  simp only [plainKey, Bool.and_eq_true] at h
  obtain ⟨⟨⟨⟨hne, hall⟩, hhead⟩, _⟩, _⟩ := h
  refine ⟨?_, List.all_eq_true.1 hall, ?_⟩
  · intro hk
    rw [hk] at hne
    exact absurd hne (by decide)
  · intro c t hk
    subst hk
    simpa using hhead

theorem plainKey_no_quote {k : Str} (h : plainKey k = true) : keyNeedsQuote k = false := by
  obtain ⟨hne, halnum, hhead⟩ := plainKey_parts h
  simp only [keyNeedsQuote, Bool.or_eq_false_iff]
  have hfil : List.filter (fun c => !(c == '_' || c == '-' || c == '.')) k = k := by
    rw [List.filter_eq_self]
    intro a ha
    have haa := halnum a ha
    have h1 : (a == '_') = false := by
      simp only [beq_eq_false_iff_ne]
      intro he; rw [he] at haa; exact absurd haa (by decide)
    have h2 : (a == '-') = false := by
      simp only [beq_eq_false_iff_ne]
      intro he; rw [he] at haa; exact absurd haa (by decide)
    have h3 : (a == '.') = false := by
      simp only [beq_eq_false_iff_ne]
      intro he; rw [he] at haa; exact absurd haa (by decide)
    simp [h1, h2, h3]
  refine ⟨⟨?_, ?_⟩, ?_⟩
  · exact contains_eq_false fun d hd he => by
      have := halnum d hd
      rw [he] at this
      exact absurd this (by decide)
  · rw [hfil]
    have hpa : pyStrIsAlnum k = true := by
      simp only [pyStrIsAlnum, Bool.and_eq_true]
      constructor
      · simpa using hne
      · rw [List.all_eq_true]
        exact halnum
    rw [hpa]
    rfl
  · cases k with
    | nil => rfl
    | cons c t => simpa using hhead c t rfl


theorem serializeItems_single (x : NBT) (pk : Option Str) :
    serializeItems [x] pk = serializeValue x none pk := rfl

theorem serializeItems_cons2 (x y : NBT) (rest : List NBT) (pk : Option Str) :
    serializeItems (x :: y :: rest) pk =
      serializeValue x none pk ++ ',' :: serializeItems (y :: rest) pk := rfl

theorem serializeKVs_single (k : Str) (v : NBT) (pk : Option Str)
    (hkey : plainKey k = true) (hpk : okOpt pk = true) :
    serializeKVs [(k, v)] pk = k ++ ':' :: serializeValue v (some k) pk := by
  have hdc : ¬(pk = some dcKey ∨ k = dcKey) := by
    rintro (h | h)
    · exact okOpt_ne_dc hpk h
    · exact plainKey_ne_dc hkey h
  rw [serializeKVs]
  rw [if_neg (by simp [plainKey_no_quote hkey]),
    if_neg (by simp [componentsTrigger_ok hpk]), if_neg hdc]

theorem serializeKVs_cons2 (k : Str) (v : NBT) (p : Str × NBT) (rest2 : List (Str × NBT))
    (pk : Option Str) (hkey : plainKey k = true) (hpk : okOpt pk = true) :
    serializeKVs ((k, v) :: p :: rest2) pk =
      (k ++ ':' :: serializeValue v (some k) pk) ++ ',' :: serializeKVs (p :: rest2) pk := by
  have hdc : ¬(pk = some dcKey ∨ k = dcKey) := by
    rintro (h | h)
    · exact okOpt_ne_dc hpk h
    · exact plainKey_ne_dc hkey h
  rw [serializeKVs]
  rw [if_neg (by simp [plainKey_no_quote hkey]),
    if_neg (by simp [componentsTrigger_ok hpk]), if_neg hdc]
  intro h
  cases h

theorem hasKeyKV_append (k : Str) (a b : List (Str × NBT)) :
    hasKeyKV k (a ++ b) = (hasKeyKV k a || hasKeyKV k b) := by
  simp [hasKeyKV, List.any_append]

theorem serializeKVs_head (k2 : Str) (v2 : NBT) (rest2 : List (Str × NBT))
    (pk : Option Str) (hkey : plainKey k2 = true) (hpk : okOpt pk = true) :
    ∃ c0 r0, serializeKVs ((k2, v2) :: rest2) pk = c0 :: r0 ∧ c0.isAlphanum = true := by
  obtain ⟨hkne, halnum, _⟩ := plainKey_parts hkey
  obtain ⟨d, ds, rfl⟩ : ∃ d ds, k2 = d :: ds := by
    cases h : k2 with
    | nil => exact absurd h hkne
    | cons d ds => exact ⟨d, ds, rfl⟩
  have hd := halnum d (List.mem_cons_self d ds)
  cases rest2 with
  | nil =>
    rw [serializeKVs_single _ _ _ hkey hpk]
    exact ⟨d, ds ++ ':' :: serializeValue v2 (some (d :: ds)) pk, by simp, hd⟩
  | cons pp rr =>
    rw [serializeKVs_cons2 _ _ _ _ _ hkey hpk]
    exact ⟨d, (ds ++ ':' :: serializeValue v2 (some (d :: ds)) pk) ++
      ',' :: serializeKVs (pp :: rr) pk, by simp, hd⟩

theorem nbtSize_pos : ∀ v : NBT, 1 ≤ nbtSize v := by
  intro v
  cases v <;> simp [nbtSize]

theorem kvsSize_pos : ∀ l : List (Str × NBT), 1 ≤ kvsSize l := by
  intro l
  cases l with
  | nil => simp [kvsSize]
  | cons p t =>
    cases p
    simp [kvsSize]

theorem itemsSize_pos : ∀ l : List NBT, 1 ≤ itemsSize l := by
  intro l
  cases l <;> simp [itemsSize]

theorem roundtripAux : ∀ sz : Nat,
    (∀ v : NBT, nbtSize v ≤ sz → ∀ key? pk : Option Str, plainV v = true →
      okOpt key? = true → okOpt pk = true →
      ∃ B, ∀ fuel, B ≤ fuel → ∀ tail, sepHead tail = true →
        parseValue fuel (serializeValue v key? pk ++ tail) = (some v, tail)) ∧
    (∀ kvs : List (Str × NBT), kvsSize kvs ≤ sz → ∀ pk : Option Str,
      ∀ acc : List (Str × NBT), plainKVs kvs = true → okOpt pk = true →
      (∀ p ∈ kvs, hasKeyKV p.1 acc = false) →
      ∃ B, ∀ fuel, B ≤ fuel → ∀ tail : Str,
        parseCompoundBody fuel (serializeKVs kvs pk ++ '\x7d' :: tail) acc =
          (acc ++ kvs, tail)) ∧
    (∀ xs : List NBT, itemsSize xs ≤ sz → ∀ pk : Option Str, plainItems xs = true →
      okOpt pk = true →
      ∃ B, ∀ fuel, B ≤ fuel → ∀ prev : Char, prev ≠ '\\' → ∀ (qc : Char)
        (acc : List NBT) (tail : Str),
        parseArrayBody fuel prev false qc 0 1 (serializeItems xs pk ++ ']' :: tail) 0 acc
          (serializeItems xs pk ++ ']' :: tail) = (acc ++ xs, tail)) ∧
    (∀ v : NBT, nbtSize v ≤ sz → ∀ key? pk : Option Str, plainV v = true →
      okOpt key? = true → okOpt pk = true →
      ∀ (fuel : Nat) (prev : Char), prev ≠ '\\' → ∀ (qc : Char) (bD kD : Int),
        1 ≤ kD → 0 ≤ bD → ∀ (it : Str) (n : Nat) (acc : List NBT) (r : Str),
      ∃ prev2 qc2, prev2 ≠ '\\' ∧
        parseArrayBody (fuel + (serializeValue v key? pk).length) prev false qc bD kD it n
            acc (serializeValue v key? pk ++ r) =
          parseArrayBody fuel prev2 false qc2 bD kD it
            (n + (serializeValue v key? pk).length) acc r) ∧
    (∀ kvs : List (Str × NBT), kvsSize kvs ≤ sz → ∀ pk : Option Str,
      plainKVs kvs = true → okOpt pk = true →
      ∀ (fuel : Nat) (prev : Char), prev ≠ '\\' → ∀ (qc : Char) (bD kD : Int),
        1 ≤ kD → 1 ≤ bD → ∀ (it : Str) (n : Nat) (acc : List NBT) (r : Str),
      ∃ prev2 qc2, prev2 ≠ '\\' ∧
        parseArrayBody (fuel + (serializeKVs kvs pk).length) prev false qc bD kD it n acc
            (serializeKVs kvs pk ++ r) =
          parseArrayBody fuel prev2 false qc2 bD kD it
            (n + (serializeKVs kvs pk).length) acc r) ∧
    (∀ xs : List NBT, itemsSize xs ≤ sz → ∀ pk : Option Str, plainItems xs = true →
      okOpt pk = true →
      ∀ (fuel : Nat) (prev : Char), prev ≠ '\\' → ∀ (qc : Char) (bD kD : Int),
        2 ≤ kD → 0 ≤ bD → ∀ (it : Str) (n : Nat) (acc : List NBT) (r : Str),
      ∃ prev2 qc2, prev2 ≠ '\\' ∧
        parseArrayBody (fuel + (serializeItems xs pk).length) prev false qc bD kD it n acc
            (serializeItems xs pk ++ r) =
          parseArrayBody fuel prev2 false qc2 bD kD it
            (n + (serializeItems xs pk).length) acc r) := by
  intro sz
  induction sz using Nat.strong_induction_on with
  | _ sz IH =>
    -- a nonempty list's getLastD is a member
    have getLastD_mem : ∀ (T : Str) (p : Char), T ≠ [] → ((T.getLast?).getD p) ∈ T := by
      intro T p hTne
      cases hx : T.getLast? with
      | none =>
        exfalso
        cases T with
        | nil => exact hTne rfl
        | cons a b =>
          rw [show (a :: b).getLast? = some ((a :: b).getLast (by simp)) from
            List.getLast?_eq_getLast _ _] at hx
          cases hx
      | some x =>
        simp only [Option.getD_some]
        exact mem_of_getLast? hx
    refine ⟨?_, ?_, ?_, ?_, ?_, ?_⟩
    · -- V: parsing back one serialized plain value
      intro v hsz key? pk hv hk hp
      cases v with
      | compound kvs =>
        have hkvs : plainKVs kvs = true := by simpa [plainV] using hv
        have hsz2 : kvsSize kvs + 1 ≤ sz := by simpa [nbtSize] using hsz
        by_cases hemp : kvs.isEmpty
        · have hkvse : kvs = [] := by simpa using hemp
          subst hkvse
          refine ⟨2, ?_⟩
          intro fuel hfuel tail hsep
          obtain ⟨f, rfl⟩ : ∃ f, fuel = f + 2 := ⟨fuel - 2, by omega⟩
          have hser : serializeValue (NBT.compound []) key? pk = ['\x7b', '\x7d'] := by
            simp [serializeValue]
          rw [hser]
          show parseValue (f + 1 + 1) ('\x7b' :: '\x7d' :: tail) = _
          simp only [parseValue]
          rw [List.dropWhile_cons, if_neg (by decide)]
          dsimp only
          rw [if_pos (by trivial)]
          simp only [parseCompoundBody]
          rw [List.dropWhile_cons, if_neg (by decide)]
          dsimp only
          rw [if_pos (by trivial)]
        · have hszlt : sz - 1 < sz := by
            have := kvsSize_pos kvs
            omega
          obtain ⟨Bc, hBc⟩ := (IH (sz - 1) hszlt).2.1 kvs (by omega) (orKey key? pk)
            [] hkvs (orKey_ok hk hp) (by intro p hp2; rfl)
          refine ⟨Bc + 1, ?_⟩
          intro fuel hfuel tail hsep
          obtain ⟨f, rfl⟩ : ∃ f, fuel = f + 1 := ⟨fuel - 1, by omega⟩
          have hser : serializeValue (NBT.compound kvs) key? pk =
              '\x7b' :: (serializeKVs kvs (orKey key? pk) ++ ['\x7d']) := by
            simp only [serializeValue, if_neg hemp]
            simp
          rw [hser]
          have hsh : ('\x7b' :: (serializeKVs kvs (orKey key? pk) ++ ['\x7d'])) ++ tail =
              '\x7b' :: (serializeKVs kvs (orKey key? pk) ++ '\x7d' :: tail) := by simp
          rw [hsh]
          simp only [parseValue]
          rw [List.dropWhile_cons, if_neg (by decide)]
          dsimp only
          rw [if_pos (by trivial)]
          rw [hBc f (by omega) tail]
          simp
      | list xs =>
        have hxs : plainItems xs = true := by simpa [plainV] using hv
        have hsz2 : itemsSize xs + 1 ≤ sz := by simpa [nbtSize] using hsz
        by_cases hemp : xs.isEmpty
        · have hxse : xs = [] := by simpa using hemp
          subst hxse
          refine ⟨2, ?_⟩
          intro fuel hfuel tail hsep
          obtain ⟨f, rfl⟩ : ∃ f, fuel = f + 2 := ⟨fuel - 2, by omega⟩
          have hser : serializeValue (NBT.list []) key? pk = ['[', ']'] := by
            simp [serializeValue]
          rw [hser]
          show parseValue (f + 1 + 1) ('[' :: ']' :: tail) = _
          simp only [parseValue]
          rw [List.dropWhile_cons, if_neg (by decide)]
          dsimp only
          rw [if_neg (by decide), if_pos (by trivial)]
          simp only [parseArrayBody]
          rw [if_neg (by decide), if_pos (by decide), if_neg (by decide),
            if_neg (by decide), if_neg (by decide), if_pos (by trivial),
            if_pos (by decide), if_neg (fun hh => absurd hh.1 (by decide))]
        · have hszlt : sz - 1 < sz := by
            have := itemsSize_pos xs
            omega
          obtain ⟨Ba, hBa⟩ := (IH (sz - 1) hszlt).2.2.1 xs (by omega) pk hxs hp
          refine ⟨Ba + 1, ?_⟩
          intro fuel hfuel tail hsep
          obtain ⟨f, rfl⟩ : ∃ f, fuel = f + 1 := ⟨fuel - 1, by omega⟩
          have hser : serializeValue (NBT.list xs) key? pk =
              '[' :: (serializeItems xs pk ++ [']']) := by
            simp only [serializeValue, if_neg hemp]
            simp
          rw [hser]
          have hsh : ('[' :: (serializeItems xs pk ++ [']'])) ++ tail =
              '[' :: (serializeItems xs pk ++ ']' :: tail) := by simp
          rw [hsh]
          simp only [parseValue]
          rw [List.dropWhile_cons, if_neg (by decide)]
          dsimp only
          rw [if_neg (by decide), if_pos (by trivial)]
          rw [hBa f (by omega) '[' (by decide) '"' [] tail]
          simp
      | str str0 =>
        refine ⟨1, ?_⟩
        intro fuel hfuel tail hsep
        obtain ⟨f, rfl⟩ : ∃ f, fuel = f + 1 := ⟨fuel - 1, by omega⟩
        have hser : serializeValue (NBT.str str0) key? pk =
            '"' :: (escapeStr str0 ++ ['"']) := rfl
        rw [hser]
        have hsh : ('"' :: (escapeStr str0 ++ ['"'])) ++ tail =
            '"' :: (escapeStr str0 ++ '"' :: tail) := by simp
        rw [hsh]
        simp only [parseValue]
        rw [List.dropWhile_cons, if_neg (by decide)]
        dsimp only
        rw [if_neg (by decide), if_neg (by decide), if_pos (by decide)]
        rw [parseStringGo_escape]
      | bool b =>
        refine ⟨1, ?_⟩
        intro fuel hfuel tail hsep
        obtain ⟨f, rfl⟩ : ∃ f, fuel = f + 1 := ⟨fuel - 1, by omega⟩
        cases b
        · have hser : serializeValue (NBT.bool false) key? pk =
              ['f', 'a', 'l', 's', 'e'] := rfl
          rw [hser]
          show parseValue (f + 1) ('f' :: 'a' :: 'l' :: 's' :: 'e' :: tail) = _
          simp only [parseValue]
          rw [List.dropWhile_cons, if_neg (by decide)]
          dsimp only
          rw [if_neg (by decide), if_neg (by decide), if_neg (by decide)]
          exact parsePrimitive_false tail
        · have hser : serializeValue (NBT.bool true) key? pk =
              ['t', 'r', 'u', 'e'] := rfl
          rw [hser]
          show parseValue (f + 1) ('t' :: 'r' :: 'u' :: 'e' :: tail) = _
          simp only [parseValue]
          rw [List.dropWhile_cons, if_neg (by decide)]
          dsimp only
          rw [if_neg (by decide), if_neg (by decide), if_neg (by decide)]
          exact parsePrimitive_true tail
      | int m =>
        have hm : 0 ≤ m := by simpa [plainV] using hv
        refine ⟨1, ?_⟩
        intro fuel hfuel tail hsep
        obtain ⟨f, rfl⟩ : ∃ f, fuel = f + 1 := ⟨fuel - 1, by omega⟩
        have hser : serializeValue (NBT.int m) key? pk = pyNatStr m.natAbs := by
          simp only [serializeValue]
          rw [if_neg (fun hh => by
            rw [keyBoolTrigger_ok hk] at hh
            exact absurd hh.1 (by decide))]
          unfold pyIntStr
          rw [if_neg (by omega)]
        rw [hser]
        obtain ⟨hne, hall, _⟩ := pyNatStr_spec m.natAbs
        obtain ⟨d, ds, hds, hd⟩ := digits_head hall hne
        rw [hds]
        have hprops := alnum_not_special (digit_isAlphanum hd)
        simp only [List.cons_append, parseValue]
        rw [List.dropWhile_cons, if_neg (by simp [ws3_false_of_pyWs hprops.1])]
        dsimp only
        rw [if_neg (by intro he; rw [he] at hd; exact absurd hd (by decide)),
          if_neg (by intro he; rw [he] at hd; exact absurd hd (by decide)),
          if_neg (by
            intro he
            rcases he with he | he <;> (rw [he] at hd; exact absurd hd (by decide)))]
        have hback : parsePrimitiveGo (d :: (ds ++ tail)) = (some (NBT.int (m.natAbs : Int)), tail) := by
          have := parsePrimitive_int m.natAbs tail hsep
          rw [hds] at this
          simpa [List.cons_append] using this
        rw [hback]
        rw [Int.natAbs_of_nonneg hm]
      | float q =>
        have hq : 0 ≤ q.m ∧ normGo q.m q.e = q := by
          have h0 := hv
          simp only [plainV, Bool.and_eq_true, decide_eq_true_eq] at h0
          exact ⟨h0.1.1, h0.1.2⟩
        refine ⟨1, ?_⟩
        intro fuel hfuel tail hsep
        obtain ⟨f, rfl⟩ : ∃ f, fuel = f + 1 := ⟨fuel - 1, by omega⟩
        have hser : serializeValue (NBT.float q) key? pk = pyFloatStr q := by
          simp only [serializeValue]
          rw [if_neg (fun hh => by
            rw [keyBoolTrigger_ok hk] at hh
            exact absurd hh.1 (by decide))]
          rw [if_neg (by
            intro hh
            rcases hh with hh | hh
            · exact okOpt_ne_dc hk hh
            · exact okOpt_ne_dc hp hh)]
        rw [hser]
        obtain ⟨d, ds, hds, hd⟩ := pyFloatStr_shape q hq.1
        rw [hds]
        have hprops := alnum_not_special (digit_isAlphanum hd)
        simp only [List.cons_append, parseValue]
        rw [List.dropWhile_cons, if_neg (by simp [ws3_false_of_pyWs hprops.1])]
        dsimp only
        rw [if_neg (by intro he; rw [he] at hd; exact absurd hd (by decide)),
          if_neg (by intro he; rw [he] at hd; exact absurd hd (by decide)),
          if_neg (by
            intro he
            rcases he with he | he <;> (rw [he] at hd; exact absurd hd (by decide)))]
        have hback : parsePrimitiveGo (d :: (ds ++ tail)) = (some (NBT.float q), tail) := by
          have := parsePrimitive_float q hq.1 hq.2 tail hsep
          rw [hds] at this
          simpa [List.cons_append] using this
        rw [hback]
    · -- CB: parsing back the serialized body of a compound
      intro kvs hsz pk acc hkvs hpk hfresh
      cases kvs with
      | nil =>
        refine ⟨1, ?_⟩
        intro fuel hfuel tail
        obtain ⟨f, rfl⟩ : ∃ f, fuel = f + 1 := ⟨fuel - 1, by omega⟩
        simp only [serializeKVs, List.nil_append]
        simp only [parseCompoundBody]
        rw [List.dropWhile_cons, if_neg (by decide)]
        dsimp only
        rw [if_pos (by trivial)]
        simp
      | cons p rest =>
        cases p with
        | mk k v =>
          have hx : plainKey k = true ∧ plainV v = true ∧ hasKeyKV k rest = false ∧
              plainKVs rest = true := by
            have h0 := hkvs
            simp only [plainKVs, Bool.and_eq_true, Bool.not_eq_true'] at h0
            exact ⟨h0.1.1.1, h0.1.1.2, h0.1.2, h0.2⟩
          obtain ⟨hkey, hv, hfreshk, hrest⟩ := hx
          have hszc : nbtSize v + kvsSize rest + 1 ≤ sz := by simpa [kvsSize] using hsz
          have hsz1 : nbtSize v ≤ sz - 1 := by
            have := kvsSize_pos rest
            omega
          have hsz2 : kvsSize rest ≤ sz - 1 := by
            have := nbtSize_pos v
            omega
          have hszlt : sz - 1 < sz := by
            have := nbtSize_pos v
            have := kvsSize_pos rest
            omega
          obtain ⟨Bv, hBv⟩ := (IH (sz - 1) hszlt).1 v hsz1 (some k) pk hv hkey hpk
          have hfresh2 : ∀ p2 ∈ rest, hasKeyKV p2.1 (acc ++ [(k, v)]) = false := by
            intro p2 hp2
            rw [hasKeyKV_append]
            have h1 : hasKeyKV p2.1 acc = false := hfresh p2 (List.mem_cons_of_mem _ hp2)
            have h2 : hasKeyKV p2.1 [(k, v)] = false := by
              simp only [hasKeyKV, List.any_cons, List.any_nil, Bool.or_false,
                decide_eq_false_iff_not]
              intro he
              have hk2 : hasKeyKV k rest = true := by
                simp only [hasKeyKV, List.any_eq_true]
                exact ⟨p2, hp2, by simp [he]⟩
              rw [hfreshk] at hk2
              cases hk2
            rw [h1, h2]
            rfl
          obtain ⟨Bc, hBc⟩ := (IH (sz - 1) hszlt).2.1 rest hsz2 pk (acc ++ [(k, v)])
            hrest hpk hfresh2
          obtain ⟨hkne, halnum, _⟩ := plainKey_parts hkey
          obtain ⟨d, ds, rfl⟩ : ∃ d ds, k = d :: ds := by
            cases h : k with
            | nil => exact absurd h hkne
            | cons d ds => exact ⟨d, ds, rfl⟩
          have hall : (d :: ds).all Char.isAlphanum = true := List.all_eq_true.2 halnum
          have hdal : d.isAlphanum = true := halnum d (List.mem_cons_self d ds)
          have hdws : ws3 d = false := ws3_false_of_pyWs (alnum_not_special hdal).1
          obtain ⟨c0, r0, hserEq, hc0pws, hc0ws3, hc0colon, hc0comma, hc0brace⟩ :=
            serHead v (some (d :: ds)) pk hv hkey hpk
          have key_trace : ∀ f : Nat, Bv ≤ f → ∀ tail1 : Str, sepHead tail1 = true →
              parseCompoundBody (f + 1)
                (((d :: ds) ++ ':' :: serializeValue v (some (d :: ds)) pk) ++ tail1) acc =
              parseCompoundBody f
                (tail1.dropWhile (fun c2 => ws3 c2 || c2 == ','))
                (acc ++ [(d :: ds, v)]) := by
            intro f hf tail1 hsep1
            have hsh : (((d :: ds) ++ ':' :: serializeValue v (some (d :: ds)) pk) ++
                tail1) =
                d :: (ds ++ ':' :: (serializeValue v (some (d :: ds)) pk ++ tail1)) := by
              simp
            rw [hsh]
            simp only [parseCompoundBody]
            rw [List.dropWhile_cons, if_neg (by simp [hdws])]
            dsimp only
            rw [if_neg (show ¬d = '\x7d' by
              intro he
              rw [he] at hdal
              exact absurd hdal (by decide))]
            have hpk2 : parseKey
                (d :: (ds ++ ':' :: (serializeValue v (some (d :: ds)) pk ++ tail1))) =
                (some (d :: ds),
                  ':' :: (serializeValue v (some (d :: ds)) pk ++ tail1)) := by
              have h0 := parseKey_alnum (d :: ds) hall hkne ':' (by decide)
                (serializeValue v (some (d :: ds)) pk ++ tail1)
              simpa [List.cons_append] using h0
            rw [hpk2]
            dsimp only
            have hs3 : List.dropWhile (fun c2 => ws3 c2 || c2 == ':')
                (':' :: (serializeValue v (some (d :: ds)) pk ++ tail1)) =
                serializeValue v (some (d :: ds)) pk ++ tail1 := by
              rw [List.dropWhile_cons, if_pos (by decide), hserEq, List.cons_append,
                List.dropWhile_cons, if_neg (by simp [hc0ws3, hc0colon])]
            rw [hs3]
            rw [hBv f hf tail1 hsep1]
            dsimp only
            rw [insertKV_fresh _ _ _ (hfresh (d :: ds, v) (List.mem_cons_self _ _))]
          refine ⟨Bv + Bc + 1, ?_⟩
          intro fuel hfuel tail
          obtain ⟨f, rfl⟩ : ∃ f, fuel = f + 1 := ⟨fuel - 1, by omega⟩
          cases rest with
          | nil =>
            rw [serializeKVs_single _ _ _ hkey hpk]
            rw [key_trace f (by omega) ('\x7d' :: tail) rfl]
            rw [show List.dropWhile (fun c2 => ws3 c2 || c2 == ',') ('\x7d' :: tail) =
                '\x7d' :: tail from by rw [List.dropWhile_cons, if_neg (by decide)]]
            have h2 := hBc f (by omega) tail
            simp only [serializeKVs, List.nil_append, List.append_nil] at h2
            exact h2
          | cons pp rest2 =>
            cases pp with
            | mk k2 v2 =>
              rw [serializeKVs_cons2 _ _ _ _ _ hkey hpk]
              have hsh2 : (((d :: ds) ++ ':' :: serializeValue v (some (d :: ds)) pk) ++
                  ',' :: serializeKVs ((k2, v2) :: rest2) pk) ++ '\x7d' :: tail =
                  ((d :: ds) ++ ':' :: serializeValue v (some (d :: ds)) pk) ++
                    (',' :: (serializeKVs ((k2, v2) :: rest2) pk ++ '\x7d' :: tail)) := by
                simp
              rw [hsh2]
              rw [key_trace f (by omega)
                (',' :: (serializeKVs ((k2, v2) :: rest2) pk ++ '\x7d' :: tail)) rfl]
              have hkey2 : plainKey k2 = true := by
                have h0 := hrest
                simp only [plainKVs, Bool.and_eq_true] at h0
                exact h0.1.1.1
              obtain ⟨c3, r3, hskEq, hc3⟩ := serializeKVs_head k2 v2 rest2 pk hkey2 hpk
              have hc3p := alnum_not_special hc3
              rw [show List.dropWhile (fun c2 => ws3 c2 || c2 == ',')
                  (',' :: (serializeKVs ((k2, v2) :: rest2) pk ++ '\x7d' :: tail)) =
                  serializeKVs ((k2, v2) :: rest2) pk ++ '\x7d' :: tail from by
                rw [List.dropWhile_cons, if_pos (by decide), hskEq, List.cons_append,
                  List.dropWhile_cons,
                  if_neg (by simp [ws3_false_of_pyWs hc3p.1, hc3p.2.1])]]
              rw [hBc f (by omega) tail]
              simp
    · -- AB: parsing back the serialized items of a list
      intro xs hsz pk hxs hpk
      cases xs with
      | nil =>
        refine ⟨1, ?_⟩
        intro fuel hfuel prev hprev qc acc tail
        obtain ⟨f, rfl⟩ : ∃ f, fuel = f + 1 := ⟨fuel - 1, by omega⟩
        simp only [serializeItems, List.nil_append]
        simp only [parseArrayBody]
        rw [if_neg (fun hh => absurd hh.1 (by decide)), if_pos (by decide),
          if_neg (by decide), if_neg (by decide), if_neg (by decide), if_pos (by trivial),
          if_pos (by decide), if_neg (fun hh => absurd hh.1 (by decide))]
        simp
      | cons v rest =>
        have hx : plainV v = true ∧ plainItems rest = true := by
          have h0 := hxs
          simp only [plainItems, Bool.and_eq_true] at h0
          exact ⟨h0.1, h0.2⟩
        obtain ⟨hv, hrest⟩ := hx
        have hszc : nbtSize v + itemsSize rest + 1 ≤ sz := by simpa [itemsSize] using hsz
        have hsz1 : nbtSize v ≤ sz - 1 := by
          have := itemsSize_pos rest
          omega
        have hsz2 : itemsSize rest ≤ sz - 1 := by
          have := nbtSize_pos v
          omega
        have hszlt : sz - 1 < sz := by
          have := nbtSize_pos v
          have := itemsSize_pos rest
          omega
        obtain ⟨Bv, hBv⟩ := (IH (sz - 1) hszlt).1 v hsz1 none pk hv rfl hpk
        obtain ⟨Ba, hBa⟩ := (IH (sz - 1) hszlt).2.2.1 rest hsz2 pk hrest hpk
        obtain ⟨c0, r0, hserEq, hc0pws, hc0ws3, hc0colon, hc0comma, hc0brace⟩ :=
          serHead v none pk hv rfl hpk
        have hlpos : 0 < (serializeValue v none pk).length := by
          rw [hserEq]
          simp
        have hstrip : pyStrip (serializeValue v none pk) ≠ [] := by
          rw [hserEq]
          exact pyStrip_cons_ne_nil hc0pws r0
        refine ⟨Bv + Ba + (serializeValue v none pk).length + 1, ?_⟩
        intro fuel hfuel prev hprev qc acc tail
        obtain ⟨f2, rfl⟩ : ∃ f2, fuel = f2 + 1 + (serializeValue v none pk).length :=
          ⟨fuel - 1 - (serializeValue v none pk).length, by omega⟩
        cases rest with
        | nil =>
          rw [serializeItems_single]
          obtain ⟨p2, q2, hp2, hsv⟩ := (IH (sz - 1) hszlt).2.2.2.1 v hsz1 none pk hv rfl
            hpk (f2 + 1) prev hprev qc 0 1 (by decide) (by decide)
            (serializeValue v none pk ++ ']' :: tail) 0 acc (']' :: tail)
          rw [hsv]
          simp only [Nat.zero_add]
          simp only [parseArrayBody]
          rw [if_neg (fun hh => absurd hh.1 (by decide)), if_pos (by decide),
            if_neg (by decide), if_neg (by decide), if_neg (by decide),
            if_pos (by trivial), if_pos (by decide)]
          have hcond : (serializeValue v none pk).length > 0 ∧
              pyStrip (List.take (serializeValue v none pk).length
                (serializeValue v none pk ++ ']' :: tail)) ≠ [] := by
            refine ⟨hlpos, ?_⟩
            rw [List.take_left]
            exact hstrip
          rw [if_pos hcond]
          rw [hBv f2 (by omega) (']' :: tail) rfl]
        | cons w rest2 =>
          rw [serializeItems_cons2]
          have hsh : (serializeValue v none pk ++ ',' :: serializeItems (w :: rest2) pk)
              ++ ']' :: tail =
              serializeValue v none pk ++
                (',' :: (serializeItems (w :: rest2) pk ++ ']' :: tail)) := by
            simp
          rw [hsh]
          obtain ⟨p2, q2, hp2, hsv⟩ := (IH (sz - 1) hszlt).2.2.2.1 v hsz1 none pk hv rfl
            hpk (f2 + 1) prev hprev qc 0 1 (by decide) (by decide)
            (serializeValue v none pk ++
              (',' :: (serializeItems (w :: rest2) pk ++ ']' :: tail))) 0 acc
            (',' :: (serializeItems (w :: rest2) pk ++ ']' :: tail))
          rw [hsv]
          simp only [Nat.zero_add]
          simp only [parseArrayBody]
          rw [if_neg (fun hh => absurd hh.1 (by decide)), if_pos (by decide),
            if_neg (by decide), if_neg (by decide), if_neg (by decide),
            if_neg (by decide),
            if_pos (by exact ⟨trivial, trivial, trivial⟩)]
          have hcond : (serializeValue v none pk).length > 0 ∧
              pyStrip (List.take (serializeValue v none pk).length
                (serializeValue v none pk ++
                  (',' :: (serializeItems (w :: rest2) pk ++ ']' :: tail)))) ≠ [] := by
            refine ⟨hlpos, ?_⟩
            rw [List.take_left]
            exact hstrip
          rw [if_pos hcond]
          rw [hBv f2 (by omega)
            (',' :: (serializeItems (w :: rest2) pk ++ ']' :: tail)) rfl]
          dsimp only
          rw [hBa f2 (by omega) ',' (by decide) q2 (acc ++ [v]) tail]
          simp
    · -- ScanV: scanning one serialized plain value inside an array
      intro v hsz key? pk hv hk hp fuel prev hprev qc bD kD hkD hbD it n acc r
      cases v with
      | compound kvs =>
        have hkvs : plainKVs kvs = true := by simpa [plainV] using hv
        have hsz2 : kvsSize kvs + 1 ≤ sz := by simpa [nbtSize] using hsz
        by_cases hemp : kvs.isEmpty
        · have hser : serializeValue (.compound kvs) key? pk = ['\x7b', '\x7d'] := by
            simp only [serializeValue, if_pos hemp]
          rw [hser]
          refine ⟨'\x7d', qc, by decide, ?_⟩
          show parseArrayBody (fuel + 2) prev false qc bD kD it n acc
            ('\x7b' :: '\x7d' :: r) = _
          have he1 : fuel + 2 = (fuel + 1) + 1 := by omega
          rw [he1, stepOpenBrace, stepCloseBrace]
          have he2 : bD + 1 - 1 = bD := by omega
          rw [he2]
          rfl
        · have hser : serializeValue (.compound kvs) key? pk =
              '\x7b' :: (serializeKVs kvs (orKey key? pk) ++ ['\x7d']) := by
            simp only [serializeValue, if_neg hemp]
            simp
          have hSK := (IH (sz - 1) (by omega)).2.2.2.2.1 kvs (by omega)
            (orKey key? pk) hkvs (orKey_ok hk hp)
          obtain ⟨p2, q2, hp2, hscan⟩ := hSK (fuel + 1) '\x7b' (by decide) qc (bD + 1) kD
            hkD (by omega) it (n + 1) acc ('\x7d' :: r)
          rw [hser]
          refine ⟨'\x7d', q2, by decide, ?_⟩
          have hlen : ('\x7b' :: (serializeKVs kvs (orKey key? pk) ++ ['\x7d'])).length =
              (serializeKVs kvs (orKey key? pk)).length + 2 := by
            simp
          rw [hlen]
          have hsh : ('\x7b' :: (serializeKVs kvs (orKey key? pk) ++ ['\x7d'])) ++ r =
              '\x7b' :: (serializeKVs kvs (orKey key? pk) ++ '\x7d' :: r) := by
            simp
          rw [hsh]
          have he1 : fuel + ((serializeKVs kvs (orKey key? pk)).length + 2) =
              ((fuel + 1) + (serializeKVs kvs (orKey key? pk)).length) + 1 := by omega
          rw [he1, stepOpenBrace]
          rw [hscan]
          rw [stepCloseBrace]
          have he2 : bD + 1 - 1 = bD := by omega
          rw [he2]
          have he3 : n + 1 + (serializeKVs kvs (orKey key? pk)).length + 1 =
              n + ((serializeKVs kvs (orKey key? pk)).length + 2) := by omega
          rw [he3]
      | list xs =>
        have hxs : plainItems xs = true := by simpa [plainV] using hv
        have hsz2 : itemsSize xs + 1 ≤ sz := by simpa [nbtSize] using hsz
        by_cases hemp : xs.isEmpty
        · have hser : serializeValue (.list xs) key? pk = ['[', ']'] := by
            simp only [serializeValue, if_pos hemp]
          rw [hser]
          refine ⟨']', qc, by decide, ?_⟩
          show parseArrayBody (fuel + 2) prev false qc bD kD it n acc ('[' :: ']' :: r) = _
          have he1 : fuel + 2 = (fuel + 1) + 1 := by omega
          rw [he1, stepOpenBracket, stepCloseBracket _ _ _ _ _ _ _ _ _ (by omega)]
          have he2 : kD + 1 - 1 = kD := by omega
          rw [he2]
          rfl
        · have hser : serializeValue (.list xs) key? pk =
              '[' :: (serializeItems xs pk ++ [']']) := by
            simp only [serializeValue, if_neg hemp]
            simp
          have hSI := (IH (sz - 1) (by omega)).2.2.2.2.2 xs (by omega) pk hxs hp
          obtain ⟨p2, q2, hp2, hscan⟩ := hSI (fuel + 1) '[' (by decide) qc bD (kD + 1)
            (by omega) hbD it (n + 1) acc (']' :: r)
          rw [hser]
          refine ⟨']', q2, by decide, ?_⟩
          have hlen : ('[' :: (serializeItems xs pk ++ [']'])).length =
              (serializeItems xs pk).length + 2 := by simp
          rw [hlen]
          have hsh : ('[' :: (serializeItems xs pk ++ [']'])) ++ r =
              '[' :: (serializeItems xs pk ++ ']' :: r) := by simp
          rw [hsh]
          have he1 : fuel + ((serializeItems xs pk).length + 2) =
              ((fuel + 1) + (serializeItems xs pk).length) + 1 := by omega
          rw [he1, stepOpenBracket]
          rw [hscan]
          rw [stepCloseBracket _ _ _ _ _ _ _ _ _ (by omega)]
          have he2 : kD + 1 - 1 = kD := by omega
          rw [he2]
          have he3 : n + 1 + (serializeItems xs pk).length + 1 =
              n + ((serializeItems xs pk).length + 2) := by omega
          rw [he3]
      | str str0 =>
        have hs : str0.getLast? ≠ some '\\' := by simpa [plainV] using hv
        refine ⟨'"', '"', by decide, ?_⟩
        exact scanStr str0 hs fuel prev hprev qc bD kD it n acc r
      | bool b =>
        cases b
        · have hser : serializeValue (.bool false) key? pk =
              ['f', 'a', 'l', 's', 'e'] := rfl
          rw [hser]
          refine ⟨'e', qc, by decide, ?_⟩
          have h := scanNeutral ['f', 'a', 'l', 's', 'e'] (by decide) fuel prev false qc
            bD kD it n acc r
          simpa using h
        · have hser : serializeValue (.bool true) key? pk = ['t', 'r', 'u', 'e'] := rfl
          rw [hser]
          refine ⟨'e', qc, by decide, ?_⟩
          have h := scanNeutral ['t', 'r', 'u', 'e'] (by decide) fuel prev false qc
            bD kD it n acc r
          simpa using h
      | int m =>
        have hm : 0 ≤ m := by simpa [plainV] using hv
        have hser : serializeValue (.int m) key? pk = pyNatStr m.natAbs := by
          simp only [serializeValue]
          rw [if_neg (fun hh => by
            rw [keyBoolTrigger_ok hk] at hh
            exact absurd hh.1 (by decide))]
          unfold pyIntStr
          rw [if_neg (by omega)]
        rw [hser]
        obtain ⟨hne, hall, _⟩ := pyNatStr_spec m.natAbs
        have hmemd : ∀ c ∈ pyNatStr m.natAbs, c.isDigit = true := List.all_eq_true.1 hall
        refine ⟨((pyNatStr m.natAbs).getLast?).getD prev, qc, ?_, ?_⟩
        · exact dotOrDigit_not_bs (Or.inl (hmemd _ (getLastD_mem _ prev hne)))
        · exact scanNeutral (pyNatStr m.natAbs)
            (fun c hc => dotOrDigit_neutral (Or.inl (hmemd c hc))) fuel prev false qc
            bD kD it n acc r
      | float q =>
        have hq : 0 ≤ q.m ∧ normGo q.m q.e = q := by
          have h0 := hv
          simp only [plainV, Bool.and_eq_true, decide_eq_true_eq] at h0
          exact ⟨h0.1.1, h0.1.2⟩
        have hser : serializeValue (.float q) key? pk = pyFloatStr q := by
          simp only [serializeValue]
          rw [if_neg (fun hh => by
            rw [keyBoolTrigger_ok hk] at hh
            exact absurd hh.1 (by decide))]
          rw [if_neg (by
            intro hh
            rcases hh with hh | hh
            · exact okOpt_ne_dc hk hh
            · exact okOpt_ne_dc hp hh)]
        rw [hser]
        have hchars := float_chars q hq.1
        obtain ⟨c0, r0, hshape, _⟩ := pyFloatStr_shape q hq.1
        have hfne : pyFloatStr q ≠ [] := by rw [hshape]; simp
        refine ⟨((pyFloatStr q).getLast?).getD prev, qc, ?_, ?_⟩
        · exact dotOrDigit_not_bs (hchars _ (getLastD_mem _ prev hfne))
        · exact scanNeutral (pyFloatStr q)
            (fun c hc => dotOrDigit_neutral (hchars c hc)) fuel prev false qc bD kD it n
            acc r
    · -- ScanKVs: scanning the serialized body of a compound inside an array
      intro kvs hsz pk hkvs hpk fuel prev hprev qc bD kD hkD hbD it n acc r
      cases kvs with
      | nil => exact ⟨prev, qc, hprev, rfl⟩
      | cons p rest =>
        cases p with
        | mk k v =>
          have hx : plainKey k = true ∧ plainV v = true ∧ plainKVs rest = true := by
            have h0 := hkvs
            simp only [plainKVs, Bool.and_eq_true] at h0
            exact ⟨h0.1.1.1, h0.1.1.2, h0.2⟩
          obtain ⟨hkey, hv, hrest⟩ := hx
          have hszc : nbtSize v + kvsSize rest + 1 ≤ sz := by
            simpa [kvsSize] using hsz
          have hsz1 : nbtSize v ≤ sz - 1 := by
            have := kvsSize_pos rest
            omega
          have hsz2 : kvsSize rest ≤ sz - 1 := by
            have := nbtSize_pos v
            omega
          have hszlt : sz - 1 < sz := by
            have := nbtSize_pos v
            have := kvsSize_pos rest
            omega
          obtain ⟨hkne, halnum, _⟩ := plainKey_parts hkey
          have hkcolon : ∀ c ∈ k ++ [':'], c ≠ '"' ∧ c ≠ '\'' ∧ c ≠ '\x7b' ∧
              c ≠ '\x7d' ∧ c ≠ '[' ∧ c ≠ ']' ∧ c ≠ ',' := by
            intro c hc
            rcases List.mem_append.1 hc with h | h
            · exact alnum_neutral (halnum c h)
            · simp only [List.mem_singleton] at h
              subst h
              exact ⟨by decide, by decide, by decide, by decide, by decide, by decide,
                by decide⟩
          have hklast : ∀ p0 : Char, (((k ++ [':']).getLast?)).getD p0 = ':' := by
            intro p0
            rw [getLast?_append_right (by simp) k]
            rfl
          have hklen : (k ++ [':']).length = k.length + 1 := by simp
          cases rest with
          | nil =>
            rw [serializeKVs_single k v pk hkey hpk]
            obtain ⟨p2, q2, hp2, hsv⟩ := (IH (sz - 1) hszlt).2.2.2.1 v hsz1 (some k) pk hv
              hkey hpk fuel ':' (by decide) qc bD kD hkD (by omega) it
              (n + (k.length + 1)) acc r
            refine ⟨p2, q2, hp2, ?_⟩
            have hlen : (k ++ ':' :: serializeValue v (some k) pk).length =
                (k.length + 1) + (serializeValue v (some k) pk).length := by
              simp
              omega
            rw [hlen]
            have hsh : (k ++ ':' :: serializeValue v (some k) pk) ++ r =
                (k ++ [':']) ++ (serializeValue v (some k) pk ++ r) := by
              simp
            rw [hsh]
            have he1 : fuel + ((k.length + 1) + (serializeValue v (some k) pk).length) =
                (fuel + (serializeValue v (some k) pk).length) + (k ++ [':']).length := by
              rw [hklen]
              omega
            rw [he1]
            rw [scanNeutral (k ++ [':']) hkcolon
              (fuel + (serializeValue v (some k) pk).length) prev false qc bD kD it n acc
              (serializeValue v (some k) pk ++ r)]
            rw [hklast prev, hklen]
            rw [hsv]
            have he3 : n + (k.length + 1) + (serializeValue v (some k) pk).length =
                n + ((k.length + 1) + (serializeValue v (some k) pk).length) := by omega
            rw [he3]
          | cons pp rest2 =>
            rw [serializeKVs_cons2 k v pp rest2 pk hkey hpk]
            obtain ⟨p2, q2, hp2, hsv⟩ := (IH (sz - 1) hszlt).2.2.2.1 v hsz1 (some k) pk hv
              hkey hpk (fuel + (serializeKVs (pp :: rest2) pk).length + 1) ':'
              (by decide) qc bD kD hkD (by omega) it (n + (k.length + 1)) acc
              (',' :: (serializeKVs (pp :: rest2) pk ++ r))
            obtain ⟨p3, q3, hp3, hsk⟩ := (IH (sz - 1) hszlt).2.2.2.2.1 (pp :: rest2)
              hsz2 pk hrest hpk fuel ',' (by decide) q2 bD kD hkD hbD it
              (n + (k.length + 1) + (serializeValue v (some k) pk).length + 1) acc r
            refine ⟨p3, q3, hp3, ?_⟩
            have hlen : ((k ++ ':' :: serializeValue v (some k) pk) ++
                ',' :: serializeKVs (pp :: rest2) pk).length =
                (k.length + 1) + (serializeValue v (some k) pk).length + 1 +
                  (serializeKVs (pp :: rest2) pk).length := by
              simp
              omega
            rw [hlen]
            have hsh : ((k ++ ':' :: serializeValue v (some k) pk) ++
                ',' :: serializeKVs (pp :: rest2) pk) ++ r =
                (k ++ [':']) ++ (serializeValue v (some k) pk ++
                  (',' :: (serializeKVs (pp :: rest2) pk ++ r))) := by
              simp
            rw [hsh]
            have he1 : fuel + ((k.length + 1) + (serializeValue v (some k) pk).length + 1 +
                (serializeKVs (pp :: rest2) pk).length) =
                ((fuel + (serializeKVs (pp :: rest2) pk).length + 1 +
                  (serializeValue v (some k) pk).length)) + (k ++ [':']).length := by
              rw [hklen]
              omega
            rw [he1]
            rw [scanNeutral (k ++ [':']) hkcolon _ prev false qc bD kD it n acc _]
            rw [hklast prev, hklen]
            rw [hsv]
            have he2 : fuel + (serializeKVs (pp :: rest2) pk).length + 1 =
                (fuel + (serializeKVs (pp :: rest2) pk).length) + 1 := by omega
            rw [he2]
            rw [stepComma _ p2 q2 bD kD it _ acc _ (by omega)]
            rw [hsk]
            have he3 : n + (k.length + 1) + (serializeValue v (some k) pk).length + 1 +
                (serializeKVs (pp :: rest2) pk).length =
                n + ((k.length + 1) + (serializeValue v (some k) pk).length + 1 +
                  (serializeKVs (pp :: rest2) pk).length) := by omega
            rw [he3]
    · -- ScanItems: scanning the serialized items of a nested list
      intro xs hsz pk hxs hpk fuel prev hprev qc bD kD hkD hbD it n acc r
      cases xs with
      | nil => exact ⟨prev, qc, hprev, rfl⟩
      | cons v rest =>
        have hx : plainV v = true ∧ plainItems rest = true := by
          have h0 := hxs
          simp only [plainItems, Bool.and_eq_true] at h0
          exact ⟨h0.1, h0.2⟩
        obtain ⟨hv, hrest⟩ := hx
        have hszc : nbtSize v + itemsSize rest + 1 ≤ sz := by
          simpa [itemsSize] using hsz
        have hsz1 : nbtSize v ≤ sz - 1 := by
          have := itemsSize_pos rest
          omega
        have hsz2 : itemsSize rest ≤ sz - 1 := by
          have := nbtSize_pos v
          omega
        have hszlt : sz - 1 < sz := by
          have := nbtSize_pos v
          have := itemsSize_pos rest
          omega
        cases rest with
        | nil =>
          rw [serializeItems_single]
          exact (IH (sz - 1) hszlt).2.2.2.1 v hsz1 none pk hv rfl hpk fuel prev hprev qc
            bD kD (by omega) hbD it n acc r
        | cons w rest2 =>
          rw [serializeItems_cons2]
          obtain ⟨p2, q2, hp2, hsv⟩ := (IH (sz - 1) hszlt).2.2.2.1 v hsz1 none pk hv rfl
            hpk (fuel + (serializeItems (w :: rest2) pk).length + 1) prev hprev qc bD kD
            (by omega) hbD it n acc (',' :: (serializeItems (w :: rest2) pk ++ r))
          obtain ⟨p3, q3, hp3, hsi⟩ := (IH (sz - 1) hszlt).2.2.2.2.2 (w :: rest2) hsz2 pk
            hrest hpk fuel ',' (by decide) q2 bD kD hkD hbD it
            (n + (serializeValue v none pk).length + 1) acc r
          refine ⟨p3, q3, hp3, ?_⟩
          have hlen : (serializeValue v none pk ++
              ',' :: serializeItems (w :: rest2) pk).length =
              (serializeValue v none pk).length + 1 +
                (serializeItems (w :: rest2) pk).length := by
            simp
            omega
          rw [hlen]
          have hsh : (serializeValue v none pk ++
              ',' :: serializeItems (w :: rest2) pk) ++ r =
              serializeValue v none pk ++
                (',' :: (serializeItems (w :: rest2) pk ++ r)) := by
            simp
          rw [hsh]
          have he1 : fuel + ((serializeValue v none pk).length + 1 +
              (serializeItems (w :: rest2) pk).length) =
              (fuel + (serializeItems (w :: rest2) pk).length + 1) +
                (serializeValue v none pk).length := by omega
          rw [he1]
          rw [hsv]
          have he2 : fuel + (serializeItems (w :: rest2) pk).length + 1 =
              (fuel + (serializeItems (w :: rest2) pk).length) + 1 := by omega
          rw [he2]
          rw [stepComma _ p2 q2 bD kD it _ acc _ (by omega)]
          rw [hsi]
          have he3 : n + (serializeValue v none pk).length + 1 +
              (serializeItems (w :: rest2) pk).length =
              n + ((serializeValue v none pk).length + 1 +
                (serializeItems (w :: rest2) pk).length) := by omega
          rw [he3]


theorem getLast?_of_ne_nil {s : Str} (h : s ≠ []) : ∃ c, s.getLast? = some c := by
  cases s with
  | nil => exact absurd rfl h
  | cons a t => exact ⟨(a :: t).getLast (by simp), List.getLast?_eq_getLast _ _⟩

theorem serLast (v : NBT) (key? pk : Option Str) (hv : plainV v = true)
    (hk : okOpt key? = true) (hp : okOpt pk = true) :
    ∃ cl, (serializeValue v key? pk).getLast? = some cl ∧ pyWsChar cl = false := by
  cases v with
  | compound kvs =>
    simp only [serializeValue]
    split
    · exact ⟨'\x7d', by decide, by decide⟩
    · refine ⟨'\x7d', ?_, by decide⟩
      rw [getLast?_append_right (show (['\x7d'] : Str) ≠ [] by simp)]
      decide
  | list xs =>
    simp only [serializeValue]
    split
    · exact ⟨']', by decide, by decide⟩
    · refine ⟨']', ?_, by decide⟩
      rw [getLast?_append_right (show (([']'] : Str)) ≠ [] by simp)]
      decide
  | str s =>
    refine ⟨'"', ?_, by decide⟩
    simp only [serializeValue, serializeString]
    rw [getLast?_append_right (show ((['"'] : Str)) ≠ [] by simp)]
    decide
  | bool b =>
    cases b
    · exact ⟨'e', by simp only [serializeValue]; decide, by decide⟩
    · exact ⟨'e', by simp only [serializeValue]; decide, by decide⟩
  | int n =>
    have hn : 0 ≤ n := by simpa [plainV] using hv
    have hb := keyBoolTrigger_ok hk
    have hcond : ¬(keyBoolTrigger key? = true ∧ (n = 0 ∨ n = 1)) := fun hh => by
      rw [hb] at hh
      exact absurd hh.1 (by decide)
    simp only [serializeValue]
    rw [if_neg hcond]
    unfold pyIntStr
    rw [if_neg (by omega)]
    obtain ⟨hne, hall, _⟩ := pyNatStr_spec n.natAbs
    obtain ⟨cl, hcl⟩ := getLast?_of_ne_nil hne
    have hd : cl.isDigit = true := List.all_eq_true.1 hall cl (mem_of_getLast? hcl)
    exact ⟨cl, hcl, (alnum_not_special (digit_isAlphanum hd)).1⟩
  | float q =>
    have hq : 0 ≤ q.m ∧ normGo q.m q.e = q := by
      have h0 := hv
      simp only [plainV, Bool.and_eq_true, decide_eq_true_eq] at h0
      exact ⟨h0.1.1, h0.1.2⟩
    have hb := keyBoolTrigger_ok hk
    have hcond1 : ¬(keyBoolTrigger key? = true ∧ pyFloatIsZeroOne q = true) := fun hh => by
      rw [hb] at hh
      exact absurd hh.1 (by decide)
    have hcond2 : ¬(key? = some dcKey ∨ pk = some dcKey) := by
      intro hh
      rcases hh with hh | hh
      · exact okOpt_ne_dc hk hh
      · exact okOpt_ne_dc hp hh
    simp only [serializeValue]
    rw [if_neg hcond1, if_neg hcond2]
    obtain ⟨c, r, heq, hc⟩ := pyFloatStr_shape q hq.1
    have hne : pyFloatStr q ≠ [] := by
      rw [heq]
      simp
    obtain ⟨cl, hcl⟩ := getLast?_of_ne_nil hne
    rcases float_chars q hq.1 cl (mem_of_getLast? hcl) with hd | hd
    · exact ⟨cl, hcl, (alnum_not_special (digit_isAlphanum hd)).1⟩
    · refine ⟨cl, hcl, ?_⟩
      rw [hd]
      decide

theorem pyStrip_id {s : Str} {c0 : Char} {r0 : Str} (hser : s = c0 :: r0)
    (h0 : pyWsChar c0 = false) {cl : Char} (hl : s.getLast? = some cl)
    (hlw : pyWsChar cl = false) : pyStrip s = s := by
  subst hser
  unfold pyStrip
  rw [List.dropWhile_cons, if_neg (by simp [h0])]
  unfold dropWhileEnd
  have hrev : (c0 :: r0).reverse.head? = some cl := by
    rw [List.head?_reverse]
    exact hl
  obtain ⟨u, hu⟩ : ∃ u, (c0 :: r0).reverse = cl :: u := by
    cases hx : (c0 :: r0).reverse with
    | nil =>
      rw [hx] at hrev
      cases hrev
    | cons a u =>
      rw [hx] at hrev
      simp only [List.head?_cons, Option.some.injEq] at hrev
      exact ⟨u, by rw [hrev]⟩
  rw [hu, List.dropWhile_cons, if_neg (by simp [hlw]), ← hu, List.reverse_reverse]

theorem roundtrip_prim (t : NBT) (hv : plainV t = true) (c0 : Char) (r0 : Str)
    (hser : serializeValue t none none = c0 :: r0)
    (h1 : ¬c0 = '\x7b') (h2 : ¬c0 = '[') :
    parse_snbt (serialize_snbt t) = t := by
  obtain ⟨Bv, hBv⟩ := (roundtripAux (nbtSize t)).1 t le_rfl none none hv rfl rfl
  obtain ⟨c0', r0', hserEq', hpw', _, _, _, _⟩ := serHead t none none hv rfl rfl
  obtain ⟨hc0c, -⟩ := List.cons.inj (hserEq'.symm.trans hser)
  have hpw : pyWsChar c0 = false := hc0c ▸ hpw'
  obtain ⟨cl, hcl, hclw⟩ := serLast t none none hv rfl rfl
  have hstrip : pyStrip (serializeValue t none none) = serializeValue t none none :=
    pyStrip_id hser hpw hcl hclw
  obtain ⟨F, hF1, hF2⟩ : ∃ F,
      fuelFor (pyStrip (serializeValue t none none)).length ≤ F ∧ Bv ≤ F :=
    ⟨max (fuelFor (pyStrip (serializeValue t none none)).length) Bv,
      Nat.le_max_left _ _, Nat.le_max_right _ _⟩
  show parse_snbt (serializeValue t none none) = t
  rw [← parse_snbtFuel_stable (serializeValue t none none) F hF1]
  have hv2 : parseValue F (c0 :: r0) = (some t, []) := by
    have h5 := hBv F hF2 [] rfl
    rwa [List.append_nil, hser] at h5
  simp only [parse_snbtFuel]
  rw [hstrip, hser]
  dsimp only
  rw [if_neg h1, if_neg h2, hv2]

theorem plain_roundtrip (t : NBT) (h : plainV t = true) :
    parse_snbt (serialize_snbt t) = t := by
  cases t with
  | compound kvs =>
    have hkvs : plainKVs kvs = true := by simpa [plainV] using h
    obtain ⟨Bc, hBc⟩ := (roundtripAux (kvsSize kvs)).2.1 kvs le_rfl none [] hkvs rfl
      (fun p hp => rfl)
    have hser : serializeValue (NBT.compound kvs) none none =
        '\x7b' :: (serializeKVs kvs none ++ ['\x7d']) := by
      by_cases hemp : kvs.isEmpty
      · have hk0 : kvs = [] := by simpa using hemp
        subst hk0
        rfl
      · simp only [serializeValue, if_neg hemp]
        simp [orKey]
    obtain ⟨cl, hcl, hclw⟩ := serLast (NBT.compound kvs) none none h rfl rfl
    have hstrip := pyStrip_id hser (by decide) hcl hclw
    obtain ⟨F, hF1, hF2⟩ : ∃ F,
        fuelFor (pyStrip (serializeValue (NBT.compound kvs) none none)).length ≤ F ∧
          Bc ≤ F :=
      ⟨max _ Bc, Nat.le_max_left _ _, Nat.le_max_right _ _⟩
    show parse_snbt (serializeValue (NBT.compound kvs) none none) = NBT.compound kvs
    rw [← parse_snbtFuel_stable (serializeValue (NBT.compound kvs) none none) F hF1]
    simp only [parse_snbtFuel]
    rw [hstrip, hser]
    dsimp only
    rw [if_pos rfl]
    rw [hBc F hF2 []]
    simp
  | list xs =>
    have hxs : plainItems xs = true := by simpa [plainV] using h
    obtain ⟨Ba, hBa⟩ := (roundtripAux (itemsSize xs)).2.2.1 xs le_rfl none hxs rfl
    have hser : serializeValue (NBT.list xs) none none =
        '[' :: (serializeItems xs none ++ [']']) := by
      by_cases hemp : xs.isEmpty
      · have hx0 : xs = [] := by simpa using hemp
        subst hx0
        rfl
      · simp only [serializeValue, if_neg hemp]
        simp
    obtain ⟨cl, hcl, hclw⟩ := serLast (NBT.list xs) none none h rfl rfl
    have hstrip := pyStrip_id hser (by decide) hcl hclw
    obtain ⟨F, hF1, hF2⟩ : ∃ F,
        fuelFor (pyStrip (serializeValue (NBT.list xs) none none)).length ≤ F ∧
          Ba ≤ F :=
      ⟨max _ Ba, Nat.le_max_left _ _, Nat.le_max_right _ _⟩
    show parse_snbt (serializeValue (NBT.list xs) none none) = NBT.list xs
    rw [← parse_snbtFuel_stable (serializeValue (NBT.list xs) none none) F hF1]
    simp only [parse_snbtFuel]
    rw [hstrip, hser]
    dsimp only
    rw [if_neg (by decide), if_pos rfl]
    rw [hBa F hF2 '[' (by decide) '"' [] []]
    simp
  | str s0 =>
    exact roundtrip_prim (NBT.str s0) h '"' (escapeStr s0 ++ ['"']) rfl (by decide)
      (by decide)
  | bool b =>
    cases b
    · exact roundtrip_prim (NBT.bool false) h 'f' ['a', 'l', 's', 'e'] rfl (by decide)
        (by decide)
    · exact roundtrip_prim (NBT.bool true) h 't' ['r', 'u', 'e'] rfl (by decide)
        (by decide)
  | int n =>
    have hn : 0 ≤ n := by simpa [plainV] using h
    have hser0 : serializeValue (NBT.int n) none none = pyNatStr n.natAbs := by
      simp only [serializeValue]
      rw [if_neg (fun hh => absurd hh.1 (by decide))]
      unfold pyIntStr
      rw [if_neg (by omega)]
    obtain ⟨hne, hall, _⟩ := pyNatStr_spec n.natAbs
    obtain ⟨c, r, heq, hc⟩ := digits_head hall hne
    refine roundtrip_prim (NBT.int n) h c r (by rw [hser0, heq]) ?_ ?_ <;>
      (intro he; rw [he] at hc; exact absurd hc (by decide))
  | float q =>
    have hq : 0 ≤ q.m ∧ normGo q.m q.e = q := by
      have h0 := h
      simp only [plainV, Bool.and_eq_true, decide_eq_true_eq] at h0
      exact ⟨h0.1.1, h0.1.2⟩
    have hser0 : serializeValue (NBT.float q) none none = pyFloatStr q := by
      simp only [serializeValue]
      rw [if_neg (fun hh => absurd hh.1 (by decide)),
        if_neg (by intro hh; rcases hh with hh | hh <;> exact Option.noConfusion hh)]
    obtain ⟨c, r, heq, hc⟩ := pyFloatStr_shape q hq.1
    refine roundtrip_prim (NBT.float q) h c r (by rw [hser0, heq]) ?_ ?_ <;>
      (intro he; rw [he] at hc; exact absurd hc (by decide))

/-- Claim C1 (amended): the round trip holds on the plain fragment.  For an
input `x` whose parse is a plain tree — alphanumeric non-digit-headed keys
that are unique within each compound, avoid the boolean-suffix field names,
`components` and `drop_chances`, non-negative integers, floats restricted
to `floatPlain`'s positional window (zero, or in `[1e-4, 1e16)` with at
most 15 significant digits, where `float()` and `str()` reproduce the
decimal exactly — outside it `str` switches to scientific notation, e.g.
`str(1e-05) = '1e-05'`, which the SNBT number scan re-reads as the integer
1), and strings not ending in a backslash — serializing `parse_snbt x` and
re-parsing reproduces `parse_snbt x` exactly.  (Unrestricted, the claim is
false: see `parse_serialize_parse_not_stable`.) -/
theorem parse_serialize_parse_plain (x : Str)
    (h : plainV (parse_snbt x) = true) :
    parse_snbt (serialize_snbt (parse_snbt x)) = parse_snbt x :=
  plain_roundtrip (parse_snbt x) h

/-- Witness for `parse_serialize_parse_plain` on a compound holding a list,
a float and a boolean. -/
theorem parse_serialize_parse_plain_witness :
    plainV (parse_snbt "\x7ba:[1,\x22x\x22],b:1.5,c:true\x7d".toList) = true ∧
    parse_snbt (serialize_snbt
        (parse_snbt "\x7ba:[1,\x22x\x22],b:1.5,c:true\x7d".toList)) =
      parse_snbt "\x7ba:[1,\x22x\x22],b:1.5,c:true\x7d".toList :=
  ⟨by decide, parse_serialize_parse_plain _ (by decide)⟩

end CmdConv
